import Mathlib

/-!
Shallow embedding of the `percentagent` date/time format inference engine
(files `percentagent/extract_patterns.py` and `percentagent/guess_format.py`),
together with theorems checking the natural-language specification's claims
against the embedded code.

Conventions used throughout:
* Python strings are modelled as `List Char` (or `String` where only
  evaluation is needed); `str.casefold` is modelled by ASCII lower-casing,
  which is faithful for every string this development manipulates.
* Python dicts are modelled as insertion-ordered association lists.
* Python tuples of heterogeneous runtime values are modelled by `List Obj`
  with `Obj` a small dynamic-value type, so that tuple-unpacking arity
  errors of the source are representable.
* Fallible operations (`datetime.date`, `datetime.time`, tuple unpacking,
  integer operations on non-integers) return `Except PyErr _`.
-/

namespace Percentagent

/-- Python strings are modelled as lists of characters. -/
abbrev PyStr := List Char

/-- ASCII lower-casing of one character.  Models Python `str.casefold` and
case-insensitive (`re.I`) matching for the ASCII strings handled here. -/
def lowerChar (c : Char) : Char :=
  if 'A' ≤ c ∧ c ≤ 'Z' then Char.ofNat (c.toNat + 32) else c

/-- ASCII lower-casing of a string (as a character list). -/
def lowerStr (s : PyStr) : PyStr := s.map lowerChar

/-- Python `str.split(";")`: split at every semicolon; `""` yields `[""]`. -/
def splitSemi : PyStr → List PyStr
  | [] => [[]]
  | c :: rest =>
    match splitSemi rest with
    | [] => [[]]
    | w :: ws => if c = ';' then [] :: w :: ws else (c :: w) :: ws

/-- ASCII whitespace, as recognised by Python `str.strip()`. -/
def isSpaceChar (c : Char) : Bool :=
  c = ' ' || c = '\t' || c = '\n' || c = '\r' || c = '\x0b' || c = '\x0c'

/-- Python `str.strip()` (for ASCII whitespace). -/
def stripStr (s : PyStr) : PyStr :=
  ((s.dropWhile isSpaceChar).reverse.dropWhile isSpaceChar).reverse

/-- Python `str.isdigit()` restricted to ASCII digits (the only digits the
embedded strings contain). -/
def isDigits (s : PyStr) : Bool := !s.isEmpty && s.all (·.isDigit)

/-- Numeric value of an ASCII digit string, as computed by Python `int()`. -/
def natOfDigits (s : PyStr) : Nat :=
  s.foldl (fun acc c => 10 * acc + (c.toNat - '0'.toNat)) 0

/-- Total lexicographic comparison of character lists, mirroring Python's
`<` on strings (by Unicode code point). -/
def lexLt : PyStr → PyStr → Bool
  | [], [] => false
  | [], _ :: _ => true
  | _ :: _, [] => false
  | a :: as, b :: bs => if a.toNat < b.toNat then true
      else if b.toNat < a.toNat then false else lexLt as bs

/-- Insertion sort by `lexLt` (a stable ascending sort, as Python `sorted`;
the lists sorted here never contain duplicates, so any correct sort yields
the same result). -/
def insertLex (x : PyStr) : List PyStr → List PyStr
  | [] => [x]
  | y :: ys => if lexLt y x then y :: insertLex x ys else x :: y :: ys

/-- Python `sorted` on a collection of strings. -/
def sortLocs (l : List PyStr) : List PyStr := l.foldr insertLex []

/-!
## Python dictionaries as insertion-ordered association lists
-/

/-- `dict.get`: the value at the first matching key, if any. -/
def alistGet? {K V : Type} [DecidableEq K] : List (K × V) → K → Option V
  | [], _ => none
  | (k', v') :: rest, k => if k' = k then some v' else alistGet? rest k

/-- `dict.__setitem__`: replace the value at an existing key in place, or
append a new entry (Python dicts preserve insertion order). -/
def alistSet {K V : Type} [DecidableEq K] : List (K × V) → K → V → List (K × V)
  | [], k, v => [(k, v)]
  | (k', v') :: rest, k, v =>
    if k' = k then (k, v) :: rest else (k', v') :: alistSet rest k v

/-- `defaultdict.__getitem__`: return the value at the key, creating the
entry (with the given default) at the end of the dict when missing. -/
def alistGetC {K V : Type} [DecidableEq K] (d : V) :
    List (K × V) → K → V × List (K × V)
  | [], k => (d, [(k, d)])
  | (k', v') :: rest, k =>
    if k' = k then (v', (k', v') :: rest)
    else
      let (v, rest') := alistGetC d rest k
      (v, (k', v') :: rest')

/-- Python `set` of strings, as a duplicate-free list with membership
semantics (iteration order of Python sets is unspecified; every observation
of these sets in the source is order-insensitive or sorts first). -/
def setInsert (s : List PyStr) (x : PyStr) : List PyStr :=
  if x ∈ s then s else s ++ [x]

/-- `set.update` / `set.union` (membership-wise). -/
def setUnionL (s t : List PyStr) : List PyStr := t.foldl setInsert s

/-!
## `DateParser._legal_number` (guess_format.py lines 271-284)

```python
legal = set("Cy")
if value <= 60:
    legal.update("S")
    if value <= 59:
        legal.update("M")
        if value <= 23:
            legal.update("H")
        if 1 <= value <= 31:
            legal.update("d")
            if value <= 12:
                legal.update("m")
return ((prefix + fmt, value, locales) for fmt in legal)
```
-/

/-- Runtime Python values appearing in the heterogeneous tuples this code
manipulates: integers, strings, and (interned, sorted) tuples of locale
names. -/
inductive Obj where
  | int (n : Int)
  | str (s : PyStr)
  | locs (ls : List PyStr)
deriving DecidableEq, Repr

/-- Python exceptions that the embedded code can raise. -/
inductive PyErr where
  | valueError
  | typeError
  | indexError
deriving DecidableEq, Repr

/-- One element of the tuple returned by `DateParser._lookup_keyword`:
a `("%x", value, locales)` hypothesis for a candidate token. -/
structure Hyp where
  fmt : PyStr
  value : Obj
  locales : Option (List PyStr)
deriving DecidableEq, Repr

/-- The `legal` set of conversion specifier letters computed by
`DateParser._legal_number` for a numeric token of value `value`.
Python builds a `set`; this list enumerates the same elements and is
duplicate-free, so set semantics and list semantics agree. -/
def legalFmts (value : Int) : List Char :=
  ['C', 'y']
    ++ (if value ≤ 60 then
          ['S']
            ++ (if value ≤ 59 then
                  ['M']
                    ++ (if value ≤ 23 then ['H'] else [])
                    ++ (if 1 ≤ value ∧ value ≤ 31 then
                          ['d'] ++ (if value ≤ 12 then ['m'] else [])
                        else [])
                else [])
        else [])

/-- `DateParser._legal_number`: one `(prefix + fmt, value, locales)`
hypothesis per specifier in the `legal` set. -/
def legalNumber (pre : PyStr) (value : Int) (locales : Option (List PyStr)) :
    List Hyp :=
  (legalFmts value).map fun f => ⟨pre ++ [f], Obj.int value, locales⟩

/-!
## `TimeLocaleSet.__init__`: the `keywords` table (extract_patterns.py)

The working table is `keywords = defaultdict(lambda: defaultdict(set))`:
a dict from case-folded pattern string to a dict from specifier letter to a
set of locale names.  The intern tables (`_InternTable`) return values equal
to their argument and are therefore identity on the abstraction level of
this embedding.
-/

/-- The inner `defaultdict(set)`: specifier letter → set of locale names. -/
abbrev FmtMap := List (Char × List PyStr)

/-- The outer `defaultdict`: pattern string → `FmtMap`. -/
abbrev KwMap := List (PyStr × FmtMap)

/-- `keywords[pat][fmt].update(locales)` with `defaultdict` creation. -/
def kwUpdate (kw : KwMap) (pat : PyStr) (fmt : Char) (ls : List PyStr) : KwMap :=
  let r1 := alistGetC [] kw pat
  let r2 := alistGetC [] r1.1 fmt
  alistSet r1.2 pat (alistSet r2.2 fmt (setUnionL r2.1 ls))

/-- `keywords[pat][fmt]` as an expression: the read, plus the table after
the `defaultdict` entry creation the read causes. -/
def kwRead (kw : KwMap) (pat : PyStr) (fmt : Char) : List PyStr × KwMap :=
  let r1 := alistGetC [] kw pat
  let r2 := alistGetC [] r1.1 fmt
  (r2.1, alistSet r1.2 pat r2.2)

/-- `keywords[pat][fmt] = v` (creating the outer entry when missing). -/
def kwSet (kw : KwMap) (pat : PyStr) (fmt : Char) (v : List PyStr) : KwMap :=
  let r1 := alistGetC [] kw pat
  alistSet r1.2 pat (alistSet r1.1 fmt v)

/-- `TimeLocaleSet._localized_conversion` (extract_patterns.py lines 49-53):

```python
for v, locales in d.items():
    for word in v.split(";"):
        keywords[word.strip().casefold()][fmt].update(map(uniq, locales))
```
-/
def localizedConversion (kw : KwMap) (fmt : Char)
    (d : List (PyStr × List PyStr)) : KwMap :=
  d.foldl
    (fun kw p =>
      (splitSemi p.1).foldl
        (fun kw word => kwUpdate kw (lowerStr (stripStr word)) fmt p.2) kw)
    kw

/-- One entry of `TimeLocaleSet._merge_patterns` applied to the table
(extract_patterns.py lines 134-137):

```python
merged = set.union(*(keywords[pattern][fmt] for pattern in merges))
for pattern in merges:
    keywords[pattern][fmt] = merged
```

Both reads create their entries via `defaultdict` before the writes. -/
def mergeStep (kw : KwMap) (fmt : Char) (p1 p2 : PyStr) : KwMap :=
  let r1 := kwRead kw p1 fmt
  let r2 := kwRead r1.2 p2 fmt
  let merged := setUnionL r1.1 r2.1
  kwSet (kwSet r2.2 p1 fmt merged) p2 fmt merged

/-- The timezone short-name ingest (extract_patterns.py lines 139-147); the
short names themselves come from `pytz`, an external provider, and are
passed in as a flattened list (provider names are never empty; the `[]`
case, on which Python's `tzname[0]` would raise `IndexError`, is
unreachable for real providers):

```python
for tzname in shortnames:
    if tzname[0] not in "+-":
        keywords[tzname.casefold()]["Z"] = frozenset()
```
-/
def tzStep (kw : KwMap) (tzs : List PyStr) : KwMap :=
  tzs.foldl
    (fun kw tz =>
      match tz with
      | [] => kw
      | c :: _ =>
        if c = '+' ∨ c = '-' then kw else kwSet kw (lowerStr tz) 'Z' [])
    kw

/-- The packaged `self._keywords` table: pattern → tuple of
`(fmt, tuple(sorted(locales)))` pairs (extract_patterns.py lines 149-155).
Each stored pair is a Python 2-tuple, modelled as a 2-element `List Obj`. -/
abbrev KeyTable := List (PyStr × List (List Obj))

/-- `self._keywords = { pattern: tuple((fmt, uniqlocalesets(tuple(sorted(
locales)))) for fmt, locales in fmts.items()) for pattern, fmts in
keywords.items() }`. -/
def packageKeywords (kw : KwMap) : KeyTable :=
  kw.map fun pf =>
    (pf.1, pf.2.map fun fl => [Obj.str [fl.1], Obj.locs (sortLocs fl.2)])

/-- The keyword-table part of `TimeLocaleSet.__init__`
(extract_patterns.py lines 125-155): the four `_localized_conversion`
calls, the `_merge_patterns` loop, the timezone ingest, and packaging. -/
def buildKeywords (day mon am_pm alt_digits : List (PyStr × List PyStr))
    (tzs : List PyStr) : KeyTable :=
  let kw : KwMap := []
  let kw := localizedConversion kw 'a' day
  let kw := localizedConversion kw 'b' mon
  let kw := localizedConversion kw 'p' am_pm
  let kw := localizedConversion kw 'O' alt_digits
  let kw := mergeStep kw 'p' "am".data "a.m.".data
  let kw := mergeStep kw 'p' "pm".data "p.m.".data
  let kw := tzStep kw tzs
  packageKeywords kw

/-!
## `DateParser._lookup_keyword` (guess_format.py lines 252-269)
-/

/-- Python `frozenset(x)`: succeeds on iterables.  A tuple of locale names
yields its elements; a string yields its characters as 1-character strings;
an integer raises `TypeError`. -/
def frozensetOf : Obj → Except PyErr (List PyStr)
  | .locs ls => .ok ls
  | .str s => .ok ((s.map fun c => [c]).foldl setInsert [])
  | .int _ => .error .typeError

/-- Coercion to `int` required by the `<=` comparisons of
`_legal_number`; a non-integer raises `TypeError`. -/
def intOf : Obj → Except PyErr Int
  | .int n => .ok n
  | _ => .error .typeError

/-- The loop body of `_lookup_keyword` when `found` is truthy:

```python
ret = []
for fmt, value, locales in found:
    locales = frozenset(locales)
    if fmt == "O":
        ret.extend(self._legal_number("%O", value, locales))
    else:
        ret.append(("%" + fmt, value, locales))
return tuple(ret)
```

Each stored entry is a 2-tuple `(fmt, locales)`, so the 3-name unpacking
raises `ValueError`; the match is written for arbitrary arity to model
exactly that behaviour. -/
def lookupFound (entries : List (List Obj)) : Except PyErr (List Hyp) :=
  entries.foldlM
    (fun ret e =>
      match e with
      | [f, v, l] => do
        let locales ← frozensetOf l
        match f with
        | .str fs =>
          if fs = ['O'] then do
            let n ← intOf v
            pure (ret ++ legalNumber ['%', 'O'] n (some locales))
          else
            pure (ret ++ [⟨'%' :: fs, v, some locales⟩])
        | _ => .error .typeError
      | _ => .error .valueError)
    []

/-- The numeric fallthrough of `_lookup_keyword` (`found` falsy):

```python
if keyword[0] in "+-":
    if keyword[1:].isdigit():
        return (("%z", keyword, None),)
elif keyword.isdigit():
    return tuple(self._legal_number("%", int(keyword), None))
return ()
```
-/
def lookupNumeric (keyword : PyStr) : Except PyErr (List Hyp) :=
  match keyword with
  | [] => .error .indexError
  | c :: rest =>
    if c = '+' ∨ c = '-' then
      if isDigits rest then .ok [⟨['%', 'z'], Obj.str keyword, none⟩]
      else .ok []
    else if isDigits keyword then
      .ok (legalNumber ['%'] (natOfDigits keyword : Int) none)
    else .ok []

/-- `DateParser._lookup_keyword`. -/
def lookupKeyword (table : KeyTable) (raw : PyStr) : Except PyErr (List Hyp) :=
  let keyword := lowerStr raw
  match alistGet? table keyword with
  | some entries =>
    if entries.isEmpty then lookupNumeric keyword else lookupFound entries
  | none => lookupNumeric keyword

/-- The `mon` table of the doctest at guess_format.py lines 77-81:
`TimeLocaleSet(mon={"Jan;Feb;Mar;Apr;May;Jun;Jul;Aug;Sep;Oct;Nov;Dec":
["en_US"]})`. -/
def c1Mon : List (PyStr × List PyStr) :=
  [("Jan;Feb;Mar;Apr;May;Jun;Jul;Aug;Sep;Oct;Nov;Dec".data, ["en_US".data])]

/-- The keyword table of that locale set (with the external timezone
provider contributing nothing; its entries are irrelevant to the lookup of
`"Jan"`). -/
def c1Keywords : KeyTable := buildKeywords [] c1Mon [] [] []

/-!
## The Python `datetime` model

`datetime.date` / `datetime.time` with proleptic-Gregorian weekday
computation, as used by `_State.valid` (guess_format.py lines 505-547).
-/

/-- Gregorian leap year. -/
def isLeap (y : Int) : Bool := (y % 4 = 0 && y % 100 ≠ 0) || y % 400 = 0

/-- Length of a month in the proleptic Gregorian calendar. -/
def daysInMonth (y m : Int) : Int :=
  if m = 2 then (if isLeap y then 29 else 28)
  else if m = 4 ∨ m = 6 ∨ m = 9 ∨ m = 11 then 30 else 31

/-- A `datetime.date`. -/
structure PyDate where
  year : Int
  month : Int
  day : Int
deriving DecidableEq, Repr

/-- A `datetime.time` (with seconds; `valid` never sets microseconds). -/
structure PyTime where
  hour : Int
  minute : Int
  second : Int
deriving DecidableEq, Repr

/-- The `datetime.date` constructor: raises `ValueError` outside
`MINYEAR..MAXYEAR` or for an invalid month or day. -/
def dateNew (y m d : Int) : Except PyErr PyDate :=
  if 1 ≤ y ∧ y ≤ 9999 ∧ 1 ≤ m ∧ m ≤ 12 ∧ 1 ≤ d ∧ d ≤ daysInMonth y m
  then .ok ⟨y, m, d⟩ else .error .valueError

/-- The `datetime.time` constructor: raises `ValueError` outside the valid
ranges (note: seconds only go to 59; there is no leap-second slot). -/
def timeNew (h m s : Int) : Except PyErr PyTime :=
  if 0 ≤ h ∧ h ≤ 23 ∧ 0 ≤ m ∧ m ≤ 59 ∧ 0 ≤ s ∧ s ≤ 59
  then .ok ⟨h, m, s⟩ else .error .valueError

/-- Days in the months strictly before month `m` (1-based) of year `y`. -/
def daysBeforeMonth (y : Int) : Nat → Int
  | 0 => 0
  | 1 => 0
  | n + 1 => daysBeforeMonth y n + daysInMonth y n

/-- The proleptic-Gregorian ordinal of a date (0001-01-01 is day 1), as in
`datetime.date.toordinal`. -/
def toOrdinal (dt : PyDate) : Int :=
  365 * (dt.year - 1) + (dt.year - 1).ediv 4 - (dt.year - 1).ediv 100
    + (dt.year - 1).ediv 400 + daysBeforeMonth dt.year dt.month.toNat + dt.day

/-- `datetime.date.weekday()`: Monday is 0 (0001-01-01 was a Monday). -/
def pyWeekday (dt : PyDate) : Int := (toOrdinal dt + 6).emod 7

/-- The decoded value a complete assignment yields: a date, a time, or a
combined datetime. -/
inductive DTValue where
  | date (d : PyDate)
  | time (t : PyTime)
  | datetime (d : PyDate) (t : PyTime)
deriving DecidableEq, Repr

/-!
## `_State.valid` (guess_format.py lines 505-547)
-/

/-- The `_DateTime` namedtuple: one slot per field category
`C y m d a H M S p Z`. -/
structure DT (α : Type) where
  C : Option α := none
  y : Option α := none
  m : Option α := none
  d : Option α := none
  a : Option α := none
  H : Option α := none
  M : Option α := none
  S : Option α := none
  p : Option α := none
  Z : Option α := none
deriving DecidableEq, Repr

/-- `_DateTime.empty`. -/
def DT.empty {α : Type} : DT α := {}

/-- Python `x == k` for an integer literal `k`: `False` (never an error)
when `x` is `None` or a non-integer. -/
def pyEqInt : Option Obj → Int → Bool
  | some (.int n), k => n = k
  | _, _ => false

/-- Python `x <= k` for an integer `k`: `TypeError` when `x` is `None` or
not an integer. -/
def pyLeInt (o : Option Obj) (k : Int) : Except PyErr Bool :=
  match o with
  | some (.int n) => .ok (decide (n ≤ k))
  | _ => .error .typeError

/-- An integer field value; `None` or a string where Python arithmetic
needs an integer raises `TypeError`. -/
def intOfOpt : Option Obj → Except PyErr Int
  | some (.int n) => .ok n
  | _ => .error .typeError

/-- The `for C in centuries:` loop of `_State.valid`:

```python
for C in centuries:
    d = datetime.date(C * 100 + self.value.y, self.value.m, self.value.d)
    if self.value.a is None or (d.weekday() + 1) % 7 == self.value.a:
        break
else:
    return None
```

Falling off the end of the loop (`else:`) yields `None`. -/
def centuryLoop (value : DT Obj) : List Obj → Except PyErr (Option PyDate)
  | [] => .ok none
  | c :: rest => do
    let ci ← intOf c
    let y ← intOfOpt value.y
    let m ← intOfOpt value.m
    let dd ← intOfOpt value.d
    let dt ← dateNew (ci * 100 + y) m dd
    match value.a with
    | none => pure (some dt)
    | some _ =>
      if pyEqInt value.a ((pyWeekday dt + 1).emod 7) then pure (some dt)
      else centuryLoop value rest

/-- The date half of `_State.valid` (guess_format.py lines 506-534):
century selection followed by the century loop. -/
def validDate (value : DT Obj) : Except PyErr (Option PyDate) := do
  let centuries ←
    match value.C with
    | some c => pure [c]
    | none =>
      if pyEqInt value.y 0 && pyEqInt value.m 2 && pyEqInt value.d 29 then
        pure [Obj.int 20]
      else if value.a.isSome then
        pure [Obj.int 20, Obj.int 19, Obj.int 21, Obj.int 18]
      else do
        let b ← pyLeInt value.y 68
        if b then pure [Obj.int 20] else pure [Obj.int 19]
  centuryLoop value centuries

/-- The time half of `_State.valid` (guess_format.py lines 536-542):

```python
H = self.value.H
if self.value.p is not None:
    H = (H % 12) + 12 * self.value.p
t = datetime.time(H, self.value.M, self.value.S or 0)
```
-/
def validTime (value : DT Obj) : Except PyErr PyTime := do
  let H0 ← intOfOpt value.H
  let H ←
    match value.p with
    | none => pure H0
    | some pv => do
      let pi ← intOf pv
      pure (H0.emod 12 + 12 * pi)
  let M ← intOfOpt value.M
  let S ←
    match value.S with
    | none => pure (0 : Int)
    | some (.int n) => pure n
    | some _ => Except.error PyErr.typeError
  timeNew H M S

/-- `_State.valid`: `None` when neither a date nor a time is present or the
century loop falls through; a combined value when both are present. -/
def stateValid (datePresent timePresent : Bool) (value : DT Obj) :
    Except PyErr (Option DTValue) := do
  if datePresent then
    match ← validDate value with
    | none => pure none
    | some dt =>
      if timePresent then do
        let t ← validTime value
        pure (some (.datetime dt t))
      else
        pure (some (.date dt))
  else
    if timePresent then do
      let t ← validTime value
      pure (some (.time t))
    else
      pure none

/-- The `_DateTime` value of the C4 counterexample: two-digit year 16,
month 2, day 29, no century, no weekday. -/
def c4Value : DT Obj :=
  { y := some (.int 16), m := some (.int 2), d := some (.int 29) }

/-- The century list the amended C4 claim describes (spec-side): century 20
alone when the two-digit year is 0 with day 29 of month 2; the window
`[20, 19, 21, 18]` when a weekday is assigned; otherwise the POSIX rule. -/
def claimCenturies (y m d : Int) (aAssigned : Bool) : List Int :=
  if y = 0 ∧ m = 2 ∧ d = 29 then [20]
  else if aAssigned then [20, 19, 21, 18]
  else if y ≤ 68 then [20] else [19]

/-- A complete date-field assignment value: two-digit year `y`, month `m`,
day `d`, no century, and optionally a weekday number. -/
def dtOf (y m d : Int) (a : Option Int) : DT Obj :=
  { y := some (.int y), m := some (.int m), d := some (.int d),
    a := a.map Obj.int }

instance {ε α : Type} [DecidableEq ε] [DecidableEq α] :
    DecidableEq (Except ε α) := fun a b => by
  cases a <;> cases b
  case error.error x y =>
    exact if h : x = y then .isTrue (by rw [h])
      else .isFalse (by intro hh; injection hh; contradiction)
  case error.ok x y => exact .isFalse (by intro hh; injection hh)
  case ok.error x y => exact .isFalse (by intro hh; injection hh)
  case ok.ok x y =>
    exact if h : x = y then .isTrue (by rw [h])
      else .isFalse (by intro hh; injection hh; contradiction)

/-!
## Result assembly (guess_format.py lines 245-249)

```python
conversions = dict(zip(state.pos, state.fmts))
fmts = [ conversions.get(idx) or literal for idx, literal in enumerate(raw) ]
pattern = ''.join(lit + fmt for lit, fmt in zip(literals, fmts + [''])).replace("%C%y", "%Y")
```
-/

/-- The string `"%C%y"`. -/
def pctCY : PyStr := ['%', 'C', '%', 'y']

/-- The string `"%Y"`. -/
def pctY : PyStr := ['%', 'Y']

/-- Fuel-based helper for `replaceCY` (the fuel is an upper bound on the
string length, so the `0, _ :: _` case is unreachable; structural recursion
on the fuel keeps the definition reducible by the kernel). -/
def replaceCYAux : Nat → PyStr → PyStr
  | _, [] => []
  | 0, s => s
  | n + 1, c :: rest =>
    if pctCY.isPrefixOf (c :: rest) then pctY ++ replaceCYAux n (rest.drop 3)
    else c :: replaceCYAux n rest

/-- `str.replace("%C%y", "%Y")`: Python `str.replace` scans left to right
and replaces every non-overlapping occurrence, continuing after the
replacement text. -/
def replaceCY (s : PyStr) : PyStr := replaceCYAux s.length s

/-- `''.join(lit + fmt for lit, fmt in zip(literals, fmts))` (`zip`
truncates at the shorter list). -/
def joinZip : List PyStr → List PyStr → PyStr
  | lit :: lits, fmt :: fmts => lit ++ fmt ++ joinZip lits fmts
  | _, _ => []

/-- The `pattern` expression of guess_format.py line 248, taking the
already-chosen per-token texts (a conversion specifier or the raw token). -/
def assemblePattern (literals fmts : List PyStr) : PyStr :=
  replaceCY (joinZip literals (fmts ++ [[]]))

/-- Substring test: does `p` occur (contiguously) anywhere in the string? -/
def containsSub (p : PyStr) : PyStr → Bool
  | [] => p.isPrefixOf []
  | c :: rest => p.isPrefixOf (c :: rest) || containsSub p rest

/-!
## The segmenter (guess_format.py lines 36-43 and 88-90)

```python
_whitespace = re.compile(r'\s+')
strings = set(itertools.chain(locale_set.prefixes, locale_set.keywords, locale_set.suffixes))
self.compiled = re.compile(r'(\d{1,2}|[+-]\d{4}|' + '|'.join(map(re.escape, sorted(strings, reverse=True))) + ')', re.I)
...
segments = self.compiled.split(self._whitespace.sub(" ", s))
literals = segments[::2]
raw = segments[1::2]
```

The compiled pattern is modelled as its list of alternatives; `re.escape`
makes every table string a literal alternative, so the regex semantics of
one alternative is plain (case-insensitive) string matching.
-/

/-- One alternative of the master pattern
`(\d{1,2}|[+-]\d{4}|lit₁|lit₂|…)`. -/
inductive RegexAlt where
  | digits12
  | signed4
  | lit (s : PyStr)
deriving DecidableEq, Repr

/-- Insert into a lexicographically descending list (stable, as Python's
`sorted(…, reverse=True)`; the sorted strings are distinct). -/
def insertDesc (x : PyStr) : List PyStr → List PyStr
  | [] => [x]
  | y :: ys => if lexLt x y then y :: insertDesc x ys else x :: y :: ys

/-- `sorted(strings, reverse=True)`. -/
def sortDesc (l : List PyStr) : List PyStr := l.foldr insertDesc []

/-- `set(itertools.chain(prefixes, keywords, suffixes))`: the keys of the
three tables, deduplicated. -/
def parserStrings (pfxKeys kwKeys sfxKeys : List PyStr) : List PyStr :=
  (pfxKeys ++ kwKeys ++ sfxKeys).foldl setInsert []

/-- The alternatives of the compiled master regex, in the order the regex
engine tries them at any given start position. -/
def compiledAlts (strings : List PyStr) : List RegexAlt :=
  RegexAlt.digits12 :: RegexAlt.signed4 :: (sortDesc strings).map RegexAlt.lit

/-- Match one alternative at the head of `text`, returning the length of
the match.  `\d{1,2}` is greedy; literals match case-insensitively
(`re.I`). -/
def matchAlt (text : PyStr) : RegexAlt → Option Nat
  | .digits12 =>
    match text with
    | c1 :: c2 :: _ =>
      if c1.isDigit then (if c2.isDigit then some 2 else some 1) else none
    | [c1] => if c1.isDigit then some 1 else none
    | [] => none
  | .signed4 =>
    match text with
    | s :: d1 :: d2 :: d3 :: d4 :: _ =>
      if (s = '+' ∨ s = '-') ∧ d1.isDigit ∧ d2.isDigit ∧ d3.isDigit ∧ d4.isDigit
      then some 5 else none
    | _ => none
  | .lit s =>
    if (lowerStr s).isPrefixOf (lowerStr text) then some s.length else none

/-- The first alternative that matches at the head of `text` (regex
alternation semantics), as the matched length. -/
def firstMatch (alts : List RegexAlt) (text : PyStr) : Option Nat :=
  match alts with
  | [] => none
  | a :: rest =>
    match matchAlt text a with
    | some n => some n
    | none => firstMatch rest text

/-- `re.sub(r'\s+', " ", s)`: collapse every whitespace run to one space.
The boolean records whether the previous character was whitespace. -/
def collapseWsAux : Bool → PyStr → PyStr
  | _, [] => []
  | prevSpace, c :: rest =>
    if isSpaceChar c then
      (if prevSpace then [] else [' ']) ++ collapseWsAux true rest
    else c :: collapseWsAux false rest

/-- `self._whitespace.sub(" ", s)`. -/
def collapseWs (s : PyStr) : PyStr := collapseWsAux false s

/-- `re.split` with a capturing group, fuel-based (the fuel is an upper
bound on the text length; every match the engine can produce here has
positive length, since the table keys are nonempty strings): scan for the
leftmost match, cut there, and continue after it.  Returns the literal
segments (`segments[::2]`) and the captured tokens (`segments[1::2]`). -/
def splitGo : Nat → List RegexAlt → PyStr → PyStr → List PyStr × List PyStr
  | _, _, acc, [] => ([acc.reverse], [])
  | 0, _, acc, text => ([acc.reverse ++ text], [])
  | fuel + 1, alts, acc, c :: rest =>
    match firstMatch alts (c :: rest) with
    | some n =>
      if n = 0 then
        let r := splitGo fuel alts (c :: acc) rest
        r
      else
        let r := splitGo fuel alts [] ((c :: rest).drop n)
        (acc.reverse :: r.1, (c :: rest).take n :: r.2)
    | none =>
      splitGo fuel alts (c :: acc) rest

/-- `self.compiled.split(text)`, split into literals and raw tokens. -/
def splitTokens (alts : List RegexAlt) (s : PyStr) :
    List PyStr × List PyStr :=
  splitGo s.length alts [] s

/-!
## The search state (`_State`, guess_format.py lines 290-581)
-/

/-- The `_Assignment` namedtuple (guess_format.py lines 10-17).  The fields
`pfx`/`sfx` model `prefix`/`suffix`: the locale tuple of the neighbouring
literal's table entry for this conversion, or `None`. -/
structure Assign where
  pos : Int
  value : Obj
  fmt : PyStr
  locales : Option (List PyStr)
  pfx : Option (List PyStr)
  sfx : Option (List PyStr)
deriving DecidableEq, Repr

/-- `_min_date_formats = "ymd"`. -/
def minDate : List Char := ['y', 'm', 'd']

/-- `_all_date_formats = _min_date_formats + "Ca"`. -/
def allDate : List Char := ['y', 'm', 'd', 'C', 'a']

/-- `_min_time_formats = "HM"`. -/
def minTime : List Char := ['H', 'M']

/-- `_all_time_formats = _min_time_formats + "SpZ"`. -/
def allTime : List Char := ['H', 'M', 'S', 'p', 'Z']

/-- Field access on the `_DateTime` namedtuple by category letter. -/
def DT.get {α : Type} (dt : DT α) (c : Char) : Option α :=
  if c = 'C' then dt.C else if c = 'y' then dt.y else if c = 'm' then dt.m
  else if c = 'd' then dt.d else if c = 'a' then dt.a else if c = 'H' then dt.H
  else if c = 'M' then dt.M else if c = 'S' then dt.S else if c = 'p' then dt.p
  else if c = 'Z' then dt.Z else none

/-- `_replace(**{category: v})` on the `_DateTime` namedtuple. -/
def DT.set {α : Type} (dt : DT α) (c : Char) (v : α) : DT α :=
  if c = 'C' then { dt with C := some v }
  else if c = 'y' then { dt with y := some v }
  else if c = 'm' then { dt with m := some v }
  else if c = 'd' then { dt with d := some v }
  else if c = 'a' then { dt with a := some v }
  else if c = 'H' then { dt with H := some v }
  else if c = 'M' then { dt with M := some v }
  else if c = 'S' then { dt with S := some v }
  else if c = 'p' then { dt with p := some v }
  else if c = 'Z' then { dt with Z := some v }
  else dt

/-- `x in self.pos`: tuple membership over the ten `_DateTime` slots. -/
def memDT (x : Int) (pos : DT Int) : Bool :=
  pos.C = some x || pos.y = some x || pos.m = some x || pos.d = some x ||
  pos.a = some x || pos.H = some x || pos.M = some x || pos.S = some x ||
  pos.p = some x || pos.Z = some x

/-- Python `range(a, b)` as a list of integers. -/
def rangeList (a b : Int) : List Int :=
  (List.range (b - a).toNat).map (fun i => a + i)

/-- Integer read of a position slot (a `None` would raise `TypeError` in
the arithmetic of the position constraints). -/
def intPos : Option Int → Except PyErr Int
  | some n => .ok n
  | none => .error .typeError

/-- The module-level `_position_constraints` (guess_format.py lines
290-315), defunctionalised. -/
inductive PosCon where
  | monthNearDay
  | centuryThenYear
  | hourThenMinute
  | minuteThenSecond
deriving DecidableEq, Repr

/-- The `required` category string stored with each position constraint. -/
def PosCon.required : PosCon → List Char
  | .monthNearDay => ['m', 'd']
  | .centuryThenYear => ['C', 'y']
  | .hourThenMinute => ['H', 'M']
  | .minuteThenSecond => ['M', 'S']

/-- Evaluate a position constraint: `none` means the constraint rejects the
assignment; otherwise the returned positions are excluded from conversion. -/
def PosCon.eval : PosCon → DT Int → Except PyErr (Option (List Int))
  | .monthNearDay, pos => do
    let m ← intPos pos.m
    let d ← intPos pos.d
    if m < d then pure (some (rangeList (m + 1) d))
    else pure (some (rangeList (d + 1) m))
  | .centuryThenYear, pos => do
    let c ← intPos pos.C
    let y ← intPos pos.y
    if c + 1 ≠ y then pure none else pure (some [])
  | .hourThenMinute, pos => do
    let h ← intPos pos.H
    let m ← intPos pos.M
    if h > m then pure none else pure (some (rangeList (h + 1) m))
  | .minuteThenSecond, pos => do
    let m ← intPos pos.M
    let s ← intPos pos.S
    if m > s then pure none else pure (some (rangeList (m + 1) s))

/-- The module-level `_value_constraints` (guess_format.py lines 317-341),
defunctionalised. -/
inductive ValCon where
  | validDayOfMonth
  | valid12HourClock
deriving DecidableEq, Repr

/-- The `required` category string stored with each value constraint. -/
def ValCon.required : ValCon → List Char
  | .validDayOfMonth => ['m', 'd']
  | .valid12HourClock => ['H', 'p']

/-- The `revisit` category string stored with each value constraint. -/
def ValCon.revisit : ValCon → List Char
  | .validDayOfMonth => ['C', 'y']
  | .valid12HourClock => []

/-- Evaluate a value constraint on the partial `value` tuple
(`valid_day_of_month` and `valid_12_hour_clock`). -/
def ValCon.eval : ValCon → DT Obj → Except PyErr Bool
  | .validDayOfMonth, v => do
    if pyEqInt v.m 2 then
      match v.y with
      | none => do
        let d ← intOfOpt v.d
        pure (decide (d ≤ 29))
      | some yv => do
        let y ← intOf yv
        let ml : Int ←
          if y.emod 4 ≠ 0 then pure 28
          else if y = 0 then
            match v.C with
            | none => pure 29
            | some cv => do
              let c ← intOf cv
              if c.emod 4 ≠ 0 then pure 28 else pure 29
          else pure 29
        let d ← intOfOpt v.d
        pure (decide (d ≤ ml))
    else do
      let m ← intOfOpt v.m
      let d ← intOfOpt v.d
      pure (decide (d ≤ 30 + (if m.emod 2 = (if m < 8 then 1 else 0) then 1 else 0)))
  | .valid12HourClock, v => do
    let h ← intOfOpt v.H
    pure (decide (1 ≤ h ∧ h ≤ 12))

/-- One entry of the constrained `groups` list built by `parse` (lines
142-184): a category, its sorted assignment options, and the position and
value constraints attached to the category. -/
structure Group where
  cat : Char
  options : List Assign
  posCons : List PosCon
  valCons : List ValCon
deriving DecidableEq, Repr

/-- The `_State` namedtuple (guess_format.py lines 346-358).  The
`satisfied` counter is an association list from locale to count. -/
structure SState where
  remaining : List Group
  datePresent : Bool
  timePresent : Bool
  unconverted : List Int
  pos : DT Int
  value : DT Obj
  fmts : DT PyStr
  requiredLocales : Option (List PyStr)
  pendingHints : List (Option Int × List PyStr)
  satisfied : List (PyStr × Nat)
  globallySatisfied : Nat
deriving DecidableEq, Repr

/-- Python truthiness of an optional locale collection (`None` and the
empty set are falsy). -/
def truthyLocs : Option (List PyStr) → Bool
  | none => false
  | some l => !l.isEmpty

/-- `max(v for k, v in satisfied)` (the lists scored are nonempty and all
counts are at least 1, so the 0 base case is never the maximum). -/
def maxCount : List (PyStr × Nat) → Nat
  | [] => 0
  | kv :: rest => max kv.2 (maxCount rest)

/-- `Counter.update(hint)`: add 1 to each listed locale. -/
def counterUpdate (c : List (PyStr × Nat)) (ls : List PyStr) :
    List (PyStr × Nat) :=
  ls.foldl
    (fun c k =>
      match alistGet? c k with
      | some v => alistSet c k (v + 1)
      | none => c ++ [(k, 1)])
    c

/-- `_State.score` (guess_format.py lines 549-562). -/
def SState.score (st : SState) : Nat × Option (List PyStr) × SState :=
  let satisfied :=
    if truthyLocs st.requiredLocales then
      st.satisfied.filter (fun kv => kv.1 ∈ st.requiredLocales.getD [])
    else st.satisfied
  if satisfied.isEmpty then
    (st.globallySatisfied, st.requiredLocales, st)
  else
    let ls := maxCount satisfied
    (st.globallySatisfied + ls,
      some ((satisfied.filter (fun kv => kv.2 = ls)).map Prod.fst), st)

/-- `_State.final_score` (guess_format.py lines 492-503): apply all still
pending hints, then score. -/
def SState.finalScore (st : SState) : Nat × Option (List PyStr) × SState :=
  (if st.pendingHints.isEmpty then st
   else
     st.pendingHints.foldl
       (fun s h =>
         if h.2.isEmpty then { s with globallySatisfied := s.globallySatisfied + 1 }
         else { s with satisfied := counterUpdate s.satisfied h.2 })
       st).score

/-!
## `_State.children` (guess_format.py lines 361-490)
-/

/-- The constraint filter of lines 372-388:
`all((c == category) == (getattr(self.pos, c) is None) for c in required)`. -/
def conFilter (cat : Char) (pos : DT Int) (req : List Char) : Bool :=
  req.all (fun c => decide (c = cat) == decide (pos.get c = none))

/-- The body of the `for assignment in options:` loop (lines 390-461):
`none` models `continue`, otherwise the scored child is returned. -/
def childOf (st : SState) (cat : Char) (posCons : List PosCon)
    (valCons : List ValCon) (remaining : List Group) (dp tp : Bool)
    (a : Assign) :
    Except PyErr (Option (Nat × Option (List PyStr) × SState)) := do
  if a.pos ∈ st.unconverted || memDT a.pos st.pos then pure none
  else
    let locales? : Option (Option (List PyStr)) :=
      if truthyLocs a.locales && truthyLocs st.requiredLocales then
        let inter := (a.locales.getD []).filter
          (fun l => l ∈ st.requiredLocales.getD [])
        if inter.isEmpty then none else some (some inter)
      else
        some (if truthyLocs a.locales then a.locales else st.requiredLocales)
    match locales? with
    | none => pure none
    | some locales =>
      if st.pos.C = some (a.pos - 1) ∧ cat ≠ 'y' then pure none
      else
        let pos := st.pos.set cat a.pos
        let rs ← posCons.mapM (fun pc => pc.eval pos)
        if rs.contains none then pure none
        else
          let excl := (rs.map (fun r => r.getD [])).flatten
          if !(excl.all (fun i => !memDT i pos)) then pure none
          else
            let value := st.value.set cat a.value
            let ok ← valCons.foldlM
              (fun acc vc => if acc then vc.eval value else pure false) true
            if !ok then pure none
            else
              let fmts := st.fmts.set cat a.fmt
              let pending0 := st.pendingHints ++ [((none : Option Int), ([] : List PyStr))]
                ++ (match a.pfx with
                    | some p => [(some (a.pos - 1), p)]
                    | none => [])
                ++ (match a.sfx with
                    | some sfx => [(some (a.pos + 1), sfx)]
                    | none => [])
              let exclude :=
                if excl.isEmpty then st.unconverted else st.unconverted ++ excl
              let res := pending0.foldl
                (fun (acc : List (PyStr × Nat) × Nat × List (Option Int × List PyStr)) h =>
                  match h.1 with
                  | none =>
                    if h.2.isEmpty then (acc.1, acc.2.1 + 1, acc.2.2)
                    else (counterUpdate acc.1 h.2, acc.2.1, acc.2.2)
                  | some idx =>
                    if idx ∈ exclude then
                      if h.2.isEmpty then (acc.1, acc.2.1 + 1, acc.2.2)
                      else (counterUpdate acc.1 h.2, acc.2.1, acc.2.2)
                    else if memDT idx pos then acc
                    else (acc.1, acc.2.1, acc.2.2 ++ [(some idx, h.2)]))
                (st.satisfied, st.globallySatisfied, ([] : List (Option Int × List PyStr)))
              let new : SState :=
                { remaining := remaining
                  datePresent := dp
                  timePresent := tp
                  unconverted := exclude
                  pos := pos
                  value := value
                  fmts := fmts
                  requiredLocales := locales
                  pendingHints := res.2.2
                  satisfied := res.1
                  globallySatisfied := res.2.1 }
              pure (some new.score)

/-- `_State.children`: the scored child states, in generator order (the
assignment children in option order, then the skip child when allowed).
Called on a state with empty `remaining_groups`, Python would raise
`IndexError` on `self.remaining_groups[0]`; the search never does. -/
def SState.children (st : SState) :
    Except PyErr (List (Nat × Option (List PyStr) × SState)) := do
  match st.remaining with
  | [] => Except.error PyErr.indexError
  | g :: remaining =>
    let dp := if allDate.contains g.cat then true else st.datePresent
    let tp := if allDate.contains g.cat then st.timePresent else true
    let posCons := g.posCons.filter (fun pc => conFilter g.cat st.pos pc.required)
    let valCons := g.valCons.filter (fun vc => conFilter g.cat st.pos vc.required)
    let base ← g.options.foldlM
      (fun acc a => do
        match ← childOf st g.cat posCons valCons remaining dp tp a with
        | some child => pure (acc ++ [child])
        | none => pure acc)
      ([] : List (Nat × Option (List PyStr) × SState))
    if minDate.contains g.cat then
      if st.datePresent then pure base
      else
        let rem' := remaining.filter (fun gr => !allDate.contains gr.cat)
        pure (base ++ [({ st with remaining := rem' } : SState).score])
    else if minTime.contains g.cat then
      if st.timePresent then pure base
      else
        let rem' := remaining.filter (fun gr => !allTime.contains gr.cat)
        pure (base ++ [({ st with remaining := rem' } : SState).score])
    else
      pure (base ++ [({ st with remaining := remaining } : SState).score])

/-!
## The search loop of `parse` (guess_format.py lines 186-250)
-/

/-- `_optimistic_score` (guess_format.py lines 286-288). -/
def optimisticScore (a : Assign) : Nat :=
  1 + (if a.pfx.isSome then 1 else 0) + (if a.sfx.isSome then 1 else 0)

/-- The admissible heuristic of lines 213-221: per remaining group, the
optimistic score of its first option whose position is not yet consumed. -/
def heuristic (st : SState) : Nat :=
  st.pendingHints.length
    + (st.remaining.map (fun g =>
        match g.options.find?
            (fun a => !(a.pos ∈ st.unconverted || memDT a.pos st.pos)) with
        | some a => optimisticScore a
        | none => 0)).sum

/-- One candidate of the result list: `(pattern, value, locales)`. -/
structure Candidate where
  pattern : PyStr
  value : DTValue
  locales : Option (List PyStr)
deriving DecidableEq, Repr

/-- `conversions.get(idx)` where
`conversions = dict(zip(state.pos, state.fmts))`. -/
def convAt (pos : DT Int) (fmts : DT PyStr) (idx : Int) : Option PyStr :=
  if pos.C = some idx then fmts.C else if pos.y = some idx then fmts.y
  else if pos.m = some idx then fmts.m else if pos.d = some idx then fmts.d
  else if pos.a = some idx then fmts.a else if pos.H = some idx then fmts.H
  else if pos.M = some idx then fmts.M else if pos.S = some idx then fmts.S
  else if pos.p = some idx then fmts.p else if pos.Z = some idx then fmts.Z
  else none

/-- Lines 245-249: rebuild the format string for one complete state.
`conversions.get(idx) or literal` falls back to the raw token text when the
position was not converted (or its format string were empty, which never
happens). -/
def emit (literals raw : List PyStr) (st : SState) (v : DTValue)
    (locs : Option (List PyStr)) : Candidate :=
  let toks := (List.range raw.length).map (fun (i : Nat) =>
    match convAt st.pos st.fmts (Int.ofNat i) with
    | some f => if f.isEmpty then raw.getD i [] else f
    | none => raw.getD i [])
  ⟨assemblePattern literals toks, v, locs⟩

/-- The running best: `best_quality` and `best_candidates`. -/
structure Acc where
  bestQuality : Nat
  best : List Candidate
deriving DecidableEq, Repr

/-- The branch-and-bound loop body of lines 195-249, as a depth-first
recursion over one popped `(quality, locales, state)` triple.  The fuel is
an upper bound on `state.remaining`'s length (it only decreases along
children, so the `0` case is unreachable from `runSearch`). -/
def searchLevel (literals raw : List PyStr) :
    Nat → Nat × Option (List PyStr) × SState → Acc → Except PyErr Acc
  | fuel, (q, _locs, st), acc =>
    if st.remaining.isEmpty then
      match stateValid st.datePresent st.timePresent st.value with
      | .error e => .error e
      | .ok none => .ok acc
      | .ok (some v) =>
        let f := st.finalScore
        if f.1 < acc.bestQuality then .ok acc
        else if f.1 ≠ acc.bestQuality then
          .ok ⟨f.1, [emit literals raw f.2.2 v f.2.1]⟩
        else .ok ⟨acc.bestQuality, acc.best ++ [emit literals raw f.2.2 v f.2.1]⟩
    else
      if q + heuristic st < acc.bestQuality then .ok acc
      else
        match fuel with
        | 0 => .error .indexError
        | fuel' + 1 => do
          let cs ← st.children
          cs.foldlM (fun acc c => searchLevel literals raw fuel' c acc) acc

/-- Lines 186-250: run the DFS from the root state and return
`best_candidates`. -/
def runSearch (literals raw : List PyStr) (root : SState) :
    Except PyErr (List Candidate) := do
  let cs ← root.children
  let acc ← cs.foldlM
    (fun acc c => searchLevel literals raw root.remaining.length c acc)
    (⟨0, []⟩ : Acc)
  pure acc.best

/-!
## `DateParser.parse` (guess_format.py lines 88-250)
-/

/-- The packaged `prefixes`/`suffixes` tables of the locale set: pattern →
tuple of `(fmt, locales)` pairs. -/
abbrev PSTable := List (PyStr × List (Char × List PyStr))

/-- The three tables a `DateParser` holds. -/
structure Tables where
  keywords : KeyTable
  pfxs : PSTable
  sfxs : PSTable
deriving Repr

/-- `'b'` counts as month, `'z'` as timezone (lines 111-116). -/
def mapCat (c : Char) : Char :=
  if c = 'b' then 'm' else if c = 'z' then 'Z' else c

/-- The `_DateTime._fields` order. -/
def dtFields : List Char := ['C', 'y', 'm', 'd', 'a', 'H', 'M', 'S', 'p', 'Z']

/-- Append an assignment to its category's group (the groups container is
a `_DateTime` of lists; represented as an association list in `_fields`
order). -/
def groupAppend (gs : List (Char × List Assign)) (c : Char) (a : Assign) :
    List (Char × List Assign) :=
  gs.map (fun g => if g.1 = c then (g.1, g.2 ++ [a]) else g)

/-- Lines 100-124: build the per-category assignment groups, the
`choices_per_position` map and the `always_literal` set from the keyword
hypotheses and neighbour hint dicts of each token. -/
def buildGroups (hyps : List (List Hyp)) (pfxs sfxs : List (List (Char × List PyStr))) :
    List (Char × List Assign) × List (Int × Nat) × List Int :=
  let init := dtFields.map (fun c => (c, ([] : List Assign)))
  (List.range hyps.length).foldl
    (fun acc idx =>
      let keyword := hyps.getD idx []
      let pfx0 := pfxs.getD idx []
      let pfx :=
        match alistGet? pfx0 'y' with
        | some ly =>
          alistSet pfx0 'C'
            ((ly ++ (alistGet? pfx0 'C').getD []).foldl setInsert [])
        | none => pfx0
      let sfx := sfxs.getD idx []
      if keyword.isEmpty then
        (acc.1, acc.2.1, acc.2.2 ++ [(Int.ofNat idx)])
      else
        (keyword.foldl
          (fun gs h =>
            let category := mapCat (h.fmt.getLastD ' ')
            groupAppend gs category
              { pos := Int.ofNat idx
                value := h.value
                fmt := h.fmt
                locales := h.locales
                pfx := alistGet? pfx (h.fmt.getLastD ' ')
                sfx := alistGet? sfx (h.fmt.getLastD ' ') })
          acc.1,
         acc.2.1 ++ [(Int.ofNat idx, keyword.length)],
         acc.2.2))
    (init, ([] : List (Int × Nat)), ([] : List Int))

/-- Lines 126-134: if a required date (resp. time) category has no
options, clear all date (resp. time) categories. -/
def clearUnsatisfiable (gs : List (Char × List Assign)) :
    List (Char × List Assign) :=
  let dateOk := minDate.all (fun c => !((alistGet? gs c).getD []).isEmpty)
  let gs := if dateOk then gs
    else gs.map (fun g => if allDate.contains g.1 then (g.1, []) else g)
  let timeOk := minTime.all (fun c => !((alistGet? gs c).getD []).isEmpty)
  if timeOk then gs
  else gs.map (fun g => if allTime.contains g.1 then (g.1, []) else g)

/-- The sort key of lines 136-140: `(-optimistic_score, choices_per_position
[pos])`, ascending and stable (Python `list.sort`). -/
def assignLe (cpp : List (Int × Nat)) (a b : Assign) : Bool :=
  optimisticScore b < optimisticScore a
    || (optimisticScore b = optimisticScore a
        && (alistGet? cpp a.pos).getD 0 ≤ (alistGet? cpp b.pos).getD 0)

/-- Stable insertion (before the first element `y` with `le x y`). -/
def insertByLe {α : Type} (le : α → α → Bool) (x : α) : List α → List α
  | [] => [x]
  | y :: ys => if le x y then x :: y :: ys else y :: insertByLe le x ys

/-- A stable ascending sort, as Python's `list.sort`/`sorted` (insertion
sort; elements only move past elements they compare strictly below). -/
def sortByLe {α : Type} (le : α → α → Bool) (l : List α) : List α :=
  l.foldr (insertByLe le) []

/-- Lines 149-153: the position constraints attached to a category. -/
def posConsFor (c : Char) : List PosCon :=
  [PosCon.monthNearDay, PosCon.centuryThenYear, PosCon.hourThenMinute,
    PosCon.minuteThenSecond].filter (fun pc => pc.required.contains c)

/-- Lines 154-158: the value constraints attached to a category (`required`
or `revisit`). -/
def valConsFor (c : Char) : List ValCon :=
  [ValCon.validDayOfMonth, ValCon.valid12HourClock].filter
    (fun vc => vc.required.contains c || vc.revisit.contains c)

/-- `required_formats = _min_date_formats + _min_time_formats`. -/
def requiredFormats : List Char := ['y', 'm', 'd', 'H', 'M']

/-- The group-order sort key of line 164:
`(i[0] not in required_formats, len(i[1][0]))`, ascending and stable. -/
def groupLe (g1 g2 : Group) : Bool :=
  let b1 := !requiredFormats.contains g1.cat
  let b2 := !requiredFormats.contains g2.cat
  (b1 = false && b2 = true)
    || (b1 = b2 && g1.options.length ≤ g2.options.length)

/-- `OrderedDict.move_to_end(cat, last=False)`. -/
def moveToFront (c : Char) (gs : List Group) : List Group :=
  match gs.find? (fun g => g.cat = c) with
  | some g => g :: gs.filter (fun g' => g'.cat ≠ c)
  | none => gs

/-- The dependency reorder of lines 171-184: repeatedly pop the front
group, then move every category required by one of its constraints to the
front of the remainder (iterating the matching categories in reverse key
order, which preserves their relative order at the front). -/
def reorderGo : Nat → List Group → List Group → List Group
  | 0, acc, gs => acc ++ gs
  | _ + 1, acc, [] => acc
  | fuel + 1, acc, g :: gs =>
    let req : List Char :=
      (g.posCons.map PosCon.required ++ g.valCons.map ValCon.required).flatten
    let movers := (gs.reverse.map Group.cat).filter (fun c => req.contains c)
    let gs' := movers.foldl (fun gs c => moveToFront c gs) gs
    reorderGo fuel (acc ++ [g]) gs'

/-- Lines 142-184: order the nonempty groups, attach their constraints, and
apply the dependency reorder. -/
def assembleGroups (gs : List (Char × List Assign)) (cpp : List (Int × Nat)) :
    List Group :=
  let sorted0 := sortByLe groupLe
    ((gs.filter (fun g => !g.2.isEmpty)).map (fun g =>
      { cat := g.1
        options := sortByLe (assignLe cpp) g.2
        posCons := posConsFor g.1
        valCons := valConsFor g.1 }))
  reorderGo sorted0.length [] sorted0

/-- `_State.empty` with the initial `unconverted` and groups (lines
189-194). -/
def rootState (groups : List Group) (alwaysLiteral : List Int) : SState :=
  { remaining := groups
    datePresent := false
    timePresent := false
    unconverted := alwaysLiteral
    pos := DT.empty
    value := DT.empty
    fmts := DT.empty
    requiredLocales := none
    pendingHints := []
    satisfied := []
    globallySatisfied := 0 }

/-- `DateParser.parse` from the split segments on (lines 92-250): build the
hypothesis groups, run the branch-and-bound search, collect the best
candidates. -/
def parseCore (tables : Tables) (literals raw : List PyStr) :
    Except PyErr (List Candidate) := do
  if raw.isEmpty then pure []
  else
    let case := raw.map lowerStr
    let pfxs := [[]] ++ case.dropLast.map
      (fun m => (alistGet? tables.pfxs m).getD [])
    let sfxs := (case.drop 1).map (fun m => (alistGet? tables.sfxs m).getD [])
      ++ [[]]
    let hyps ← raw.mapM (lookupKeyword tables.keywords)
    let built := buildGroups hyps pfxs sfxs
    let groups := assembleGroups (clearUnsatisfiable built.1) built.2.1
    if groups.isEmpty then pure []
    else runSearch literals raw (rootState groups built.2.2)

/-- The whole of `DateParser.parse` including segmentation (lines 88-90):
whitespace collapse, then the master-regex split. -/
def parseFull (tables : Tables) (strings : List PyStr) (s : PyStr) :
    Except PyErr (List Candidate) :=
  let segs := splitTokens (compiledAlts strings) (collapseWs s)
  parseCore tables segs.1 segs.2

/-!
## The `TimeLocaleSet()` of the doctests (empty corpus)

With no corpus, the `prefixes`/`suffixes` tables contain exactly the
`_global_prefixes`/`_global_suffixes` entries (extract_patterns.py lines
66-78 and 178-198); the `formats` extraction loop runs zero times.
-/

/-- `TimeLocaleSet._global_prefixes`. -/
def globalPfxs : List (PyStr × List Char) :=
  [(":".data, ['M', 'S']), ("/".data, ['C', 'y', 'm', 'd']),
    ("-".data, ['C', 'y', 'm', 'd']), ("utc".data, ['z']), ("t".data, ['H'])]

/-- `TimeLocaleSet._global_suffixes`. -/
def globalSfxs : List (PyStr × List Char) :=
  [(":".data, ['H', 'M']), ("/".data, ['y', 'm', 'd']),
    ("-".data, ['y', 'm', 'd']), ("t".data, ['d'])]

/-- `prefixes[pattern] = dict.fromkeys(fmts, frozenset())` for each global
pattern, then packaging as `(fmt, tuple(sorted(locales)))` pairs
(extract_patterns.py lines 178-198). -/
def buildPS (base : List (PyStr × FmtMap)) (globals : List (PyStr × List Char)) :
    PSTable :=
  let m := globals.foldl
    (fun m g => alistSet m g.1 (g.2.map (fun c => (c, ([] : List PyStr)))))
    base
  m.map (fun pf => (pf.1, pf.2.map (fun fl => (fl.1, sortLocs fl.2))))

/-- The tables of `DateParser(TimeLocaleSet())` (with the external
timezone-name provider contributing nothing). -/
def emptyCorpusTables : Tables :=
  { keywords := buildKeywords [] [] [] [] []
    pfxs := buildPS [] globalPfxs
    sfxs := buildPS [] globalSfxs }

/-- The known strings of that parser's master regex. -/
def emptyCorpusStrings : List PyStr :=
  parserStrings (emptyCorpusTables.pfxs.map Prod.fst)
    (emptyCorpusTables.keywords.map Prod.fst)
    (emptyCorpusTables.sfxs.map Prod.fst)

/-- The tables of the doctest parser
`DateParser(TimeLocaleSet(mon={"Jan;…;Dec": ["en_US"]}))`. -/
def c1Tables : Tables :=
  { keywords := c1Keywords
    pfxs := buildPS [] globalPfxs
    sfxs := buildPS [] globalSfxs }

/-- The known strings of that parser's master regex. -/
def c1Strings : List PyStr :=
  parserStrings (c1Tables.pfxs.map Prod.fst) (c1Tables.keywords.map Prod.fst)
    (c1Tables.sfxs.map Prod.fst)

/-- Proof-support predicate: the working keyword table has an entry for
pattern `w` under specifier `'p'`. -/
def KwHasP (kw : KwMap) (w : PyStr) : Prop :=
  ∃ inner ls, alistGet? kw w = some inner ∧ alistGet? inner 'p' = some ls

/-- Proof-support predicate: the packaged keyword table has an entry for
pattern `w` whose specifier is `'p'`. -/
def TableHasP (t : KeyTable) (w : PyStr) : Prop :=
  ∃ entries ls,
    alistGet? t w = some entries ∧ [Obj.str ['p'], Obj.locs ls] ∈ entries

/-!
## Search invariants

The structural facts `_State.children` maintains along every edge of the
search tree.  They are established at the root state built by `parse` and
preserved by both the assignment children and the skip children.
-/

/-- The categories of the still-unprocessed groups. -/
def remCats (st : SState) : List Char := st.remaining.map Group.cat

/-- The search-state invariant:

* `datePresent`/`timePresent` cover every converted date/time slot
  (a slot of `pos` is only ever set by a child of a group of its category,
  which raises the corresponding flag);
* `pos` and `value` have exactly the same assigned slots;
* the unprocessed group categories are distinct and none of their slots is
  assigned yet;
* every unprocessed group carries exactly the constraints `parse` attaches
  to its category;
* whenever both `H` and `p` are converted, the stored hour is an integer
  in `1..12` (the `valid_12_hour_clock` constraint was checked when the
  second of the two was assigned). -/
def SInv (st : SState) : Prop :=
  (st.pos.C ≠ none → st.datePresent = true) ∧
  (st.pos.y ≠ none → st.datePresent = true) ∧
  (st.pos.m ≠ none → st.datePresent = true) ∧
  (st.pos.d ≠ none → st.datePresent = true) ∧
  (st.pos.a ≠ none → st.datePresent = true) ∧
  (st.pos.H ≠ none → st.timePresent = true) ∧
  (st.pos.M ≠ none → st.timePresent = true) ∧
  (st.pos.S ≠ none → st.timePresent = true) ∧
  (st.pos.p ≠ none → st.timePresent = true) ∧
  (st.pos.Z ≠ none → st.timePresent = true) ∧
  ((st.pos.C = none ↔ st.value.C = none) ∧
   (st.pos.y = none ↔ st.value.y = none) ∧
   (st.pos.m = none ↔ st.value.m = none) ∧
   (st.pos.d = none ↔ st.value.d = none) ∧
   (st.pos.a = none ↔ st.value.a = none) ∧
   (st.pos.H = none ↔ st.value.H = none) ∧
   (st.pos.M = none ↔ st.value.M = none) ∧
   (st.pos.S = none ↔ st.value.S = none) ∧
   (st.pos.p = none ↔ st.value.p = none) ∧
   (st.pos.Z = none ↔ st.value.Z = none)) ∧
  (remCats st).Nodup ∧
  (('C' ∈ remCats st → st.pos.C = none) ∧
   ('y' ∈ remCats st → st.pos.y = none) ∧
   ('m' ∈ remCats st → st.pos.m = none) ∧
   ('d' ∈ remCats st → st.pos.d = none) ∧
   ('a' ∈ remCats st → st.pos.a = none) ∧
   ('H' ∈ remCats st → st.pos.H = none) ∧
   ('M' ∈ remCats st → st.pos.M = none) ∧
   ('S' ∈ remCats st → st.pos.S = none) ∧
   ('p' ∈ remCats st → st.pos.p = none) ∧
   ('Z' ∈ remCats st → st.pos.Z = none)) ∧
  (∀ g ∈ st.remaining, g.posCons = posConsFor g.cat ∧
    g.valCons = valConsFor g.cat) ∧
  (st.value.H ≠ none → st.value.p ≠ none →
    ∃ hr : Int, st.value.H = some (Obj.int hr) ∧ 1 ≤ hr ∧ hr ≤ 12)

/-- Proof-support: the `(satisfied, globally_satisfied, pending)` triple the
assignment child builds from the hint list (guess_format.py lines 437-455),
packaged for reuse in the child-anatomy lemma. -/
def childPending (st : SState) (cat : Char) (a : Assign) (excl : List Int) :
    List (PyStr × Nat) × Nat × List (Option Int × List PyStr) :=
  (st.pendingHints ++ [((none : Option Int), ([] : List PyStr))]
    ++ (match a.pfx with
        | some p => [(some (a.pos - 1), p)]
        | none => [])
    ++ (match a.sfx with
        | some sfx => [(some (a.pos + 1), sfx)]
        | none => [])).foldl
    (fun (acc : List (PyStr × Nat) × Nat × List (Option Int × List PyStr)) h =>
      match h.1 with
      | none =>
        if h.2.isEmpty then (acc.1, acc.2.1 + 1, acc.2.2)
        else (counterUpdate acc.1 h.2, acc.2.1, acc.2.2)
      | some idx =>
        if idx ∈ (if excl.isEmpty then st.unconverted else st.unconverted ++ excl) then
          if h.2.isEmpty then (acc.1, acc.2.1 + 1, acc.2.2)
          else (counterUpdate acc.1 h.2, acc.2.1, acc.2.2)
        else if memDT idx (st.pos.set cat a.pos) then acc
        else (acc.1, acc.2.1, acc.2.2 ++ [(some idx, h.2)]))
    (st.satisfied, st.globallySatisfied, ([] : List (Option Int × List PyStr)))

/-- Proof-support: the `Group` record `parse` builds for one category
(guess_format.py lines 144-158). -/
def mkGroup (cpp : List (Int × Nat)) (g : Char × List Assign) : Group :=
  { cat := g.1
    options := sortByLe (assignLe cpp) g.2
    posCons := posConsFor g.1
    valCons := valConsFor g.1 }

/-- The property of a candidate that the DFS provenance analysis yields:
it was emitted at some leaf of the search satisfying `P`, with the decoded
value produced by `_State.valid`. -/
def emittedFrom (literals raw : List PyStr) (P : SState → Prop)
    (cand : Candidate) : Prop :=
  ∃ lf v, P lf ∧ lf.remaining = [] ∧
    stateValid lf.datePresent lf.timePresent lf.value = Except.ok (some v) ∧
    cand = emit literals raw lf.finalScore.2.2 v lf.finalScore.2.1

/-!
## The exhaustive enumeration and score bookkeeping (for the best-score
analysis of `parse`)
-/

/-- The exhaustive leaf enumeration of the search tree: the same
`_State.children` decision structure as the branch-and-bound loop, with no
pruning.  Its leaves are all complete assignments `parse` considers. -/
def allLeaves : Nat → SState → Except PyErr (List SState)
  | fuel, st =>
    if st.remaining.isEmpty then pure [st]
    else
      match fuel with
      | 0 => Except.error PyErr.indexError
      | fuel' + 1 => do
        let cs ← st.children
        cs.foldlM
          (fun acc c => do
            let ls ← allLeaves fuel' c.2.2
            pure (acc ++ ls))
          []

/-- A leaf is a complete valid assignment when `_State.valid` decodes it. -/
def leafGood (st : SState) : Bool :=
  match stateValid st.datePresent st.timePresent st.value with
  | Except.ok (some _) => true
  | _ => false

/-- The candidate a complete valid leaf emits. -/
def leafEmit (literals raw : List PyStr) (st : SState) : Option Candidate :=
  match stateValid st.datePresent st.timePresent st.value with
  | Except.ok (some v) =>
    some (emit literals raw st.finalScore.2.2 v st.finalScore.2.1)
  | _ => none

/-- The maximum final score over the complete valid assignments of a leaf
list (`0` when there are none). -/
def bestQ (L : List SState) : Nat :=
  (L.filter leafGood).foldr (fun lf m => max lf.finalScore.1 m) 0

/-- The count stored for a locale in the satisfaction counter. -/
def countOf (c : List (PyStr × Nat)) (k : PyStr) : Nat :=
  (alistGet? c k).getD 0

/-- The `max(...)` part of `_State.score`: the maximal count among the
satisfied locales restricted to the required ones. -/
def scoreAux (required : Option (List PyStr))
    (satisfied : List (PyStr × Nat)) : Nat :=
  let s := if truthyLocs required then
    satisfied.filter (fun kv => kv.1 ∈ required.getD []) else satisfied
  if s.isEmpty then 0 else maxCount s

/-- The optimistic score of the first still-assignable option of a group
(the summand of `heuristic`). -/
def bestOpt (st : SState) (g : Group) : Nat :=
  match g.options.find?
      (fun a => !(a.pos ∈ st.unconverted || memDT a.pos st.pos)) with
  | some a => optimisticScore a
  | none => 0

/-!
# Theorems
-/

theorem alistGet?_alistSet_self {K V : Type} [DecidableEq K]
    (m : List (K × V)) (k : K) (v : V) :
    alistGet? (alistSet m k v) k = some v := by
  induction m with
  | nil => simp [alistSet, alistGet?]
  | cons p rest ih =>
    by_cases h : p.1 = k <;> simp [alistSet, alistGet?, h, ih]

theorem alistGet?_alistSet_ne {K V : Type} [DecidableEq K]
    (m : List (K × V)) (k k' : K) (v : V) (h : k' ≠ k) :
    alistGet? (alistSet m k v) k' = alistGet? m k' := by
  induction m with
  | nil => simp [alistSet, alistGet?, Ne.symm h]
  | cons p rest ih =>
    by_cases hp : p.1 = k
    · simp [alistSet, alistGet?, hp, Ne.symm h]
    · simp [alistSet, alistGet?, hp, ih]

theorem alistGet?_alistGetC_ne {K V : Type} [DecidableEq K]
    (d : V) (m : List (K × V)) (k k' : K) (h : k' ≠ k) :
    alistGet? (alistGetC d m k).2 k' = alistGet? m k' := by
  induction m with
  | nil => simp [alistGetC, alistGet?, Ne.symm h]
  | cons p rest ih =>
    by_cases hp : p.1 = k <;> simp [alistGetC, alistGet?, hp, ih]

theorem alistGet?_alistGetC_fst {K V : Type} [DecidableEq K]
    (d : V) (m : List (K × V)) (k : K) :
    (alistGetC d m k).1 = (alistGet? m k).getD d := by
  induction m with
  | nil => simp [alistGetC, alistGet?]
  | cons p rest ih =>
    by_cases hp : p.1 = k <;> simp [alistGetC, alistGet?, hp, ih]

theorem alistGet?_mem {K V : Type} [DecidableEq K]
    (m : List (K × V)) (k : K) (v : V) (h : alistGet? m k = some v) :
    (k, v) ∈ m := by
  induction m with
  | nil => simp [alistGet?] at h
  | cons p rest ih =>
    cases p with
    | mk a b =>
      by_cases hp : a = k
      · simp only [alistGet?, if_pos hp] at h
        cases h
        cases hp
        exact List.mem_cons_self _ _
      · simp only [alistGet?, if_neg hp] at h
        exact List.mem_cons_of_mem _ (ih h)

theorem kwHasP_kwSet_self (kw : KwMap) (w : PyStr) (v : List PyStr) :
    KwHasP (kwSet kw w 'p' v) w :=
  ⟨alistSet (alistGetC [] kw w).1 'p' v, v,
    alistGet?_alistSet_self _ _ _,
    alistGet?_alistSet_self _ _ _⟩

theorem kwHasP_kwSet_pres (kw : KwMap) (w w' : PyStr) (f : Char)
    (v : List PyStr) (hne : w' ≠ w ∨ f ≠ 'p') (h : KwHasP kw w) :
    KwHasP (kwSet kw w' f v) w := by
  obtain ⟨inner, ls, hout, hin⟩ := h
  by_cases hw : w' = w
  · subst hw
    have hf : f ≠ 'p' := by
      rcases hne with hne | hne
      · exact absurd rfl hne
      · exact hne
    refine ⟨alistSet (alistGetC [] kw w').1 f v, ls,
      alistGet?_alistSet_self _ _ _, ?_⟩
    rw [alistGet?_alistSet_ne _ _ _ _ (Ne.symm hf),
      alistGet?_alistGetC_fst, hout]
    exact hin
  · refine ⟨inner, ls, ?_, hin⟩
    show alistGet? (alistSet (alistGetC [] kw w').2 w'
      (alistSet (alistGetC [] kw w').1 f v)) w = some inner
    rw [alistGet?_alistSet_ne _ _ _ _ (Ne.symm hw),
      alistGet?_alistGetC_ne _ _ _ _ (Ne.symm hw)]
    exact hout

theorem alistGet?_map_value {K V W : Type} [DecidableEq K]
    (g : V → W) (m : List (K × V)) (k : K) :
    alistGet? (m.map (fun p => (p.1, g p.2))) k = (alistGet? m k).map g := by
  induction m with
  | nil => simp [alistGet?]
  | cons p rest ih =>
    by_cases hp : p.1 = k <;> simp [alistGet?, hp, ih]

theorem kwHasP_kwRead_pres (kw : KwMap) (p : PyStr) (f : Char) (w : PyStr)
    (hne : p ≠ w) (h : KwHasP kw w) : KwHasP (kwRead kw p f).2 w := by
  obtain ⟨inner, ls, hout, hin⟩ := h
  refine ⟨inner, ls, ?_, hin⟩
  show alistGet? (alistSet (alistGetC [] kw p).2 p _) w = some inner
  rw [alistGet?_alistSet_ne _ _ _ _ (Ne.symm hne),
    alistGet?_alistGetC_ne _ _ _ _ (Ne.symm hne)]
  exact hout

theorem kwHasP_mergeStep_left (kw : KwMap) (p1 p2 : PyStr) (h : p2 ≠ p1) :
    KwHasP (mergeStep kw 'p' p1 p2) p1 :=
  kwHasP_kwSet_pres _ _ _ _ _ (Or.inl h) (kwHasP_kwSet_self _ _ _)

theorem kwHasP_mergeStep_right (kw : KwMap) (p1 p2 : PyStr) :
    KwHasP (mergeStep kw 'p' p1 p2) p2 :=
  kwHasP_kwSet_self _ _ _

theorem kwHasP_mergeStep_pres (kw : KwMap) (f : Char) (p1 p2 w : PyStr)
    (h1 : p1 ≠ w) (h2 : p2 ≠ w) (h : KwHasP kw w) :
    KwHasP (mergeStep kw f p1 p2) w :=
  kwHasP_kwSet_pres _ _ _ _ _ (Or.inl h2)
    (kwHasP_kwSet_pres _ _ _ _ _ (Or.inl h1)
      (kwHasP_kwRead_pres _ _ _ _ h2
        (kwHasP_kwRead_pres _ _ _ _ h1 h)))

theorem kwHasP_tzStep (tzs : List PyStr) (kw : KwMap) (w : PyStr)
    (h : KwHasP kw w) : KwHasP (tzStep kw tzs) w := by
  induction tzs generalizing kw with
  | nil => exact h
  | cons tz rest ih =>
    have hstep : tzStep kw (tz :: rest)
        = tzStep (match tz with
          | [] => kw
          | c :: _ =>
            if c = '+' ∨ c = '-' then kw else kwSet kw (lowerStr tz) 'Z' [])
          rest := rfl
    rw [hstep]
    match tz with
    | [] => exact ih kw h
    | c :: cs =>
      by_cases hc : c = '+' ∨ c = '-'
      · simp only [if_pos hc]
        exact ih kw h
      · simp only [if_neg hc]
        exact ih _ (kwHasP_kwSet_pres _ _ _ _ _ (Or.inr (by decide)) h)

theorem tableHasP_package (kw : KwMap) (w : PyStr) (h : KwHasP kw w) :
    TableHasP (packageKeywords kw) w := by
  obtain ⟨inner, ls, hout, hin⟩ := h
  refine ⟨inner.map (fun fl => [Obj.str [fl.1], Obj.locs (sortLocs fl.2)]),
    sortLocs ls, ?_, ?_⟩
  · show alistGet? (kw.map fun pf =>
        (pf.1, pf.2.map fun fl => [Obj.str [fl.1], Obj.locs (sortLocs fl.2)]))
        w = _
    rw [alistGet?_map_value (fun v =>
      v.map fun fl => [Obj.str [fl.1], Obj.locs (sortLocs fl.2)]) kw w, hout]
    rfl
  · have hmem : ('p', ls) ∈ inner := alistGet?_mem _ _ _ hin
    exact List.mem_map_of_mem _ hmem

theorem buildKeywords_hasP (day mon am_pm alt_digits : List (PyStr × List PyStr))
    (tzs : List PyStr) :
    ∀ w ∈ ["am".data, "a.m.".data, "pm".data, "p.m.".data],
      TableHasP (buildKeywords day mon am_pm alt_digits tzs) w := by
  intro w hw
  unfold buildKeywords
  apply tableHasP_package
  apply kwHasP_tzStep
  simp only [List.mem_cons, List.not_mem_nil, or_false] at hw
  rcases hw with h | h | h | h
  · subst h
    exact kwHasP_mergeStep_pres _ _ _ _ _ (by decide) (by decide)
      (kwHasP_mergeStep_left _ _ _ (by decide))
  · subst h
    exact kwHasP_mergeStep_pres _ _ _ _ _ (by decide) (by decide)
      (kwHasP_mergeStep_right _ _ _)
  · subst h
    exact kwHasP_mergeStep_left _ _ _ (by decide)
  · subst h
    exact kwHasP_mergeStep_right _ _ _


/-- C1: the claim (and the doctest at guess_format.py lines 77-81) says that
with `mon = {"Jan;…;Dec": ["en_US"]}` the parse of `"2018Jan9"` returns the
single candidate `('%Y%b%d', 2018-01-09, {'en_US'})`, one hypothesis per
stored `(specifier, locale_set)` entry.  In the code as written this cannot
happen: `TimeLocaleSet.__init__` (extract_patterns.py lines 149-155) stores
keyword entries as 2-tuples `(fmt, locales)` with no value component, while
`DateParser._lookup_keyword` (guess_format.py line 257) unpacks each entry
as `fmt, value, locales`; the lookup of the token `"Jan"` therefore raises
`ValueError`, which propagates out of `parse`.  This theorem evaluates the
embedded code at that failing input: the table does hold the `('b',
('en_US',))` entry for `"jan"`, and the keyword lookup raises. -/
theorem c1_lookup_jan_value_error :
    alistGet? c1Keywords "jan".data
        = some [[Obj.str ['b'], Obj.locs ["en_US".data]]] ∧
    lookupKeyword c1Keywords "Jan".data = Except.error PyErr.valueError ∧
    parseFull c1Tables c1Strings "2018Jan9".data
      = Except.error PyErr.valueError :=
  ⟨rfl, rfl, by decide⟩

/-- C2: the claim says `parse` never raises.  It does: every candidate token
found in the `keywords` table makes `_lookup_keyword` unpack a stored
2-tuple `(fmt, locales)` as the 3-tuple `fmt, value, locales` and raise
`ValueError` (see guess_format.py line 257 against extract_patterns.py
lines 149-155), and the keywords table is never empty — even a
`TimeLocaleSet()` built from an empty corpus holds entries for
`"am"`/`"a.m."`/`"pm"`/`"p.m."` created by the `_merge_patterns` step.
This theorem evaluates the embedded lookup for the token `"am"` against the
empty-corpus locale set, runs the embedded `parse("am")` end to end on the
empty-corpus parser, and shows the independent leap-second crash path:
`datetime.time` rejects second 60, so `_State.valid` raises on a hypothesis
with `S = 60` (reachable from the input `"23:59:60"`, since `_legal_number`
admits 60 for `%S`). -/
theorem c2_lookup_am_value_error :
    lookupKeyword (buildKeywords [] [] [] [] []) "am".data
      = Except.error PyErr.valueError ∧
    parseFull emptyCorpusTables emptyCorpusStrings "am".data
      = Except.error PyErr.valueError ∧
    validTime { H := some (Obj.int 23), M := some (Obj.int 59),
                S := some (Obj.int 60) }
      = Except.error PyErr.valueError :=
  ⟨rfl, by decide, rfl⟩


theorem legalFmts_nodup (v : Int) : (legalFmts v).Nodup := by
  unfold legalFmts
  split_ifs <;> decide

/-- C3: for a plain decimal-digit token of integer value `v`, the hypothesis
generator (`DateParser._lookup_keyword` calling `_legal_number("%", v, None)`)
produces exactly one assignment per specifier whose value range accepts `v`:
`C` and `y` always, `S` iff `v ≤ 60`, `M` iff `v ≤ 59`, `H` iff `v ≤ 23`,
`d` iff `1 ≤ v ≤ 31`, `m` iff `1 ≤ v ≤ 12`, each carrying no locale
evidence.  In particular 60 is accepted as seconds but never as minutes and
13 is never accepted as a month. -/
theorem c3_legal_number_ranges (v : Int) :
    (∀ h ∈ legalNumber ['%'] v none, h.locales = none) ∧
    (legalNumber ['%'] v none).countP (fun h => h.fmt = ['%', 'C']) = 1 ∧
    (legalNumber ['%'] v none).countP (fun h => h.fmt = ['%', 'y']) = 1 ∧
    (legalNumber ['%'] v none).countP (fun h => h.fmt = ['%', 'S'])
      = (if v ≤ 60 then 1 else 0) ∧
    (legalNumber ['%'] v none).countP (fun h => h.fmt = ['%', 'M'])
      = (if v ≤ 59 then 1 else 0) ∧
    (legalNumber ['%'] v none).countP (fun h => h.fmt = ['%', 'H'])
      = (if v ≤ 23 then 1 else 0) ∧
    (legalNumber ['%'] v none).countP (fun h => h.fmt = ['%', 'd'])
      = (if 1 ≤ v ∧ v ≤ 31 then 1 else 0) ∧
    (legalNumber ['%'] v none).countP (fun h => h.fmt = ['%', 'm'])
      = (if 1 ≤ v ∧ v ≤ 12 then 1 else 0) := by
  unfold legalNumber legalFmts
  refine ⟨?_, ?_⟩
  · intro h hmem
    simp only [List.mem_map] at hmem
    obtain ⟨f, _, rfl⟩ := hmem
    rfl
  · split_ifs <;> simp_all <;> omega

/-- Witness for `c3_legal_number_ranges`: instantiated at the token value
60 and the `%S` hypothesis it generates. -/
theorem c3_legal_number_ranges_witness :
    (Hyp.mk ['%', 'S'] (Obj.int 60) none).locales = none ∧
    (legalNumber ['%'] 60 none).countP (fun h => h.fmt = ['%', 'S'])
      = (if (60 : Int) ≤ 60 then 1 else 0) :=
  ⟨(c3_legal_number_ranges 60).1 ⟨['%', 'S'], Obj.int 60, none⟩ (by decide),
    (c3_legal_number_ranges 60).2.2.2.1⟩

theorem centuryLoop_find (y m d av : Int) (cs : List Int)
    (hok : ∀ c ∈ cs, dateNew (c * 100 + y) m d = .ok ⟨c * 100 + y, m, d⟩) :
    centuryLoop (dtOf y m d (some av)) (cs.map Obj.int)
      = .ok ((cs.find?
          (fun c => decide (av = (pyWeekday ⟨c * 100 + y, m, d⟩ + 1).emod 7))).map
        (fun c => PyDate.mk (c * 100 + y) m d)) := by
  induction cs with
  | nil => rfl
  | cons c rest ih =>
    have hc := hok c (List.mem_cons_self _ _)
    have hrest : ∀ c ∈ rest, dateNew (c * 100 + y) m d = .ok ⟨c * 100 + y, m, d⟩ :=
      fun c hmem => hok c (List.mem_cons_of_mem _ hmem)
    simp only [List.map_cons, centuryLoop, intOf, intOfOpt, dtOf,
      Option.map_some', bind, Except.bind, hc]
    by_cases hw : av = (pyWeekday ⟨c * 100 + y, m, d⟩ + 1).emod 7
    · have hfind : List.find?
          (fun c => decide (av = (pyWeekday ⟨c * 100 + y, m, d⟩ + 1).emod 7))
          (c :: rest) = some c := List.find?_cons_of_pos _ (by simp [hw])
      simp [hfind, pyEqInt, hw, pure, Except.pure]
    · have hfind : List.find?
          (fun c => decide (av = (pyWeekday ⟨c * 100 + y, m, d⟩ + 1).emod 7))
          (c :: rest)
          = List.find?
            (fun c => decide (av = (pyWeekday ⟨c * 100 + y, m, d⟩ + 1).emod 7))
            rest := List.find?_cons_of_neg _ (by simp [hw])
      have hpe : pyEqInt (some (Obj.int av))
          ((pyWeekday ⟨c * 100 + y, m, d⟩ + 1).emod 7) = false := by
        simp [pyEqInt, hw]
      rw [hfind]
      simp only [hpe, Bool.false_eq_true, if_false]
      rw [← ih hrest]
      rfl

/-- C4 counterexample: the claim says that for a complete assignment with a
two-digit year, no century, day 29 and month 2, the chosen year is 2000.
The code (guess_format.py line 511) restricts that branch to two-digit year
0: at year 16, month 2, day 29 (no weekday), the decoded date is
2016-02-29, not a year-2000 date. -/
theorem c4_counterexample :
    stateValid true false c4Value
      = .ok (some (.date ⟨2016, 2, 29⟩)) ∧ (2016 : Int) ≠ 2000 :=
  ⟨rfl, by decide⟩

/-- C4 (amended): for a complete assignment carrying a two-digit year but no
century: if the two-digit year is 0, the day 29 and the month 2, the chosen
year is 2000 (century 20); otherwise if a weekday is assigned, centuries
20, 19, 21, 18 are tried in that order and the first whose computed weekday
matches is chosen; otherwise century 20 is chosen when the two-digit year
is ≤ 68 and 19 otherwise. -/
theorem c4_century_inference_amended (y m d : Int) (a : Option Int) :
    (validDate (dtOf y m d a)
      = centuryLoop (dtOf y m d a) ((claimCenturies y m d a.isSome).map Obj.int)) ∧
    (y = 0 ∧ m = 2 ∧ d = 29 →
      ∀ dt, validDate (dtOf y m d a) = .ok (some dt) → dt.year = 2000) ∧
    (∀ av, a = some av → ¬(y = 0 ∧ m = 2 ∧ d = 29) →
      (∀ c ∈ [(20 : Int), 19, 21, 18],
        dateNew (c * 100 + y) m d = .ok ⟨c * 100 + y, m, d⟩) →
      validDate (dtOf y m d a)
        = .ok (([(20 : Int), 19, 21, 18].find?
            (fun c => decide (av = (pyWeekday ⟨c * 100 + y, m, d⟩ + 1).emod 7))).map
          (fun c => PyDate.mk (c * 100 + y) m d))) ∧
    (a = none → ¬(y = 0 ∧ m = 2 ∧ d = 29) →
      validDate (dtOf y m d a)
        = (dateNew ((if y ≤ 68 then (20 : Int) else 19) * 100 + y) m d).map some) := by
  have hmain : validDate (dtOf y m d a)
      = centuryLoop (dtOf y m d a) ((claimCenturies y m d a.isSome).map Obj.int) := by
    by_cases h1 : y = 0 ∧ m = 2 ∧ d = 29
    · obtain ⟨hy, hm, hd⟩ := h1
      subst hy; subst hm; subst hd
      simp [validDate, claimCenturies, dtOf, pyEqInt, bind, Except.bind,
        pure, Except.pure]
    · have hb' : (pyEqInt (some (Obj.int y)) 0 && pyEqInt (some (Obj.int m)) 2
          && pyEqInt (some (Obj.int d)) 29) = false := by
        simp only [pyEqInt]
        rcases not_and_or.mp h1 with h | h
        · simp [h]
        rcases not_and_or.mp h with h | h <;> simp [h]
      cases a with
      | some av =>
        simp [validDate, claimCenturies, dtOf, h1, hb', bind, Except.bind,
          pure, Except.pure]
      | none =>
        by_cases h2 : y ≤ 68 <;>
          simp [validDate, claimCenturies, dtOf, h1, h2, hb', pyLeInt,
            bind, Except.bind, pure, Except.pure]
  refine ⟨hmain, ?_, ?_, ?_⟩
  · rintro ⟨hy, hm, hd⟩ dt h
    subst hy; subst hm; subst hd
    rw [hmain] at h
    have hcent : claimCenturies 0 2 29 a.isSome = [20] := by
      simp [claimCenturies]
    rw [hcent] at h
    have hdn : dateNew (20 * 100 + 0) 2 29 = .ok ⟨2000, 2, 29⟩ := by decide
    cases a with
    | none =>
      simp only [centuryLoop, dtOf, intOf, intOfOpt, bind, Except.bind,
        List.map_cons, List.map_nil, Option.map_none'] at h
      rw [hdn] at h
      simp only [pure, Except.pure] at h
      cases h
      rfl
    | some av =>
      simp only [centuryLoop, dtOf, intOf, intOfOpt, bind, Except.bind,
        List.map_cons, List.map_nil, Option.map_some'] at h
      rw [hdn] at h
      by_cases hw : pyEqInt (some (Obj.int av)) ((pyWeekday ⟨2000, 2, 29⟩ + 1).emod 7)
      · simp only [hw, if_true, pure, Except.pure] at h
        cases h
        rfl
      · simp only [hw, if_false, Bool.false_eq_true, centuryLoop, pure,
          Except.pure] at h
        cases h
  · intro av ha hno hok
    subst ha
    rw [hmain]
    have hcent : claimCenturies y m d (some av).isSome = [20, 19, 21, 18] := by
      simp [claimCenturies, hno]
    rw [hcent]
    exact centuryLoop_find y m d av _ hok
  · intro ha hno
    subst ha
    rw [hmain]
    have hcent : claimCenturies y m d (none : Option Int).isSome
        = if y ≤ 68 then [20] else [19] := by
      simp [claimCenturies, hno]
    rw [hcent]
    by_cases h2 : y ≤ 68
    · simp only [h2, if_true, List.map_cons, List.map_nil, centuryLoop,
        intOf, intOfOpt, dtOf, bind, Except.bind, Except.map]
      cases dateNew (20 * 100 + y) m d <;> rfl
    · simp only [h2, if_false, Bool.false_eq_true, List.map_cons,
        List.map_nil, centuryLoop, intOf, intOfOpt, dtOf, bind, Except.bind,
        Except.map]
      cases dateNew (19 * 100 + y) m d <;> rfl

/-- Witness for `c4_century_inference_amended`: year 05, February 28 with
weekday Monday (so `(weekday + 1) % 7 = 1`) resolves to 2005-02-28 through
the weekday window. -/
theorem c4_century_inference_amended_witness :
    validDate (dtOf 5 2 28 (some 1)) = .ok (some ⟨2005, 2, 28⟩) := by
  have h := (c4_century_inference_amended 5 2 28 (some 1)).2.2.1 1 rfl
    (by decide) (by decide)
  rw [h]
  rfl

theorem replaceCYAux_congr : ∀ n m (s : PyStr), s.length ≤ n → s.length ≤ m →
    replaceCYAux n s = replaceCYAux m s := by
  intro n
  induction n with
  | zero =>
    intro m s h1 _
    have hs : s = [] := List.length_eq_zero.mp (Nat.le_zero.mp h1)
    subst hs
    cases m <;> rfl
  | succ n ih =>
    intro m s h1 h2
    cases s with
    | nil => cases m <;> rfl
    | cons c rest =>
      cases m with
      | zero => simp at h2
      | succ m =>
        have hr1 : rest.length ≤ n := Nat.le_of_succ_le_succ h1
        have hr2 : rest.length ≤ m := Nat.le_of_succ_le_succ h2
        have hd1 : (rest.drop 3).length ≤ n := by
          rw [List.length_drop]; omega
        have hd2 : (rest.drop 3).length ≤ m := by
          rw [List.length_drop]; omega
        simp only [replaceCYAux]
        by_cases hp : pctCY.isPrefixOf (c :: rest)
        · rw [if_pos hp, if_pos hp, ih m _ hd1 hd2]
        · rw [if_neg hp, if_neg hp, ih m _ hr1 hr2]

theorem replaceCY_cons (c : Char) (rest : PyStr) :
    replaceCY (c :: rest)
      = if pctCY.isPrefixOf (c :: rest) then pctY ++ replaceCY (rest.drop 3)
        else c :: replaceCY rest := by
  show replaceCYAux (rest.length + 1) (c :: rest) = _
  simp only [replaceCYAux]
  by_cases hp : pctCY.isPrefixOf (c :: rest)
  · rw [if_pos hp, if_pos hp]
    congr 1
    exact replaceCYAux_congr _ _ _ (by rw [List.length_drop]; omega) le_rfl
  · rw [if_neg hp, if_neg hp]
    rfl

theorem replaceCY_eq_y (t u : PyStr) (h : replaceCY t = 'y' :: u) :
    ∃ v, t = 'y' :: v ∧ u = replaceCY v := by
  cases t with
  | nil => exact absurd h (by simp [replaceCY, replaceCYAux])
  | cons c rest =>
    rw [replaceCY_cons] at h
    by_cases hp : pctCY.isPrefixOf (c :: rest)
    · rw [if_pos hp] at h
      exact absurd h (by simp [pctY])
    · rw [if_neg hp] at h
      injection h with h1 h2
      exact ⟨rest, by rw [h1], h2.symm⟩

theorem replaceCY_eq_py (t u : PyStr) (h : replaceCY t = '%' :: 'y' :: u) :
    ∃ v, t = '%' :: 'y' :: v ∧ u = replaceCY v := by
  cases t with
  | nil => exact absurd h (by simp [replaceCY, replaceCYAux])
  | cons c rest =>
    rw [replaceCY_cons] at h
    by_cases hp : pctCY.isPrefixOf (c :: rest)
    · rw [if_pos hp] at h
      exact absurd h (by simp [pctY])
    · rw [if_neg hp] at h
      injection h with h1 h2
      obtain ⟨v, hv, hu⟩ := replaceCY_eq_y rest u h2
      exact ⟨v, by rw [h1, hv], hu⟩

theorem replaceCY_eq_cpy (t u : PyStr)
    (h : replaceCY t = 'C' :: '%' :: 'y' :: u) :
    ∃ v, t = 'C' :: '%' :: 'y' :: v ∧ u = replaceCY v := by
  cases t with
  | nil => exact absurd h (by simp [replaceCY, replaceCYAux])
  | cons c rest =>
    rw [replaceCY_cons] at h
    by_cases hp : pctCY.isPrefixOf (c :: rest)
    · rw [if_pos hp] at h
      exact absurd h (by simp [pctY])
    · rw [if_neg hp] at h
      injection h with h1 h2
      obtain ⟨v, hv, hu⟩ := replaceCY_eq_py rest u h2
      exact ⟨v, by rw [h1, hv], hu⟩

theorem isPrefixOf_cpy (X : PyStr)
    (h : (['C', '%', 'y'] : PyStr).isPrefixOf X = true) :
    ∃ u, X = 'C' :: '%' :: 'y' :: u := by
  cases X with
  | nil => simp [List.isPrefixOf] at h
  | cons c1 X1 =>
    cases X1 with
    | nil => simp [List.isPrefixOf] at h
    | cons c2 X2 =>
      cases X2 with
      | nil => simp [List.isPrefixOf] at h
      | cons c3 u =>
        simp only [List.isPrefixOf, Bool.and_eq_true, beq_iff_eq] at h
        obtain ⟨h1, h2, h3⟩ := h
        cases h1
        cases h2
        cases h3.1
        exact ⟨u, rfl⟩

theorem replaceCY_no_occurrence_aux :
    ∀ n (t : PyStr), t.length ≤ n → containsSub pctCY (replaceCY t) = false := by
  intro n
  induction n with
  | zero =>
    intro t ht
    have : t = [] := List.length_eq_zero.mp (Nat.le_zero.mp ht)
    subst this
    rfl
  | succ n ih =>
    intro t ht
    cases t with
    | nil => rfl
    | cons c rest =>
      have hrest : rest.length ≤ n := Nat.le_of_succ_le_succ ht
      rw [replaceCY_cons]
      by_cases hp : pctCY.isPrefixOf (c :: rest)
      · rw [if_pos hp]
        have hdrop : (rest.drop 3).length ≤ n :=
          le_trans (by rw [List.length_drop]; omega) hrest
        have h1 : List.isPrefixOf pctCY
            ('%' :: 'Y' :: replaceCY (rest.drop 3)) = false := by
          simp [pctCY, List.isPrefixOf]
        have h2 : List.isPrefixOf pctCY
            ('Y' :: replaceCY (rest.drop 3)) = false := by
          simp [pctCY, List.isPrefixOf]
        show containsSub pctCY
          ('%' :: 'Y' :: replaceCY (rest.drop 3)) = false
        simp only [containsSub, h1, h2, Bool.false_or]
        exact ih _ hdrop
      · rw [if_neg hp]
        simp only [containsSub, Bool.or_eq_false_iff]
        constructor
        · by_contra hcon
          rw [Bool.not_eq_false] at hcon
          simp only [pctCY, List.isPrefixOf, Bool.and_eq_true,
            beq_iff_eq] at hcon
          obtain ⟨hc1, hc2⟩ := hcon
          obtain ⟨u, hu⟩ := isPrefixOf_cpy _ hc2
          obtain ⟨v, hv, -⟩ := replaceCY_eq_cpy rest u hu
          apply hp
          rw [← hc1, hv]
          simp [pctCY, List.isPrefixOf]
        · exact ih rest hrest

theorem replaceCY_no_occurrence (t : PyStr) :
    containsSub pctCY (replaceCY t) = false :=
  replaceCY_no_occurrence_aux t.length t le_rfl

theorem lexLt_asymm : ∀ a b : PyStr, lexLt a b = true → lexLt b a = false := by
  intro a
  induction a with
  | nil =>
    intro b h
    cases b with
    | nil => simp [lexLt] at h
    | cons y ys => simp [lexLt]
  | cons x xs ih =>
    intro b h
    cases b with
    | nil => simp [lexLt] at h
    | cons y ys =>
      simp only [lexLt] at h ⊢
      by_cases h1 : x.toNat < y.toNat
      · have h2 : ¬y.toNat < x.toNat := by omega
        simp [h1, h2]
      · by_cases h2 : y.toNat < x.toNat
        · simp [h1, h2] at h
        · simp only [h1, h2, if_false] at h ⊢
          exact ih ys h

theorem lexLt_notLt_trans :
    ∀ a b c : PyStr, lexLt a b = false → lexLt b c = false → lexLt a c = false := by
  intro a
  induction a with
  | nil =>
    intro b c h1 h2
    cases b with
    | nil =>
      cases c with
      | nil => rfl
      | cons z zs => simp [lexLt] at h2
    | cons y ys => simp [lexLt] at h1
  | cons x xs ih =>
    intro b c h1 h2
    cases b with
    | nil =>
      cases c with
      | nil => rfl
      | cons z zs => simp [lexLt] at h2
    | cons y ys =>
      cases c with
      | nil => rfl
      | cons z zs =>
        simp only [lexLt] at h1 h2 ⊢
        by_cases hxy : x.toNat < y.toNat
        · simp [hxy] at h1
        · by_cases hyz : y.toNat < z.toNat
          · simp [hyz] at h2
          · by_cases hxz : x.toNat < z.toNat
            · omega
            · by_cases hzx : z.toNat < x.toNat
              · simp [hxz, hzx]
              · have hyx : ¬y.toNat < x.toNat := by omega
                have hzy : ¬z.toNat < y.toNat := by omega
                simp only [hxy, hyx, if_false] at h1
                simp only [hyz, hzy, if_false] at h2
                simp only [hxz, hzx, if_false]
                exact ih ys zs h1 h2

theorem isPrefixOf_of_common :
    ∀ (w u v : PyStr), u.isPrefixOf w = true → v.isPrefixOf w = true →
      u.length ≤ v.length → u.isPrefixOf v = true := by
  intro w
  induction w with
  | nil =>
    intro u v hu hv _
    cases u with
    | nil => cases v <;> rfl
    | cons x xs => simp [List.isPrefixOf] at hu
  | cons c ws ih =>
    intro u v hu hv hlen
    cases u with
    | nil => cases v <;> rfl
    | cons x xs =>
      cases v with
      | nil => simp at hlen
      | cons y ys =>
        simp only [List.isPrefixOf, Bool.and_eq_true, beq_iff_eq] at hu hv ⊢
        refine ⟨hu.1.trans hv.1.symm, ?_⟩
        exact ih xs ys hu.2 hv.2 (Nat.le_of_succ_le_succ hlen)

theorem lexLt_of_proper_pre :
    ∀ (u v : PyStr), u.isPrefixOf v = true → u.length < v.length →
      lexLt u v = true := by
  intro u
  induction u with
  | nil =>
    intro v _ hlen
    cases v with
    | nil => simp at hlen
    | cons y ys => rfl
  | cons x xs ih =>
    intro v hp hlen
    cases v with
    | nil => simp [List.isPrefixOf] at hp
    | cons y ys =>
      simp only [List.isPrefixOf, Bool.and_eq_true, beq_iff_eq] at hp
      obtain ⟨hx, hp⟩ := hp
      subst hx
      simp only [lexLt, Nat.lt_irrefl, if_false]
      exact ih ys hp (Nat.lt_of_succ_lt_succ hlen)

theorem mem_insertDesc (z x : PyStr) :
    ∀ l, z ∈ insertDesc x l ↔ z = x ∨ z ∈ l := by
  intro l
  induction l with
  | nil => simp [insertDesc]
  | cons y ys ih =>
    simp only [insertDesc]
    by_cases h : lexLt x y
    · simp only [h, if_true, List.mem_cons, ih]
      tauto
    · simp only [h, Bool.false_eq_true, if_false, List.mem_cons]
      try tauto

theorem insertDesc_pairwise (x : PyStr) :
    ∀ l, l.Pairwise (fun a b => lexLt a b = false) →
      (insertDesc x l).Pairwise (fun a b => lexLt a b = false) := by
  intro l
  induction l with
  | nil => intro _; simp [insertDesc]
  | cons y ys ih =>
    intro h
    rw [List.pairwise_cons] at h
    obtain ⟨hy, hys⟩ := h
    simp only [insertDesc]
    by_cases hxy : lexLt x y
    · rw [if_pos hxy, List.pairwise_cons]
      constructor
      · intro z hz
        rcases (mem_insertDesc z x ys).mp hz with rfl | hz
        · exact lexLt_asymm _ _ hxy
        · exact hy z hz
      · exact ih hys
    · rw [if_neg hxy, List.pairwise_cons]
      constructor
      · intro z hz
        rcases List.mem_cons.mp hz with rfl | hz
        · exact Bool.of_not_eq_true hxy
        · exact lexLt_notLt_trans x y z (Bool.of_not_eq_true hxy) (hy z hz)
      · rw [List.pairwise_cons]
        exact ⟨hy, hys⟩

theorem sortDesc_pairwise (l : List PyStr) :
    (sortDesc l).Pairwise (fun a b => lexLt a b = false) := by
  induction l with
  | nil => simp [sortDesc]
  | cons x xs ih => exact insertDesc_pairwise x _ ih

theorem mem_sortDesc (z : PyStr) (l : List PyStr) :
    z ∈ sortDesc l ↔ z ∈ l := by
  induction l with
  | nil => simp [sortDesc]
  | cons x xs ih =>
    show z ∈ insertDesc x (sortDesc xs) ↔ _
    rw [mem_insertDesc, ih]
    simp

theorem matchAlt_lit_some (text s : PyStr) (n : Nat)
    (h : matchAlt text (.lit s) = some n) :
    n = s.length ∧ (lowerStr s).isPrefixOf (lowerStr text) = true := by
  by_cases hc : (lowerStr s).isPrefixOf (lowerStr text)
  · simp only [matchAlt, if_pos hc] at h
    cases h
    exact ⟨rfl, hc⟩
  · simp [matchAlt, hc] at h

theorem firstMatch_longest :
    ∀ (l : List PyStr), l.Pairwise (fun a b => lexLt a b = false) →
      (∀ s ∈ l, lowerStr s = s) →
      ∀ (text u : PyStr) (n : Nat),
        firstMatch (l.map RegexAlt.lit) text = some n →
        u ∈ l → matchAlt text (.lit u) ≠ none → u.length ≤ n := by
  intro l
  induction l with
  | nil =>
    intro _ _ text u n _ hu _
    cases hu
  | cons a rest ih =>
    intro hpair hlow text u n h hu hmatch
    rw [List.pairwise_cons] at hpair
    obtain ⟨ha, hrest⟩ := hpair
    simp only [List.map_cons, firstMatch] at h
    cases hmA : matchAlt text (.lit a) with
    | some m =>
      rw [hmA] at h
      injection h with hmn
      subst hmn
      obtain ⟨hm, hapre⟩ := matchAlt_lit_some text a m hmA
      subst hm
      rcases List.mem_cons.mp hu with rfl | hu
      · exact le_rfl
      · by_contra hlen
        push_neg at hlen
        cases hmu : matchAlt text (.lit u) with
        | none => exact hmatch hmu
        | some k =>
          obtain ⟨-, hupre⟩ := matchAlt_lit_some text u k hmu
          rw [hlow a (List.mem_cons_self _ _)] at hapre
          rw [hlow u (List.mem_cons_of_mem _ hu)] at hupre
          have hpre : a.isPrefixOf u = true :=
            isPrefixOf_of_common (lowerStr text) a u hapre hupre
              (Nat.le_of_lt hlen)
          have ht : lexLt a u = true :=
            lexLt_of_proper_pre a u hpre hlen
          have hf : lexLt a u = false := ha u hu
          rw [ht] at hf
          cases hf
    | none =>
      rw [hmA] at h
      rcases List.mem_cons.mp hu with rfl | hu
      · exact absurd hmA hmatch
      · exact ih hrest (fun s hs => hlow s (List.mem_cons_of_mem _ hs))
          text u n h hu hmatch

theorem collapseWsAux_true_head :
    ∀ s, collapseWsAux true s = []
      ∨ ∃ c rest', collapseWsAux true s = c :: rest' ∧ isSpaceChar c = false := by
  intro s
  induction s with
  | nil => exact Or.inl rfl
  | cons c rest ih =>
    by_cases hc : isSpaceChar c
    · simpa [collapseWsAux, hc] using ih
    · exact Or.inr ⟨c, collapseWsAux false rest, by simp [collapseWsAux, hc], by simpa using hc⟩

theorem collapseWs_no_double_space :
    ∀ (s : PyStr) (b : Bool), containsSub [' ', ' '] (collapseWsAux b s) = false := by
  intro s
  induction s with
  | nil => intro b; rfl
  | cons c rest ih =>
    intro b
    by_cases hc : isSpaceChar c
    · cases b with
      | true => simpa [collapseWsAux, hc] using ih true
      | false =>
        have hX : ([' '] : PyStr).isPrefixOf (collapseWsAux true rest) = false := by
          rcases collapseWsAux_true_head rest with hx | ⟨c', rest', hx, hcs⟩
          · rw [hx]; rfl
          · rw [hx]
            have hcc : (' ' == c') = false := by
              cases hq : (' ' == c') with
              | false => rfl
              | true =>
                rw [beq_iff_eq] at hq
                rw [← hq] at hcs
                simp [isSpaceChar] at hcs
            simp [List.isPrefixOf, hcc]
        rw [show collapseWsAux false (c :: rest) = ' ' :: collapseWsAux true rest from by
          simp [collapseWsAux, hc]]
        simp only [containsSub, Bool.or_eq_false_iff]
        refine ⟨?_, ih true⟩
        simp only [List.isPrefixOf, beq_self_eq_true, Bool.true_and]
        exact hX
    · have hcc : (' ' == c) = false := by
        cases hq : (' ' == c) with
        | false => rfl
        | true =>
          rw [beq_iff_eq] at hq
          rw [← hq] at hc
          simp [isSpaceChar] at hc
      rw [show collapseWsAux b (c :: rest) = c :: collapseWsAux false rest from by
        simp [collapseWsAux, hc]]
      simp only [containsSub, List.isPrefixOf, hcc, Bool.false_and, Bool.false_or]
      exact ih false

/-- C8: the master regex built at parser construction is the alternation of
(1) a run of 1-2 decimal digits, (2) a signed four-digit offset, and (3)
every known keyword/prefix/suffix string escaped, ordered by reverse
lexicographic sort and matched case-insensitively; because the stored
strings are case-folded (lowercase), and two strings matching at the same
position are necessarily prefix-related, the reverse sort guarantees that
when two known strings can match at the same position the longer wins; and
input whitespace runs are collapsed to single spaces before splitting
(guess_format.py lines 36-43 and 88). -/
theorem c8_segmenter_regex (strings : List PyStr)
    (hlow : ∀ s ∈ strings, lowerStr s = s) :
    (compiledAlts strings
      = RegexAlt.digits12 :: RegexAlt.signed4
        :: (sortDesc strings).map RegexAlt.lit) ∧
    (∀ (text u : PyStr) (n : Nat),
      firstMatch ((sortDesc strings).map RegexAlt.lit) text = some n →
      u ∈ strings → matchAlt text (.lit u) ≠ none → u.length ≤ n) ∧
    (∀ s : PyStr, containsSub [' ', ' '] (collapseWs s) = false) := by
  refine ⟨rfl, ?_, fun s => collapseWs_no_double_space s false⟩
  intro text u n hfm hu hmatch
  exact firstMatch_longest (sortDesc strings) (sortDesc_pairwise strings)
    (fun s hs => hlow s ((mem_sortDesc s strings).mp hs)) text u n hfm
    ((mem_sortDesc u strings).mpr hu) hmatch

/-- Witness for `c8_segmenter_regex`: with known strings `"t"` and `"ts"`,
on the text `"TSX"` the first matching literal alternative has length 2
(the longer string `"ts"` wins over `"t"`). -/
theorem c8_segmenter_regex_witness : ("t".data : PyStr).length ≤ 2 :=
  (c8_segmenter_regex ["t".data, "ts".data] (by decide)).2.1
    "TSX".data "t".data 2 rfl (by decide) (by decide)

/-- C5: no format string returned by `parse` contains the substring
`"%C%y"`: the assembled pattern (guess_format.py line 248) passes through
`.replace("%C%y", "%Y")`, and the result of that replacement never contains
`"%C%y"` — for any literals and any per-token texts whatsoever. -/
theorem c5_no_CY_in_pattern (literals fmts : List PyStr) :
    containsSub pctCY (assemblePattern literals fmts) = false :=
  replaceCY_no_occurrence _

theorem mem_setInsert (z x : PyStr) (s : List PyStr) :
    z ∈ setInsert s x ↔ z ∈ s ∨ z = x := by
  unfold setInsert
  by_cases h : x ∈ s
  · simp only [if_pos h]
    constructor
    · exact Or.inl
    · rintro (hz | rfl)
      exacts [hz, h]
  · simp [if_neg h, List.mem_append]

theorem mem_foldl_setInsert (l : List PyStr) :
    ∀ acc z, z ∈ l.foldl setInsert acc ↔ z ∈ acc ∨ z ∈ l := by
  induction l with
  | nil => simp
  | cons x xs ih =>
    intro acc z
    simp only [List.foldl]
    rw [ih, mem_setInsert]
    simp only [List.mem_cons]
    tauto

theorem tableHasP_key_mem (t : KeyTable) (w : PyStr) (h : TableHasP t w) :
    w ∈ t.map Prod.fst := by
  obtain ⟨entries, ls, hget, -⟩ := h
  exact List.mem_map_of_mem _ (alistGet?_mem _ _ _ hget)

theorem lit_mem_compiledAlts (w : PyStr) (strings : List PyStr)
    (h : w ∈ strings) : RegexAlt.lit w ∈ compiledAlts strings :=
  List.mem_cons_of_mem _ (List.mem_cons_of_mem _
    (List.mem_map_of_mem _ ((mem_sortDesc w strings).mpr h)))

/-- C10: for every `TimeLocaleSet` — the corpus dictionaries and the
external timezone-name list are arbitrary — the keywords table has an entry
under specifier `p` for each of `"am"`, `"a.m."`, `"pm"`, `"p.m."` (the
`_merge_patterns` step of `TimeLocaleSet.__init__` creates them); for the
empty corpus those entries carry the empty (universal) locale set; and each
of the four words is among the strings of any parser's master regex built
from the set, hence always a candidate token. -/
theorem c10_am_pm_keywords
    (day mon am_pm alt_digits : List (PyStr × List PyStr)) (tzs : List PyStr) :
    ∀ w ∈ ["am".data, "a.m.".data, "pm".data, "p.m.".data],
      TableHasP (buildKeywords day mon am_pm alt_digits tzs) w ∧
      (∀ pfxKeys sfxKeys : List PyStr,
        RegexAlt.lit w ∈ compiledAlts (parserStrings pfxKeys
          ((buildKeywords day mon am_pm alt_digits tzs).map Prod.fst) sfxKeys)) ∧
      alistGet? (buildKeywords [] [] [] [] []) w
        = some [[Obj.str ['p'], Obj.locs []]] := by
  intro w hw
  have h1 := buildKeywords_hasP day mon am_pm alt_digits tzs w hw
  refine ⟨h1, ?_, ?_⟩
  · intro pfxKeys sfxKeys
    apply lit_mem_compiledAlts
    unfold parserStrings
    rw [mem_foldl_setInsert]
    have hk := tableHasP_key_mem _ _ h1
    simp [List.mem_append, hk]
  · simp only [List.mem_cons, List.not_mem_nil, or_false] at hw
    rcases hw with rfl | rfl | rfl | rfl <;> rfl

/-- Witness for `c10_am_pm_keywords`: the empty-corpus locale set stores
the `('p', ())` entry for the word `"am"`. -/
theorem c10_am_pm_keywords_witness :
    alistGet? (buildKeywords [] [] [] [] []) "am".data
      = some [[Obj.str ['p'], Obj.locs []]] :=
  (c10_am_pm_keywords [] [] [] [] [] "am".data
    (List.mem_cons_self _ _)).2.2

/-!
## Search-tree anatomy

Projection lemmas for the `_DateTime` update, and the dissection of
`_State.children`: every emitted child is an assignment child (with every
check of the option loop recorded) or the skip child of its branch.
-/

theorem DT.set_C {α : Type} (dt : DT α) (c : Char) (v : α) :
    (DT.set dt c v).C = if c = 'C' then some v else dt.C := by
  by_cases h1 : c = 'C'
  · subst h1; simp [DT.set, apply_ite DT.C]
  · simp only [DT.set, if_neg h1, apply_ite DT.C, ite_self]

theorem DT.set_y {α : Type} (dt : DT α) (c : Char) (v : α) :
    (DT.set dt c v).y = if c = 'y' then some v else dt.y := by
  by_cases h1 : c = 'y'
  · subst h1; simp [DT.set, apply_ite DT.y]
  · simp only [DT.set, if_neg h1, apply_ite DT.y, ite_self]

theorem DT.set_m {α : Type} (dt : DT α) (c : Char) (v : α) :
    (DT.set dt c v).m = if c = 'm' then some v else dt.m := by
  by_cases h1 : c = 'm'
  · subst h1; simp [DT.set, apply_ite DT.m]
  · simp only [DT.set, if_neg h1, apply_ite DT.m, ite_self]

theorem DT.set_d {α : Type} (dt : DT α) (c : Char) (v : α) :
    (DT.set dt c v).d = if c = 'd' then some v else dt.d := by
  by_cases h1 : c = 'd'
  · subst h1; simp [DT.set, apply_ite DT.d]
  · simp only [DT.set, if_neg h1, apply_ite DT.d, ite_self]

theorem DT.set_a {α : Type} (dt : DT α) (c : Char) (v : α) :
    (DT.set dt c v).a = if c = 'a' then some v else dt.a := by
  by_cases h1 : c = 'a'
  · subst h1; simp [DT.set, apply_ite DT.a]
  · simp only [DT.set, if_neg h1, apply_ite DT.a, ite_self]

theorem DT.set_H {α : Type} (dt : DT α) (c : Char) (v : α) :
    (DT.set dt c v).H = if c = 'H' then some v else dt.H := by
  by_cases h1 : c = 'H'
  · subst h1; simp [DT.set, apply_ite DT.H]
  · simp only [DT.set, if_neg h1, apply_ite DT.H, ite_self]

theorem DT.set_M {α : Type} (dt : DT α) (c : Char) (v : α) :
    (DT.set dt c v).M = if c = 'M' then some v else dt.M := by
  by_cases h1 : c = 'M'
  · subst h1; simp [DT.set, apply_ite DT.M]
  · simp only [DT.set, if_neg h1, apply_ite DT.M, ite_self]

theorem DT.set_S {α : Type} (dt : DT α) (c : Char) (v : α) :
    (DT.set dt c v).S = if c = 'S' then some v else dt.S := by
  by_cases h1 : c = 'S'
  · subst h1; simp [DT.set, apply_ite DT.S]
  · simp only [DT.set, if_neg h1, apply_ite DT.S, ite_self]

theorem DT.set_p {α : Type} (dt : DT α) (c : Char) (v : α) :
    (DT.set dt c v).p = if c = 'p' then some v else dt.p := by
  by_cases h1 : c = 'p'
  · subst h1; simp [DT.set, apply_ite DT.p]
  · simp only [DT.set, if_neg h1, apply_ite DT.p, ite_self]

theorem DT.set_Z {α : Type} (dt : DT α) (c : Char) (v : α) :
    (DT.set dt c v).Z = if c = 'Z' then some v else dt.Z := by
  by_cases h1 : c = 'Z'
  · subst h1; simp [DT.set, apply_ite DT.Z]
  · simp only [DT.set, if_neg h1, apply_ite DT.Z, ite_self]

set_option maxHeartbeats 1000000 in
/-- Dissection of the option-loop body after the locale check passed. -/
theorem childOf_body (st : SState) (cat : Char) (posCons : List PosCon)
    (valCons : List ValCon) (remaining : List Group) (dp tp : Bool)
    (a : Assign) (locales : Option (List PyStr))
    (sc : Nat × Option (List PyStr) × SState)
    (h : (do
      let pos := st.pos.set cat a.pos
      let rs ← posCons.mapM (fun pc => pc.eval pos)
      if rs.contains none then pure none
      else
        let excl := (rs.map (fun r => r.getD [])).flatten
        if !(excl.all (fun i => !memDT i pos)) then pure none
        else
          let value := st.value.set cat a.value
          let ok ← valCons.foldlM
            (fun acc vc => if acc then vc.eval value else pure false) true
          if !ok then pure none
          else
            let fmts := st.fmts.set cat a.fmt
            let pending0 := st.pendingHints ++ [((none : Option Int), ([] : List PyStr))]
              ++ (match a.pfx with
                  | some p => [(some (a.pos - 1), p)]
                  | none => [])
              ++ (match a.sfx with
                  | some sfx => [(some (a.pos + 1), sfx)]
                  | none => [])
            let exclude :=
              if excl.isEmpty then st.unconverted else st.unconverted ++ excl
            let res := pending0.foldl
              (fun (acc : List (PyStr × Nat) × Nat × List (Option Int × List PyStr)) h =>
                match h.1 with
                | none =>
                  if h.2.isEmpty then (acc.1, acc.2.1 + 1, acc.2.2)
                  else (counterUpdate acc.1 h.2, acc.2.1, acc.2.2)
                | some idx =>
                  if idx ∈ exclude then
                    if h.2.isEmpty then (acc.1, acc.2.1 + 1, acc.2.2)
                    else (counterUpdate acc.1 h.2, acc.2.1, acc.2.2)
                  else if memDT idx pos then acc
                  else (acc.1, acc.2.1, acc.2.2 ++ [(some idx, h.2)]))
              (st.satisfied, st.globallySatisfied, ([] : List (Option Int × List PyStr)))
            let new : SState :=
              { remaining := remaining
                datePresent := dp
                timePresent := tp
                unconverted := exclude
                pos := pos
                value := value
                fmts := fmts
                requiredLocales := locales
                pendingHints := res.2.2
                satisfied := res.1
                globallySatisfied := res.2.1 }
            pure (some new.score)
      : Except PyErr (Option (Nat × Option (List PyStr) × SState)))
      = Except.ok (some sc)) :
    ∃ (rs : List (Option (List Int))),
      posCons.mapM (fun pc => pc.eval (st.pos.set cat a.pos))
        = Except.ok rs ∧
      rs.contains none = false ∧
      ((rs.map (fun r => r.getD [])).flatten).all
        (fun i => !memDT i (st.pos.set cat a.pos)) = true ∧
      valCons.foldlM
        (fun acc vc => if acc then vc.eval (st.value.set cat a.value)
          else pure false) true = Except.ok true ∧
      sc = SState.score
        { remaining := remaining
          datePresent := dp
          timePresent := tp
          unconverted := if ((rs.map (fun r => r.getD [])).flatten).isEmpty
            then st.unconverted
            else st.unconverted ++ (rs.map (fun r => r.getD [])).flatten
          pos := st.pos.set cat a.pos
          value := st.value.set cat a.value
          fmts := st.fmts.set cat a.fmt
          requiredLocales := locales
          pendingHints := (childPending st cat a
            ((rs.map (fun r => r.getD [])).flatten)).2.2
          satisfied := (childPending st cat a
            ((rs.map (fun r => r.getD [])).flatten)).1
          globallySatisfied := (childPending st cat a
            ((rs.map (fun r => r.getD [])).flatten)).2.1 } := by
  simp only [bind, Except.bind] at h
  split at h
  · exact absurd h (by simp)
  · rename_i rs hrs
    split at h
    · exact absurd h (by simp [pure, Except.pure])
    · rename_i hcont
      split at h
      · exact absurd h (by simp [pure, Except.pure])
      · rename_i hall
        split at h
        · exact absurd h (by simp)
        · rename_i okv hok
          split at h
          · exact absurd h (by simp [pure, Except.pure])
          · rename_i hnotok
            simp only [pure, Except.pure, Except.ok.injEq,
              Option.some.injEq] at h
            refine ⟨rs, hrs, ?_, ?_, ?_, ?_⟩
            · simpa using hcont
            · simpa using hall
            · cases okv with
              | false => simp at hnotok
              | true => exact hok
            · rw [← h]
              rfl

set_option maxHeartbeats 1000000 in
/-- Anatomy of a successful assignment child (`_State.children` lines
390-461): every check of the option loop passed and the scored child is the
score of the updated state record. -/
theorem childOf_ok_some (st : SState) (cat : Char) (posCons : List PosCon)
    (valCons : List ValCon) (remaining : List Group) (dp tp : Bool)
    (a : Assign) (sc : Nat × Option (List PyStr) × SState)
    (h : childOf st cat posCons valCons remaining dp tp a
      = Except.ok (some sc)) :
    ∃ (locales : Option (List PyStr)) (rs : List (Option (List Int))),
      (a.pos ∈ st.unconverted || memDT a.pos st.pos) = false ∧
      (if truthyLocs a.locales && truthyLocs st.requiredLocales then
          let inter := (a.locales.getD []).filter
            (fun l => l ∈ st.requiredLocales.getD [])
          if inter.isEmpty then none else some (some inter)
        else some (if truthyLocs a.locales then a.locales
          else st.requiredLocales)) = some locales ∧
      ¬(st.pos.C = some (a.pos - 1) ∧ cat ≠ 'y') ∧
      posCons.mapM (fun pc => pc.eval (st.pos.set cat a.pos))
        = Except.ok rs ∧
      rs.contains none = false ∧
      ((rs.map (fun r => r.getD [])).flatten).all
        (fun i => !memDT i (st.pos.set cat a.pos)) = true ∧
      valCons.foldlM
        (fun acc vc => if acc then vc.eval (st.value.set cat a.value)
          else pure false) true = Except.ok true ∧
      sc = SState.score
        { remaining := remaining
          datePresent := dp
          timePresent := tp
          unconverted := if ((rs.map (fun r => r.getD [])).flatten).isEmpty
            then st.unconverted
            else st.unconverted ++ (rs.map (fun r => r.getD [])).flatten
          pos := st.pos.set cat a.pos
          value := st.value.set cat a.value
          fmts := st.fmts.set cat a.fmt
          requiredLocales := locales
          pendingHints := (childPending st cat a
            ((rs.map (fun r => r.getD [])).flatten)).2.2
          satisfied := (childPending st cat a
            ((rs.map (fun r => r.getD [])).flatten)).1
          globallySatisfied := (childPending st cat a
            ((rs.map (fun r => r.getD [])).flatten)).2.1 } := by
  unfold childOf at h
  split at h
  · exact absurd h (by simp [pure, Except.pure])
  · rename_i hAvail
    split at h
    · rename_i hTruthy
      split at h
      · -- the continue check fired: every arm of the locale match is `pure none`
        simp only [] at h
        split at h
        · exact absurd h (by simp [pure, Except.pure])
        · exact absurd h (by simp [pure, Except.pure])
      · rename_i hC
        simp only [] at h
        split at h
        · exact absurd h (by simp [pure, Except.pure])
        · rename_i hInter
          rcases childOf_body st cat posCons valCons remaining dp tp a _ sc h
            with ⟨rs, hrs, hcont, hall, hok, hsc⟩
          refine ⟨_, rs, by simpa using hAvail, ?_, hC, hrs, hcont, hall, hok, hsc⟩
          rw [if_pos hTruthy]
          exact hInter
    · rename_i hTruthy
      split at h
      · rename_i hAL
        split at h
        · exact absurd h (by simp [pure, Except.pure])
        · rename_i hC
          rcases childOf_body st cat posCons valCons remaining dp tp a _ sc h
            with ⟨rs, hrs, hcont, hall, hok, hsc⟩
          refine ⟨_, rs, by simpa using hAvail, ?_, hC, hrs, hcont, hall, hok, hsc⟩
          rw [if_neg hTruthy, if_pos hAL]
      · rename_i hAL
        split at h
        · exact absurd h (by simp [pure, Except.pure])
        · rename_i hC
          rcases childOf_body st cat posCons valCons remaining dp tp a _ sc h
            with ⟨rs, hrs, hcont, hall, hok, hsc⟩
          refine ⟨_, rs, by simpa using hAvail, ?_, hC, hrs, hcont, hall, hok, hsc⟩
          rw [if_neg hTruthy, if_neg hAL]

theorem foldlM_mem_of_step {α β : Type} (f : α → Except PyErr (Option β))
    (g : List β → α → Except PyErr (List β))
    (hg : ∀ ac a r, g ac a = Except.ok r →
      r = ac ∨ ∃ c, r = ac ++ [c] ∧ f a = Except.ok (some c)) :
    ∀ (l : List α) (acc out : List β), l.foldlM g acc = Except.ok out →
      ∀ c ∈ out, c ∈ acc ∨ ∃ a ∈ l, f a = Except.ok (some c) := by
  intro l
  induction l with
  | nil =>
    intro acc out h c hc
    simp only [List.foldlM_nil] at h
    cases h
    exact Or.inl hc
  | cons x xs ih =>
    intro acc out h c hc
    simp only [List.foldlM_cons] at h
    cases hgx : g acc x with
    | error e =>
      rw [hgx] at h
      simp [bind, Except.bind] at h
    | ok r =>
      rw [hgx] at h
      simp only [bind, Except.bind] at h
      rcases ih r out h c hc with h1 | ⟨a, ha, hfa⟩
      · rcases hg acc x r hgx with h2 | ⟨c0, h2, hfx⟩
        · subst h2
          exact Or.inl h1
        · subst h2
          rcases List.mem_append.1 h1 with h3 | h3
          · exact Or.inl h3
          · simp only [List.mem_singleton] at h3
            subst h3
            exact Or.inr ⟨x, List.mem_cons_self _ _, hfx⟩
      · exact Or.inr ⟨a, List.mem_cons_of_mem _ ha, hfa⟩

set_option maxHeartbeats 1000000 in
/-- Every scored child produced by `_State.children` is either an
assignment child of the popped group's option list or the group's skip
child (lines 463-490), with the exact conditions of each skip branch. -/
theorem children_mem (st : SState) (g : Group) (tail : List Group)
    (cs : List (Nat × Option (List PyStr) × SState))
    (hrem : st.remaining = g :: tail) (h : st.children = Except.ok cs) :
    ∀ c ∈ cs,
      (∃ a ∈ g.options, childOf st g.cat
          (g.posCons.filter (fun pc => conFilter g.cat st.pos pc.required))
          (g.valCons.filter (fun vc => conFilter g.cat st.pos vc.required))
          tail (if allDate.contains g.cat then true else st.datePresent)
          (if allDate.contains g.cat then st.timePresent else true)
          a = Except.ok (some c)) ∨
      (minDate.contains g.cat = true ∧ st.datePresent = false ∧
        c = SState.score { st with
          remaining := tail.filter (fun gr => !allDate.contains gr.cat) }) ∨
      (minDate.contains g.cat = false ∧ minTime.contains g.cat = true ∧
        st.timePresent = false ∧
        c = SState.score { st with
          remaining := tail.filter (fun gr => !allTime.contains gr.cat) }) ∨
      (minDate.contains g.cat = false ∧ minTime.contains g.cat = false ∧
        c = SState.score { st with remaining := tail }) := by
  intro c hc
  unfold SState.children at h
  rw [hrem] at h
  simp only [bind, Except.bind] at h
  split at h
  · exact absurd h (by simp)
  · rename_i base hbase
    have hmem := foldlM_mem_of_step
      (fun a => childOf st g.cat
        (g.posCons.filter (fun pc => conFilter g.cat st.pos pc.required))
        (g.valCons.filter (fun vc => conFilter g.cat st.pos vc.required))
        tail (if allDate.contains g.cat then true else st.datePresent)
        (if allDate.contains g.cat then st.timePresent else true) a)
      _ ?hg g.options [] base hbase
    case hg =>
      intro ac a r hr
      cases hca : childOf st g.cat
          (g.posCons.filter (fun pc => conFilter g.cat st.pos pc.required))
          (g.valCons.filter (fun vc => conFilter g.cat st.pos vc.required))
          tail (if allDate.contains g.cat then true else st.datePresent)
          (if allDate.contains g.cat then st.timePresent else true) a with
      | error e =>
        rw [hca] at hr
        simp at hr
      | ok o =>
        rw [hca] at hr
        cases o with
        | none =>
          simp only [pure, Except.pure, Except.ok.injEq] at hr
          exact Or.inl hr.symm
        | some c0 =>
          simp only [pure, Except.pure, Except.ok.injEq] at hr
          exact Or.inr ⟨c0, hr.symm, hca⟩
    split at h
    · split at h
      · -- date category, date already present: children = base
        rename_i hmin hdp
        simp only [pure, Except.pure, Except.ok.injEq] at h
        subst h
        rcases hmem c hc with h1 | ⟨a, ha, hfa⟩
        · simp at h1
        · exact Or.inl ⟨a, ha, hfa⟩
      · rename_i hmin hdp
        simp only [pure, Except.pure, Except.ok.injEq] at h
        subst h
        rcases List.mem_append.1 hc with h1 | h1
        · rcases hmem c h1 with h2 | ⟨a, ha, hfa⟩
          · simp at h2
          · exact Or.inl ⟨a, ha, hfa⟩
        · simp only [List.mem_singleton] at h1
          subst h1
          exact Or.inr (Or.inl ⟨by simpa using hmin, by simpa using hdp, rfl⟩)
    · split at h
      · split at h
        · -- time category, time already present
          rename_i hmin htmin htp
          simp only [pure, Except.pure, Except.ok.injEq] at h
          subst h
          rcases hmem c hc with h1 | ⟨a, ha, hfa⟩
          · simp at h1
          · exact Or.inl ⟨a, ha, hfa⟩
        · rename_i hmin htmin htp
          simp only [pure, Except.pure, Except.ok.injEq] at h
          subst h
          rcases List.mem_append.1 hc with h1 | h1
          · rcases hmem c h1 with h2 | ⟨a, ha, hfa⟩
            · simp at h2
            · exact Or.inl ⟨a, ha, hfa⟩
          · simp only [List.mem_singleton] at h1
            subst h1
            exact Or.inr (Or.inr (Or.inl
              ⟨by simpa using hmin, by simpa using htmin, by simpa using htp,
                rfl⟩))
      · rename_i hmin htmin
        simp only [pure, Except.pure, Except.ok.injEq] at h
        subst h
        rcases List.mem_append.1 hc with h1 | h1
        · rcases hmem c h1 with h2 | ⟨a, ha, hfa⟩
          · simp at h2
          · exact Or.inl ⟨a, ha, hfa⟩
        · simp only [List.mem_singleton] at h1
          subst h1
          exact Or.inr (Or.inr (Or.inr
            ⟨by simpa using hmin, by simpa using htmin, rfl⟩))

/-!
## Search invariant preservation and DFS provenance
-/

/-- `_State.score` returns the state it was called on as its third
component. -/
theorem score_third (st : SState) : (SState.score st).2.2 = st := by
  simp only [SState.score]
  split <;> split <;> rfl

/-- The final-score fold only touches the two satisfaction counters: every
other field of the scored state is the original one. -/
theorem finalScore_preserves (st : SState) :
    st.finalScore.2.2.remaining = st.remaining ∧
    st.finalScore.2.2.datePresent = st.datePresent ∧
    st.finalScore.2.2.timePresent = st.timePresent ∧
    st.finalScore.2.2.pos = st.pos ∧
    st.finalScore.2.2.value = st.value ∧
    st.finalScore.2.2.fmts = st.fmts ∧
    st.finalScore.2.2.unconverted = st.unconverted := by
  have key : ∀ (l : List (Option Int × List PyStr)) (s : SState),
      (l.foldl
        (fun s h =>
          if h.2.isEmpty then { s with globallySatisfied := s.globallySatisfied + 1 }
          else { s with satisfied := counterUpdate s.satisfied h.2 })
        s).remaining = s.remaining ∧
      (l.foldl
        (fun s h =>
          if h.2.isEmpty then { s with globallySatisfied := s.globallySatisfied + 1 }
          else { s with satisfied := counterUpdate s.satisfied h.2 })
        s).datePresent = s.datePresent ∧
      (l.foldl
        (fun s h =>
          if h.2.isEmpty then { s with globallySatisfied := s.globallySatisfied + 1 }
          else { s with satisfied := counterUpdate s.satisfied h.2 })
        s).timePresent = s.timePresent ∧
      (l.foldl
        (fun s h =>
          if h.2.isEmpty then { s with globallySatisfied := s.globallySatisfied + 1 }
          else { s with satisfied := counterUpdate s.satisfied h.2 })
        s).pos = s.pos ∧
      (l.foldl
        (fun s h =>
          if h.2.isEmpty then { s with globallySatisfied := s.globallySatisfied + 1 }
          else { s with satisfied := counterUpdate s.satisfied h.2 })
        s).value = s.value ∧
      (l.foldl
        (fun s h =>
          if h.2.isEmpty then { s with globallySatisfied := s.globallySatisfied + 1 }
          else { s with satisfied := counterUpdate s.satisfied h.2 })
        s).fmts = s.fmts ∧
      (l.foldl
        (fun s h =>
          if h.2.isEmpty then { s with globallySatisfied := s.globallySatisfied + 1 }
          else { s with satisfied := counterUpdate s.satisfied h.2 })
        s).unconverted = s.unconverted := by
    intro l
    induction l with
    | nil => intro s; exact ⟨rfl, rfl, rfl, rfl, rfl, rfl, rfl⟩
    | cons x xs ih =>
      intro s
      simp only [List.foldl_cons]
      rcases ih (if x.2.isEmpty then { s with globallySatisfied := s.globallySatisfied + 1 }
          else { s with satisfied := counterUpdate s.satisfied x.2 })
        with ⟨h1, h2, h3, h4, h5, h6, h7⟩
      refine ⟨?_, ?_, ?_, ?_, ?_, ?_, ?_⟩ <;>
        first
          | (rw [h1]; split <;> rfl)
          | (rw [h2]; split <;> rfl)
          | (rw [h3]; split <;> rfl)
          | (rw [h4]; split <;> rfl)
          | (rw [h5]; split <;> rfl)
          | (rw [h6]; split <;> rfl)
          | (rw [h7]; split <;> rfl)
  unfold SState.finalScore
  split
  · rw [score_third]
    exact ⟨rfl, rfl, rfl, rfl, rfl, rfl, rfl⟩
  · rw [score_third]
    exact key st.pendingHints st

/-- A successful `centuryLoop` run over a nonempty century list needs the
year, month and day fields present. -/
theorem centuryLoop_fields (value : DT Obj) :
    ∀ (cs : List Obj) (dt : PyDate),
      centuryLoop value cs = Except.ok (some dt) →
      value.y ≠ none ∧ value.m ≠ none ∧ value.d ≠ none := by
  intro cs
  induction cs with
  | nil =>
    intro dt h
    simp [centuryLoop, pure, Except.pure] at h
  | cons c rest ih =>
    intro dt h
    unfold centuryLoop at h
    simp only [bind, Except.bind] at h
    split at h
    · exact absurd h (by simp)
    · rename_i ci hci
      split at h
      · exact absurd h (by simp)
      · rename_i y hy
        split at h
        · exact absurd h (by simp)
        · rename_i m hm
          split at h
          · exact absurd h (by simp)
          · rename_i dd hdd
            refine ⟨?_, ?_, ?_⟩
            · intro hn; rw [hn] at hy; simp [intOfOpt] at hy
            · intro hn; rw [hn] at hm; simp [intOfOpt] at hm
            · intro hn; rw [hn] at hdd; simp [intOfOpt] at hdd

/-- A successful `validDate` needs the year, month and day fields. -/
theorem validDate_fields (value : DT Obj) (dt : PyDate)
    (h : validDate value = Except.ok (some dt)) :
    value.y ≠ none ∧ value.m ≠ none ∧ value.d ≠ none := by
  unfold validDate at h
  simp only [bind, Except.bind] at h
  split at h
  · exact centuryLoop_fields value _ dt h
  · split at h
    · exact centuryLoop_fields value _ dt h
    · split at h
      · exact centuryLoop_fields value _ dt h
      · split at h
        · exact absurd h (by simp)
        · rename_i b hb
          split at h
          · exact centuryLoop_fields value _ dt h
          · exact centuryLoop_fields value _ dt h

/-- A successful `validTime` needs the hour and minute fields; when `p` is
assigned it is an integer and the decoded hour is `H % 12 + 12 * p`. -/
theorem validTime_fields (value : DT Obj) (t : PyTime)
    (h : validTime value = Except.ok t) :
    value.H ≠ none ∧ value.M ≠ none ∧
    (∀ pv, value.p = some pv →
      ∃ h0 pi, value.H = some (Obj.int h0) ∧ pv = Obj.int pi ∧
        t.hour = h0.emod 12 + 12 * pi) := by
  unfold validTime at h
  simp only [bind, Except.bind, pure, Except.pure] at h
  split at h
  · exact absurd h (by simp)
  · rename_i h0 hH0
    have hHne : value.H ≠ none := by
      intro hn; rw [hn] at hH0; simp [intOfOpt] at hH0
    have hH0int : value.H = some (Obj.int h0) := by
      cases hval : value.H with
      | none => exact absurd hval hHne
      | some o =>
        cases o with
        | int n =>
          rw [hval] at hH0
          simp only [intOfOpt, Except.ok.injEq] at hH0
          rw [hH0]
        | str s => rw [hval] at hH0; simp [intOfOpt] at hH0
        | locs l => rw [hval] at hH0; simp [intOfOpt] at hH0
    split at h
    · -- value.p is None
      rename_i hpnone
      have hMne : value.M ≠ none := by
        intro hn; rw [hn] at h; simp [intOfOpt] at h
      refine ⟨hHne, hMne, ?_⟩
      intro pv hpv
      rw [hpnone] at hpv
      exact absurd hpv (by simp)
    · -- value.p = some pv
      rename_i pv hpv
      split at h
      · exact absurd h (by simp)
      · rename_i pi hpi
        have hMne : value.M ≠ none := by
          intro hn; rw [hn] at h; simp [intOfOpt] at h
        refine ⟨hHne, hMne, ?_⟩
        intro pv' hpv'
        rw [hpv] at hpv'
        have hpv2 : pv' = pv := by injection hpv' with e; exact e.symm
        subst hpv2
        have hpvint : pv' = Obj.int pi := by
          cases pv' with
          | int n => simp only [intOf, Except.ok.injEq] at hpi; rw [hpi]
          | str s => simp [intOf] at hpi
          | locs l => simp [intOf] at hpi
        split at h
        · exact absurd h (by simp)
        · rename_i M hM
          refine ⟨h0, pi, hH0int, hpvint, ?_⟩
          -- dissect the seconds match, then timeNew
          split at h
          · -- S is None
            unfold timeNew at h
            split at h
            · simp only [Except.ok.injEq] at h
              rw [← h]
            · exact absurd h (by simp)
          · -- S = some int
            unfold timeNew at h
            split at h
            · simp only [Except.ok.injEq] at h
              rw [← h]
            · exact absurd h (by simp)
          · -- S = some non-int: TypeError
            exact absurd h (by simp)
/-- The `valid_12_hour_clock` fold of a single-constraint list bounds the
stored hour. -/
theorem v12_fold_bound (value' : DT Obj)
    (hok : List.foldlM
      (fun acc vc => if acc then ValCon.eval vc value' else pure false)
      true [ValCon.valid12HourClock] = Except.ok true) :
    ∃ hr : Int, value'.H = some (Obj.int hr) ∧ 1 ≤ hr ∧ hr ≤ 12 := by
  simp only [List.foldlM_cons, List.foldlM_nil, if_true, bind,
    Except.bind] at hok
  split at hok
  · exact absurd hok (by simp)
  · rename_i b hev
    simp only [pure, Except.pure, Except.ok.injEq] at hok
    subst hok
    unfold ValCon.eval at hev
    simp only [bind, Except.bind] at hev
    split at hev
    · exact absurd hev (by simp)
    · rename_i hr hhr
      simp only [pure, Except.pure, Except.ok.injEq] at hev
      have hBnd : 1 ≤ hr ∧ hr ≤ 12 := by
        have := of_decide_eq_true hev
        exact this
      have hint : value'.H = some (Obj.int hr) := by
        cases hval : value'.H with
        | none => rw [hval] at hhr; simp [intOfOpt] at hhr
        | some o =>
          cases o with
          | int n =>
            rw [hval] at hhr
            simp only [intOfOpt, Except.ok.injEq] at hhr
            rw [hhr]
          | str s => rw [hval] at hhr; simp [intOfOpt] at hhr
          | locs l => rw [hval] at hhr; simp [intOfOpt] at hhr
      exact ⟨hr, hint, hBnd.1, hBnd.2⟩

set_option maxHeartbeats 2000000 in
/-- `_State.children` preserves the search-state invariant: every scored
child of an invariant-satisfying state satisfies the invariant. -/
theorem sinv_children (st : SState)
    (cs : List (Nat × Option (List PyStr) × SState)) (hinv : SInv st)
    (h : st.children = Except.ok cs) : ∀ c ∈ cs, SInv c.2.2 := by
  intro c hc
  obtain ⟨hAdC, hAdy, hAdm, hAdd, hAda, hAtH, hAtM, hAtS, hAtp, hAtZ,
    hSb, hD, hUb, hW, hB⟩ := hinv
  obtain ⟨hSC, hSy, hSm, hSd, hSa, hSH, hSM, hSS, hSp, hSZ⟩ := hSb
  obtain ⟨hUC, hUy, hUm, hUd, hUa, hUH, hUM, hUS, hUp, hUZ⟩ := hUb
  cases hrem : st.remaining with
  | nil =>
    unfold SState.children at h
    rw [hrem] at h
    simp at h
  | cons g tail =>
    have hcats : remCats st = g.cat :: tail.map Group.cat := by
      simp [remCats, hrem]
    have hgmem : g ∈ st.remaining := by rw [hrem]; exact List.mem_cons_self _ _
    have hGnotail : g.cat ∉ tail.map Group.cat := by
      have := hD
      rw [hcats] at this
      exact (List.nodup_cons.1 this).1
    have hTailN : (tail.map Group.cat).Nodup := by
      have := hD
      rw [hcats] at this
      exact (List.nodup_cons.1 this).2
    rcases children_mem st g tail cs hrem h c hc with
      ⟨a, ha, hchild⟩ | ⟨hmin, hdp, hsc⟩ | ⟨hmin, htmin, htp, hsc⟩ |
      ⟨hmin, htmin, hsc⟩
    · -- assignment child
      rcases childOf_ok_some st g.cat _ _ tail _ _ a c hchild with
        ⟨locales, rs, hAvail, hLoc, hC, hrs, hcont, hall, hok, hsc⟩
      have hc22 : c.2.2 =
          { remaining := tail
            datePresent := if allDate.contains g.cat then true else st.datePresent
            timePresent := if allDate.contains g.cat then st.timePresent else true
            unconverted := if ((rs.map (fun r => r.getD [])).flatten).isEmpty
              then st.unconverted
              else st.unconverted ++ (rs.map (fun r => r.getD [])).flatten
            pos := st.pos.set g.cat a.pos
            value := st.value.set g.cat a.value
            fmts := st.fmts.set g.cat a.fmt
            requiredLocales := locales
            pendingHints := (childPending st g.cat a
              ((rs.map (fun r => r.getD [])).flatten)).2.2
            satisfied := (childPending st g.cat a
              ((rs.map (fun r => r.getD [])).flatten)).1
            globallySatisfied := (childPending st g.cat a
              ((rs.map (fun r => r.getD [])).flatten)).2.1 } := by
        rw [hsc, score_third]
      rw [hc22]
      refine ⟨?_, ?_, ?_, ?_, ?_, ?_, ?_, ?_, ?_, ?_, ?_, ?_, ?_, ?_, ?_⟩
      · -- date flag covers C
        intro hne
        simp only [DT.set_C] at hne
        by_cases hgc : g.cat = 'C'
        · rw [hgc]; rfl
        · rw [if_neg hgc] at hne
          have hx := hAdC hne
          simp only []
          split
          · rfl
          · exact hx
      · intro hne
        simp only [DT.set_y] at hne
        by_cases hgc : g.cat = 'y'
        · rw [hgc]; rfl
        · rw [if_neg hgc] at hne
          have hx := hAdy hne
          simp only []
          split
          · rfl
          · exact hx
      · intro hne
        simp only [DT.set_m] at hne
        by_cases hgc : g.cat = 'm'
        · rw [hgc]; rfl
        · rw [if_neg hgc] at hne
          have hx := hAdm hne
          simp only []
          split
          · rfl
          · exact hx
      · intro hne
        simp only [DT.set_d] at hne
        by_cases hgc : g.cat = 'd'
        · rw [hgc]; rfl
        · rw [if_neg hgc] at hne
          have hx := hAdd hne
          simp only []
          split
          · rfl
          · exact hx
      · intro hne
        simp only [DT.set_a] at hne
        by_cases hgc : g.cat = 'a'
        · rw [hgc]; rfl
        · rw [if_neg hgc] at hne
          have hx := hAda hne
          simp only []
          split
          · rfl
          · exact hx
      · -- time flag covers H
        intro hne
        simp only [DT.set_H] at hne
        by_cases hgc : g.cat = 'H'
        · rw [hgc]; rfl
        · rw [if_neg hgc] at hne
          have hx := hAtH hne
          simp only []
          split
          · exact hx
          · rfl
      · intro hne
        simp only [DT.set_M] at hne
        by_cases hgc : g.cat = 'M'
        · rw [hgc]; rfl
        · rw [if_neg hgc] at hne
          have hx := hAtM hne
          simp only []
          split
          · exact hx
          · rfl
      · intro hne
        simp only [DT.set_S] at hne
        by_cases hgc : g.cat = 'S'
        · rw [hgc]; rfl
        · rw [if_neg hgc] at hne
          have hx := hAtS hne
          simp only []
          split
          · exact hx
          · rfl
      · intro hne
        simp only [DT.set_p] at hne
        by_cases hgc : g.cat = 'p'
        · rw [hgc]; rfl
        · rw [if_neg hgc] at hne
          have hx := hAtp hne
          simp only []
          split
          · exact hx
          · rfl
      · intro hne
        simp only [DT.set_Z] at hne
        by_cases hgc : g.cat = 'Z'
        · rw [hgc]; rfl
        · rw [if_neg hgc] at hne
          have hx := hAtZ hne
          simp only []
          split
          · exact hx
          · rfl
      · -- pos/value slot synchronisation
        refine ⟨?_, ?_, ?_, ?_, ?_, ?_, ?_, ?_, ?_, ?_⟩
        · simp only [DT.set_C]
          by_cases hgc : g.cat = 'C' <;> simp [hgc, hSC]
        · simp only [DT.set_y]
          by_cases hgc : g.cat = 'y' <;> simp [hgc, hSy]
        · simp only [DT.set_m]
          by_cases hgc : g.cat = 'm' <;> simp [hgc, hSm]
        · simp only [DT.set_d]
          by_cases hgc : g.cat = 'd' <;> simp [hgc, hSd]
        · simp only [DT.set_a]
          by_cases hgc : g.cat = 'a' <;> simp [hgc, hSa]
        · simp only [DT.set_H]
          by_cases hgc : g.cat = 'H' <;> simp [hgc, hSH]
        · simp only [DT.set_M]
          by_cases hgc : g.cat = 'M' <;> simp [hgc, hSM]
        · simp only [DT.set_S]
          by_cases hgc : g.cat = 'S' <;> simp [hgc, hSS]
        · simp only [DT.set_p]
          by_cases hgc : g.cat = 'p' <;> simp [hgc, hSp]
        · simp only [DT.set_Z]
          by_cases hgc : g.cat = 'Z' <;> simp [hgc, hSZ]
      · -- distinct categories
        simpa [remCats] using hTailN
      · -- unprocessed slots are unassigned
        refine ⟨?_, ?_, ?_, ?_, ?_, ?_, ?_, ?_, ?_, ?_⟩ <;>
          simp only [remCats, DT.set_C, DT.set_y, DT.set_m, DT.set_d,
            DT.set_a, DT.set_H, DT.set_M, DT.set_S, DT.set_p, DT.set_Z]
        · intro hm
          by_cases hgc : g.cat = 'C'
          · exact absurd (hgc ▸ hm) hGnotail
          · rw [if_neg hgc]
            exact hUC (by rw [hcats]; exact List.mem_cons_of_mem _ hm)
        · intro hm
          by_cases hgc : g.cat = 'y'
          · exact absurd (hgc ▸ hm) hGnotail
          · rw [if_neg hgc]
            exact hUy (by rw [hcats]; exact List.mem_cons_of_mem _ hm)
        · intro hm
          by_cases hgc : g.cat = 'm'
          · exact absurd (hgc ▸ hm) hGnotail
          · rw [if_neg hgc]
            exact hUm (by rw [hcats]; exact List.mem_cons_of_mem _ hm)
        · intro hm
          by_cases hgc : g.cat = 'd'
          · exact absurd (hgc ▸ hm) hGnotail
          · rw [if_neg hgc]
            exact hUd (by rw [hcats]; exact List.mem_cons_of_mem _ hm)
        · intro hm
          by_cases hgc : g.cat = 'a'
          · exact absurd (hgc ▸ hm) hGnotail
          · rw [if_neg hgc]
            exact hUa (by rw [hcats]; exact List.mem_cons_of_mem _ hm)
        · intro hm
          by_cases hgc : g.cat = 'H'
          · exact absurd (hgc ▸ hm) hGnotail
          · rw [if_neg hgc]
            exact hUH (by rw [hcats]; exact List.mem_cons_of_mem _ hm)
        · intro hm
          by_cases hgc : g.cat = 'M'
          · exact absurd (hgc ▸ hm) hGnotail
          · rw [if_neg hgc]
            exact hUM (by rw [hcats]; exact List.mem_cons_of_mem _ hm)
        · intro hm
          by_cases hgc : g.cat = 'S'
          · exact absurd (hgc ▸ hm) hGnotail
          · rw [if_neg hgc]
            exact hUS (by rw [hcats]; exact List.mem_cons_of_mem _ hm)
        · intro hm
          by_cases hgc : g.cat = 'p'
          · exact absurd (hgc ▸ hm) hGnotail
          · rw [if_neg hgc]
            exact hUp (by rw [hcats]; exact List.mem_cons_of_mem _ hm)
        · intro hm
          by_cases hgc : g.cat = 'Z'
          · exact absurd (hgc ▸ hm) hGnotail
          · rw [if_neg hgc]
            exact hUZ (by rw [hcats]; exact List.mem_cons_of_mem _ hm)
      · -- group wellformedness
        intro g' hg'
        exact hW g' (by rw [hrem]; exact List.mem_cons_of_mem _ hg')
      · -- 12-hour bound
        simp only [DT.set_H, DT.set_p]
        by_cases hgH : g.cat = 'H'
        · rw [if_pos hgH, if_neg (by rw [hgH]; decide)]
          intro hne hpne
          -- the valid_12_hour_clock constraint fired on this assignment
          have hvc : g.valCons = valConsFor g.cat := (hW g hgmem).2
          have hposH : st.pos.H = none :=
            hUH (by rw [hcats, hgH]; exact List.mem_cons_self _ _)
          have hppos : st.pos.p ≠ none := by
            intro hnone
            exact hpne (hSp.1 hnone)
          have hcf : conFilter 'H' st.pos (['H', 'p'] : List Char)
              = true := by
            simp [conFilter, DT.get, hposH, hppos]
          have hval12 : valConsFor 'H' = [ValCon.valid12HourClock] := by
            decide
          have hfilter : g.valCons.filter
              (fun vc => conFilter g.cat st.pos vc.required)
              = [ValCon.valid12HourClock] := by
            rw [hvc, hgH, hval12]
            simp only [List.filter_cons, List.filter_nil, ValCon.required,
              hcf, if_true]
          rw [hfilter] at hok
          rcases v12_fold_bound _ hok with ⟨hr, hH, h1, h2⟩
          rw [DT.set_H, if_pos hgH] at hH
          exact ⟨hr, hH, h1, h2⟩
        · rw [if_neg hgH]
          by_cases hgp : g.cat = 'p'
          · rw [if_pos hgp]
            intro hne hpne
            have hvc : g.valCons = valConsFor g.cat := (hW g hgmem).2
            have hposp : st.pos.p = none :=
              hUp (by rw [hcats, hgp]; exact List.mem_cons_self _ _)
            have hpHne : st.pos.H ≠ none := by
              intro hnone
              exact hne (hSH.1 hnone)
            have hcf : conFilter 'p' st.pos (['H', 'p'] : List Char)
                = true := by
              simp [conFilter, DT.get, hposp, hpHne]
            have hval12 : valConsFor 'p' = [ValCon.valid12HourClock] := by
              decide
            have hfilter : g.valCons.filter
                (fun vc => conFilter g.cat st.pos vc.required)
                = [ValCon.valid12HourClock] := by
              rw [hvc, hgp, hval12]
              simp only [List.filter_cons, List.filter_nil, ValCon.required,
                hcf, if_true]
            rw [hfilter] at hok
            rcases v12_fold_bound _ hok with ⟨hr, hH, h1, h2⟩
            rw [DT.set_H, if_neg hgH] at hH
            exact ⟨hr, hH, h1, h2⟩
          · rw [if_neg hgp]
            exact hB
    · -- skip child of a required date category
      have hc22 : c.2.2 = { st with
          remaining := tail.filter (fun gr => !allDate.contains gr.cat) } := by
        rw [hsc, score_third]
      rw [hc22]
      have hsub : ∀ x : Char,
          x ∈ (tail.filter (fun gr => !allDate.contains gr.cat)).map Group.cat →
          x ∈ remCats st := by
        intro x hx
        rcases List.mem_map.1 hx with ⟨g', hg', hx'⟩
        rw [hcats]
        exact List.mem_cons_of_mem _
          (hx' ▸ List.mem_map_of_mem _ (List.mem_of_mem_filter hg'))
      refine ⟨hAdC, hAdy, hAdm, hAdd, hAda, hAtH, hAtM, hAtS, hAtp, hAtZ,
        ⟨hSC, hSy, hSm, hSd, hSa, hSH, hSM, hSS, hSp, hSZ⟩, ?_,
        ⟨fun hm => hUC (hsub _ hm), fun hm => hUy (hsub _ hm),
         fun hm => hUm (hsub _ hm), fun hm => hUd (hsub _ hm),
         fun hm => hUa (hsub _ hm), fun hm => hUH (hsub _ hm),
         fun hm => hUM (hsub _ hm), fun hm => hUS (hsub _ hm),
         fun hm => hUp (hsub _ hm), fun hm => hUZ (hsub _ hm)⟩, ?_, hB⟩
      · simp only [remCats]
        exact hTailN.sublist (List.Sublist.map _ (List.filter_sublist _))
      · intro g' hg'
        exact hW g' (by
          rw [hrem]
          exact List.mem_cons_of_mem _ (List.mem_of_mem_filter hg'))
    · -- skip child of a required time category
      have hc22 : c.2.2 = { st with
          remaining := tail.filter (fun gr => !allTime.contains gr.cat) } := by
        rw [hsc, score_third]
      rw [hc22]
      have hsub : ∀ x : Char,
          x ∈ (tail.filter (fun gr => !allTime.contains gr.cat)).map Group.cat →
          x ∈ remCats st := by
        intro x hx
        rcases List.mem_map.1 hx with ⟨g', hg', hx'⟩
        rw [hcats]
        exact List.mem_cons_of_mem _
          (hx' ▸ List.mem_map_of_mem _ (List.mem_of_mem_filter hg'))
      refine ⟨hAdC, hAdy, hAdm, hAdd, hAda, hAtH, hAtM, hAtS, hAtp, hAtZ,
        ⟨hSC, hSy, hSm, hSd, hSa, hSH, hSM, hSS, hSp, hSZ⟩, ?_,
        ⟨fun hm => hUC (hsub _ hm), fun hm => hUy (hsub _ hm),
         fun hm => hUm (hsub _ hm), fun hm => hUd (hsub _ hm),
         fun hm => hUa (hsub _ hm), fun hm => hUH (hsub _ hm),
         fun hm => hUM (hsub _ hm), fun hm => hUS (hsub _ hm),
         fun hm => hUp (hsub _ hm), fun hm => hUZ (hsub _ hm)⟩, ?_, hB⟩
      · simp only [remCats]
        exact hTailN.sublist (List.Sublist.map _ (List.filter_sublist _))
      · intro g' hg'
        exact hW g' (by
          rw [hrem]
          exact List.mem_cons_of_mem _ (List.mem_of_mem_filter hg'))
    · -- plain skip child
      have hc22 : c.2.2 = { st with remaining := tail } := by
        rw [hsc, score_third]
      rw [hc22]
      have hsub : ∀ x : Char, x ∈ tail.map Group.cat → x ∈ remCats st := by
        intro x hx
        rw [hcats]
        exact List.mem_cons_of_mem _ hx
      exact ⟨hAdC, hAdy, hAdm, hAdd, hAda, hAtH, hAtM, hAtS, hAtp, hAtZ,
        ⟨hSC, hSy, hSm, hSd, hSa, hSH, hSM, hSS, hSp, hSZ⟩, hTailN,
        ⟨fun hm => hUC (hsub _ hm), fun hm => hUy (hsub _ hm),
         fun hm => hUm (hsub _ hm), fun hm => hUd (hsub _ hm),
         fun hm => hUa (hsub _ hm), fun hm => hUH (hsub _ hm),
         fun hm => hUM (hsub _ hm), fun hm => hUS (hsub _ hm),
         fun hm => hUp (hsub _ hm), fun hm => hUZ (hsub _ hm)⟩,
        fun g' hg' => hW g' (by rw [hrem]; exact List.mem_cons_of_mem _ hg'),
        hB⟩

/-- Definitional unfolding of one `searchLevel` step. -/
theorem searchLevel_eq (literals raw : List PyStr) (fuel : Nat)
    (q : Nat) (ls : Option (List PyStr)) (st : SState) (acc : Acc) :
    searchLevel literals raw fuel (q, ls, st) acc =
      (if st.remaining.isEmpty then
        match stateValid st.datePresent st.timePresent st.value with
        | .error e => .error e
        | .ok none => .ok acc
        | .ok (some v) =>
          let f := st.finalScore
          if f.1 < acc.bestQuality then .ok acc
          else if f.1 ≠ acc.bestQuality then
            .ok ⟨f.1, [emit literals raw f.2.2 v f.2.1]⟩
          else .ok ⟨acc.bestQuality,
            acc.best ++ [emit literals raw f.2.2 v f.2.1]⟩
      else
        if q + heuristic st < acc.bestQuality then .ok acc
        else
          match fuel with
          | 0 => .error .indexError
          | fuel' + 1 => do
            let cs ← st.children
            cs.foldlM (fun acc c => searchLevel literals raw fuel' c acc) acc) := by
  cases fuel <;> rfl

/-- DFS provenance: every candidate in the accumulator returned by
`searchLevel` either was there already or was emitted at a leaf of the
subtree that satisfies the preserved predicate `P`. -/
theorem searchLevel_sound (literals raw : List PyStr) (P : SState → Prop)
    (hpres : ∀ st cs, P st → SState.children st = Except.ok cs →
      ∀ c ∈ cs, P c.2.2) :
    ∀ (fuel : Nat) (t : Nat × Option (List PyStr) × SState) (acc acc' : Acc),
      P t.2.2 → searchLevel literals raw fuel t acc = Except.ok acc' →
      ∀ cand ∈ acc'.best, cand ∈ acc.best ∨
        emittedFrom literals raw P cand := by
  intro fuel
  induction fuel with
  | zero =>
    intro t acc acc' hP h cand hcand
    obtain ⟨q, ls, st⟩ := t
    rw [searchLevel_eq] at h
    split at h
    · -- leaf
      rename_i hleaf
      split at h
      · exact absurd h (by simp)
      · -- valid returned none: accumulator unchanged
        injection h with h
        subst h
        exact Or.inl hcand
      · rename_i v hvalid
        simp only [] at h
        split at h
        · injection h with h
          subst h
          exact Or.inl hcand
        · split at h
          · injection h with h
            subst h
            rw [show (⟨st.finalScore.1,
                [emit literals raw st.finalScore.2.2 v st.finalScore.2.1]⟩ :
                Acc).best = [emit literals raw st.finalScore.2.2 v
                st.finalScore.2.1] from rfl] at hcand
            simp only [List.mem_singleton] at hcand
            subst hcand
            exact Or.inr ⟨st, v, hP, by simpa using hleaf, hvalid, rfl⟩
          · injection h with h
            subst h
            rcases List.mem_append.1 hcand with h1 | h1
            · exact Or.inl h1
            · simp only [List.mem_singleton] at h1
              subst h1
              exact Or.inr ⟨st, v, hP, by simpa using hleaf, hvalid, rfl⟩
    · -- not a leaf: prune or run out of fuel
      split at h
      · injection h with h
        subst h
        exact Or.inl hcand
      · exact absurd h (by simp)
  | succ fuel ih =>
    intro t acc acc' hP h cand hcand
    obtain ⟨q, ls, st⟩ := t
    rw [searchLevel_eq] at h
    split at h
    · rename_i hleaf
      split at h
      · exact absurd h (by simp)
      · injection h with h
        subst h
        exact Or.inl hcand
      · rename_i v hvalid
        simp only [] at h
        split at h
        · injection h with h
          subst h
          exact Or.inl hcand
        · split at h
          · injection h with h
            subst h
            rw [show (⟨st.finalScore.1,
                [emit literals raw st.finalScore.2.2 v st.finalScore.2.1]⟩ :
                Acc).best = [emit literals raw st.finalScore.2.2 v
                st.finalScore.2.1] from rfl] at hcand
            simp only [List.mem_singleton] at hcand
            subst hcand
            exact Or.inr ⟨st, v, hP, by simpa using hleaf, hvalid, rfl⟩
          · injection h with h
            subst h
            rcases List.mem_append.1 hcand with h1 | h1
            · exact Or.inl h1
            · simp only [List.mem_singleton] at h1
              subst h1
              exact Or.inr ⟨st, v, hP, by simpa using hleaf, hvalid, rfl⟩
    · split at h
      · injection h with h
        subst h
        exact Or.inl hcand
      · simp only [bind, Except.bind] at h
        split at h
        · exact absurd h (by simp)
        · rename_i cs hcs
          have hPcs : ∀ c ∈ cs, P c.2.2 := hpres st cs hP hcs
          -- fold over the children
          have key : ∀ (l : List (Nat × Option (List PyStr) × SState))
              (acc0 acc1 : Acc), (∀ c ∈ l, P c.2.2) →
              l.foldlM (fun a c => searchLevel literals raw fuel c a) acc0
                = Except.ok acc1 →
              ∀ cand ∈ acc1.best, cand ∈ acc0.best ∨
                emittedFrom literals raw P cand := by
            intro l
            induction l with
            | nil =>
              intro acc0 acc1 hPl hfold cand hcand
              simp only [List.foldlM_nil] at hfold
              cases hfold
              exact Or.inl hcand
            | cons x xs ihl =>
              intro acc0 acc1 hPl hfold cand hcand
              simp only [List.foldlM_cons] at hfold
              cases hx : searchLevel literals raw fuel x acc0 with
              | error e =>
                rw [hx] at hfold
                simp [bind, Except.bind] at hfold
              | ok accx =>
                rw [hx] at hfold
                simp only [bind, Except.bind] at hfold
                rcases ihl accx acc1 (fun c hc => hPl c
                    (List.mem_cons_of_mem _ hc)) hfold cand hcand with
                  h1 | h1
                · rcases ih x acc0 accx
                      (hPl x (List.mem_cons_self _ _)) hx cand h1 with
                    h2 | h2
                  · exact Or.inl h2
                  · exact Or.inr h2
                · exact Or.inr h1
          exact key cs acc acc' hPcs h cand hcand

/-!
## The root state of the search

Permutation lemmas for the sorting and dependency-reordering of the
groups, and the invariant at the root state `parse` builds.
-/

/-- Stable insertion permutes. -/
theorem insertByLe_perm {α : Type} (le : α → α → Bool) (x : α) :
    ∀ l : List α, List.Perm (insertByLe le x l) (x :: l) := by
  intro l
  induction l with
  | nil => exact List.Perm.refl _
  | cons y ys ih =>
    unfold insertByLe
    split
    · exact List.Perm.refl _
    · exact List.Perm.trans (List.Perm.cons y ih) (List.Perm.swap x y ys)

/-- The stable sort is a permutation. -/
theorem sortByLe_perm {α : Type} (le : α → α → Bool) :
    ∀ l : List α, List.Perm (sortByLe le l) l := by
  intro l
  induction l with
  | nil => exact List.Perm.refl _
  | cons x xs ih =>
    unfold sortByLe
    simp only [List.foldr_cons]
    exact List.Perm.trans (insertByLe_perm le x _)
      (List.Perm.cons x ih)

/-- When the group categories are distinct, pulling the found group to the
front is a permutation. -/
theorem find_filter_perm (c : Char) :
    ∀ (gs : List Group) (g : Group), (gs.map Group.cat).Nodup →
      gs.find? (fun g' => g'.cat = c) = some g →
      List.Perm (g :: gs.filter (fun g' => g'.cat ≠ c)) gs := by
  intro gs
  induction gs with
  | nil => intro g _ hf; simp at hf
  | cons x xs ih =>
    intro g hN hf
    by_cases hx : x.cat = c
    · rw [List.find?_cons_of_pos _ (by simp [hx])] at hf
      injection hf with hf
      subst hf
      have hxs : xs.filter (fun g' => g'.cat ≠ c) = xs := by
        apply List.filter_eq_self.2
        intro y hy
        simp only [decide_eq_true_eq]
        intro hyc
        have hcx : x.cat ∈ xs.map Group.cat := by
          rw [hx, ← hyc]
          exact List.mem_map_of_mem _ hy
        exact (List.nodup_cons.1 (by simpa using hN)).1 hcx
      rw [List.filter_cons_of_neg (by simp [hx])]
      rw [hxs]
    · rw [List.find?_cons_of_neg _ (by simp [hx])] at hf
      have hperm := ih g (List.nodup_cons.1 (by simpa using hN)).2 hf
      rw [List.filter_cons_of_pos (by simp [hx])]
      exact List.Perm.trans (List.Perm.swap x g _)
        (List.Perm.cons x hperm)

/-- `move_to_end(..., last=False)` permutes when the categories are
distinct. -/
theorem moveToFront_perm (c : Char) (gs : List Group)
    (hN : (gs.map Group.cat).Nodup) :
    List.Perm (moveToFront c gs) gs := by
  unfold moveToFront
  cases hf : gs.find? (fun g' => g'.cat = c) with
  | none => exact List.Perm.refl _
  | some g => exact find_filter_perm c gs g hN hf

/-- Iterated `moveToFront` permutes. -/
theorem foldl_moveToFront_perm (movers : List Char) :
    ∀ gs : List Group, (gs.map Group.cat).Nodup →
      List.Perm (movers.foldl (fun gs c => moveToFront c gs) gs) gs := by
  induction movers with
  | nil => intro gs _; exact List.Perm.refl _
  | cons c cs ih =>
    intro gs hN
    simp only [List.foldl_cons]
    have h1 := moveToFront_perm c gs hN
    have hN' : ((moveToFront c gs).map Group.cat).Nodup :=
      (List.Perm.nodup_iff (List.Perm.map Group.cat h1)).2 hN
    exact List.Perm.trans (ih _ hN') h1

/-- The dependency reorder of `parse` is a permutation when the group
categories are distinct. -/
theorem reorderGo_perm :
    ∀ (fuel : Nat) (acc gs : List Group), (gs.map Group.cat).Nodup →
      List.Perm (reorderGo fuel acc gs) (acc ++ gs) := by
  intro fuel
  induction fuel with
  | zero => intro acc gs _; exact List.Perm.refl _
  | succ fuel ih =>
    intro acc gs hN
    cases gs with
    | nil =>
      unfold reorderGo
      simp
    | cons g tail =>
      unfold reorderGo
      have hNt : (tail.map Group.cat).Nodup :=
        (List.nodup_cons.1 (by simpa using hN)).2
      have hperm := foldl_moveToFront_perm
        ((tail.reverse.map Group.cat).filter
          (fun c => ((g.posCons.map PosCon.required
            ++ g.valCons.map ValCon.required).flatten).contains c)) tail hNt
      have hN2 : (((tail.reverse.map Group.cat).filter
          (fun c => ((g.posCons.map PosCon.required
            ++ g.valCons.map ValCon.required).flatten).contains c)).foldl
          (fun gs c => moveToFront c gs) tail).map Group.cat
          |>.Nodup :=
        (List.Perm.nodup_iff (List.Perm.map Group.cat hperm)).2 hNt
      have h3 := ih (acc ++ [g]) _ hN2
      refine List.Perm.trans h3 ?_
      have h4 : List.Perm ((acc ++ [g]) ++ (((tail.reverse.map
          Group.cat).filter (fun c => ((g.posCons.map PosCon.required
            ++ g.valCons.map ValCon.required).flatten).contains c)).foldl
          (fun gs c => moveToFront c gs) tail)) ((acc ++ [g]) ++ tail) :=
        List.Perm.append_left _ hperm
      refine List.Perm.trans h4 ?_
      rw [List.append_assoc]
      exact List.Perm.refl _

/-- `assembleGroups` permutes the per-category groups it is fed. -/
theorem assembleGroups_perm (gs : List (Char × List Assign))
    (cpp : List (Int × Nat))
    (hN : ((gs.filter (fun g => !g.2.isEmpty)).map Prod.fst).Nodup) :
    List.Perm (assembleGroups gs cpp)
      ((gs.filter (fun g => !g.2.isEmpty)).map (mkGroup cpp)) := by
  unfold assembleGroups
  dsimp only
  have hcats : (((gs.filter (fun g => !g.2.isEmpty)).map
      (mkGroup cpp)).map Group.cat)
      = (gs.filter (fun g => !g.2.isEmpty)).map Prod.fst := by
    rw [List.map_map]
    rfl
  have hsp := sortByLe_perm groupLe
    ((gs.filter (fun g => !g.2.isEmpty)).map (mkGroup cpp))
  have hNs : ((sortByLe groupLe ((gs.filter (fun g => !g.2.isEmpty)).map
      (mkGroup cpp))).map Group.cat).Nodup := by
    refine (List.Perm.nodup_iff (List.Perm.map Group.cat hsp)).2 ?_
    rw [hcats]
    exact hN
  have h1 := reorderGo_perm
    (sortByLe groupLe ((gs.filter (fun g => !g.2.isEmpty)).map
      (mkGroup cpp))).length []
    (sortByLe groupLe ((gs.filter (fun g => !g.2.isEmpty)).map
      (mkGroup cpp))) hNs
  simp only [List.nil_append] at h1
  exact List.Perm.trans h1 hsp

/-- `groupAppend` does not change the group keys. -/
theorem groupAppend_keys (gs : List (Char × List Assign)) (c : Char)
    (a : Assign) : (groupAppend gs c a).map Prod.fst = gs.map Prod.fst := by
  unfold groupAppend
  induction gs with
  | nil => rfl
  | cons x xs ih =>
    simp only [List.map_cons]
    rw [ih]
    by_cases hx : x.1 = c <;> simp [hx]

/-- The keyword fold of `buildGroups` does not change the group keys. -/
theorem hypFold_keys (keyword : List Hyp) (idx : Nat)
    (pfx sfx : List (Char × List PyStr)) :
    ∀ gs : List (Char × List Assign),
      (keyword.foldl
        (fun gs h =>
          groupAppend gs (mapCat (h.fmt.getLastD ' '))
            { pos := Int.ofNat idx
              value := h.value
              fmt := h.fmt
              locales := h.locales
              pfx := alistGet? pfx (h.fmt.getLastD ' ')
              sfx := alistGet? sfx (h.fmt.getLastD ' ') })
        gs).map Prod.fst = gs.map Prod.fst := by
  induction keyword with
  | nil => intro gs; rfl
  | cons k ks ih =>
    intro gs
    simp only [List.foldl_cons]
    rw [ih, groupAppend_keys]

/-- The groups container built by `parse` has exactly the ten `_DateTime`
field keys. -/
theorem buildGroups_keys (hyps : List (List Hyp))
    (pfxs sfxs : List (List (Char × List PyStr))) :
    (buildGroups hyps pfxs sfxs).1.map Prod.fst = dtFields := by
  unfold buildGroups
  have key : ∀ (l : List Nat)
      (acc : List (Char × List Assign) × List (Int × Nat) × List Int),
      acc.1.map Prod.fst = dtFields →
      ((l.foldl
        (fun acc idx =>
          let keyword := hyps.getD idx []
          let pfx0 := pfxs.getD idx []
          let pfx :=
            match alistGet? pfx0 'y' with
            | some ly =>
              alistSet pfx0 'C'
                ((ly ++ (alistGet? pfx0 'C').getD []).foldl setInsert [])
            | none => pfx0
          let sfx := sfxs.getD idx []
          if keyword.isEmpty then
            (acc.1, acc.2.1, acc.2.2 ++ [(Int.ofNat idx)])
          else
            (keyword.foldl
              (fun gs h =>
                groupAppend gs (mapCat (h.fmt.getLastD ' '))
                  { pos := Int.ofNat idx
                    value := h.value
                    fmt := h.fmt
                    locales := h.locales
                    pfx := alistGet? pfx (h.fmt.getLastD ' ')
                    sfx := alistGet? sfx (h.fmt.getLastD ' ') })
              acc.1,
             acc.2.1 ++ [(Int.ofNat idx, keyword.length)],
             acc.2.2))
        acc).1).map Prod.fst = dtFields := by
    intro l
    induction l with
    | nil => intro acc h; exact h
    | cons i is ih =>
      intro acc h
      simp only [List.foldl_cons]
      apply ih
      dsimp only
      split
      · exact h
      · rw [hypFold_keys]
        exact h
  apply key
  rfl

/-- `clearUnsatisfiable` does not change the group keys. -/
theorem clearUnsatisfiable_keys (gs : List (Char × List Assign)) :
    (clearUnsatisfiable gs).map Prod.fst = gs.map Prod.fst := by
  have key : ∀ (l : List (Char × List Assign)) (p : Char → Bool),
      (l.map (fun g => if p g.1 then (g.1, ([] : List Assign)) else g)).map
        Prod.fst = l.map Prod.fst := by
    intro l p
    induction l with
    | nil => rfl
    | cons x xs ih =>
      simp only [List.map_cons]
      rw [ih]
      by_cases hx : p x.1 <;> simp [hx]
  unfold clearUnsatisfiable
  dsimp only
  by_cases hd : (minDate.all fun c => !((alistGet? gs c).getD []).isEmpty)
      = true
  · rw [if_pos hd]
    by_cases ht : (minTime.all fun c => !((alistGet? gs c).getD []).isEmpty)
        = true
    · rw [if_pos ht]
    · rw [if_neg ht]
      exact key gs _
  · rw [if_neg hd]
    by_cases ht : (minTime.all fun c =>
        !((alistGet? (gs.map (fun g =>
          if allDate.contains g.1 then (g.1, ([] : List Assign)) else g))
          c).getD []).isEmpty) = true
    · rw [if_pos ht]
      exact key gs _
    · rw [if_neg ht]
      rw [key, key]

/-- `_State.valid` at a combined or single result exposes the date and time
halves. -/
theorem stateValid_parts (dp tp : Bool) (value : DT Obj) (v : DTValue)
    (h : stateValid dp tp value = Except.ok (some v)) :
    (dp = true → ∃ dt, validDate value = Except.ok (some dt)) ∧
    (tp = true → ∃ t, validTime value = Except.ok t) := by
  unfold stateValid at h
  cases dp with
  | false =>
    rw [if_neg (by simp : ¬((false : Bool) = true))] at h
    cases tp with
    | false =>
      rw [if_neg (by simp : ¬((false : Bool) = true))] at h
      simp [pure, Except.pure] at h
    | true =>
      rw [if_pos rfl] at h
      simp only [bind, Except.bind] at h
      split at h
      · exact absurd h (by simp)
      · rename_i t ht
        exact ⟨fun hc => absurd hc (by simp), fun _ => ⟨t, ht⟩⟩
  | true =>
    rw [if_pos rfl] at h
    simp only [bind, Except.bind] at h
    split at h
    · exact absurd h (by simp)
    · rename_i r hr
      split at h
      · simp [pure, Except.pure] at h
      · rename_i dt
        cases tp with
        | false =>
          exact ⟨fun _ => ⟨dt, hr⟩, fun hc => absurd hc (by simp)⟩
        | true =>
          exact ⟨fun _ => ⟨dt, hr⟩, fun _ => by
            rw [if_pos rfl] at h
            split at h
            · exact absurd h (by simp)
            · rename_i t ht
              exact ⟨t, ht⟩⟩

/-- A fold of `searchLevel` over scored states, as in `runSearch`:
provenance version. -/
theorem foldSearch_sound (literals raw : List PyStr) (P : SState → Prop)
    (hpres : ∀ st cs, P st → SState.children st = Except.ok cs →
      ∀ c ∈ cs, P c.2.2) (fuel : Nat) :
    ∀ (l : List (Nat × Option (List PyStr) × SState)) (acc0 acc1 : Acc),
      (∀ c ∈ l, P c.2.2) →
      l.foldlM (fun a c => searchLevel literals raw fuel c a) acc0
        = Except.ok acc1 →
      ∀ cand ∈ acc1.best, cand ∈ acc0.best ∨
        emittedFrom literals raw P cand := by
  intro l
  induction l with
  | nil =>
    intro acc0 acc1 hPl hfold cand hcand
    simp only [List.foldlM_nil] at hfold
    cases hfold
    exact Or.inl hcand
  | cons x xs ih =>
    intro acc0 acc1 hPl hfold cand hcand
    simp only [List.foldlM_cons] at hfold
    cases hx : searchLevel literals raw fuel x acc0 with
    | error e =>
      rw [hx] at hfold
      simp [bind, Except.bind] at hfold
    | ok accx =>
      rw [hx] at hfold
      simp only [bind, Except.bind] at hfold
      rcases ih accx acc1
          (fun c hc => hPl c (List.mem_cons_of_mem _ hc)) hfold cand hcand
        with h1 | h1
      · rcases searchLevel_sound literals raw P hpres fuel x acc0 accx
            (hPl x (List.mem_cons_self _ _)) hx cand h1 with h2 | h2
        · exact Or.inl h2
        · exact Or.inr h2
      · exact Or.inr h1

/-- Provenance through `runSearch`: every candidate of the returned best
list was emitted at a `P`-leaf. -/
theorem runSearch_sound (literals raw : List PyStr) (P : SState → Prop)
    (hpres : ∀ st cs, P st → SState.children st = Except.ok cs →
      ∀ c ∈ cs, P c.2.2)
    (root : SState) (cands : List Candidate) (hroot : P root)
    (h : runSearch literals raw root = Except.ok cands) :
    ∀ cand ∈ cands, emittedFrom literals raw P cand := by
  intro cand hcand
  unfold runSearch at h
  simp only [bind, Except.bind] at h
  split at h
  · exact absurd h (by simp)
  · rename_i cs hcs
    split at h
    · exact absurd h (by simp)
    · rename_i acc hacc
      simp only [pure, Except.pure, Except.ok.injEq] at h
      subst h
      have hPcs := hpres root cs hroot hcs
      rcases foldSearch_sound literals raw P hpres root.remaining.length
          cs ⟨0, []⟩ acc hPcs hacc cand hcand with h1 | h1
      · simp at h1
      · exact h1

/-- The root state of the search satisfies the invariant. -/
theorem rootState_sinv (hyps : List (List Hyp))
    (pfxs sfxs : List (List (Char × List PyStr))) :
    SInv (rootState
      (assembleGroups
        (clearUnsatisfiable (buildGroups hyps pfxs sfxs).1)
        (buildGroups hyps pfxs sfxs).2.1)
      (buildGroups hyps pfxs sfxs).2.2) := by
  have hkeys : (clearUnsatisfiable (buildGroups hyps pfxs sfxs).1).map
      Prod.fst = dtFields := by
    rw [clearUnsatisfiable_keys, buildGroups_keys]
  have hNfil : (((clearUnsatisfiable (buildGroups hyps pfxs sfxs).1).filter
      (fun g => !g.2.isEmpty)).map Prod.fst).Nodup := by
    have hsub : (((clearUnsatisfiable (buildGroups hyps pfxs sfxs).1).filter
        (fun g => !g.2.isEmpty)).map Prod.fst).Sublist
        ((clearUnsatisfiable (buildGroups hyps pfxs sfxs).1).map Prod.fst) :=
      List.Sublist.map _ (List.filter_sublist _)
    refine List.Nodup.sublist hsub ?_
    rw [hkeys]
    decide
  have hperm := assembleGroups_perm
    (clearUnsatisfiable (buildGroups hyps pfxs sfxs).1)
    (buildGroups hyps pfxs sfxs).2.1 hNfil
  have hmem : ∀ g ∈ assembleGroups
      (clearUnsatisfiable (buildGroups hyps pfxs sfxs).1)
      (buildGroups hyps pfxs sfxs).2.1,
      g.posCons = posConsFor g.cat ∧ g.valCons = valConsFor g.cat := by
    intro g hg
    have := (List.Perm.mem_iff hperm).1 hg
    rcases List.mem_map.1 this with ⟨x, _, hx⟩
    rw [← hx]
    exact ⟨rfl, rfl⟩
  have hnodup : ((assembleGroups
      (clearUnsatisfiable (buildGroups hyps pfxs sfxs).1)
      (buildGroups hyps pfxs sfxs).2.1).map Group.cat).Nodup := by
    refine (List.Perm.nodup_iff (List.Perm.map Group.cat hperm)).2 ?_
    have hcats : ((((clearUnsatisfiable
        (buildGroups hyps pfxs sfxs).1).filter
        (fun g => !g.2.isEmpty)).map
        (mkGroup (buildGroups hyps pfxs sfxs).2.1)).map Group.cat)
        = ((clearUnsatisfiable (buildGroups hyps pfxs sfxs).1).filter
          (fun g => !g.2.isEmpty)).map Prod.fst := by
      rw [List.map_map]
      rfl
    rw [hcats]
    exact hNfil
  refine ⟨?_, ?_, ?_, ?_, ?_, ?_, ?_, ?_, ?_, ?_, ?_, ?_, ?_, ?_, ?_⟩
  · intro hne; exact absurd rfl hne
  · intro hne; exact absurd rfl hne
  · intro hne; exact absurd rfl hne
  · intro hne; exact absurd rfl hne
  · intro hne; exact absurd rfl hne
  · intro hne; exact absurd rfl hne
  · intro hne; exact absurd rfl hne
  · intro hne; exact absurd rfl hne
  · intro hne; exact absurd rfl hne
  · intro hne; exact absurd rfl hne
  · exact ⟨⟨fun _ => rfl, fun _ => rfl⟩, ⟨fun _ => rfl, fun _ => rfl⟩,
      ⟨fun _ => rfl, fun _ => rfl⟩, ⟨fun _ => rfl, fun _ => rfl⟩,
      ⟨fun _ => rfl, fun _ => rfl⟩, ⟨fun _ => rfl, fun _ => rfl⟩,
      ⟨fun _ => rfl, fun _ => rfl⟩, ⟨fun _ => rfl, fun _ => rfl⟩,
      ⟨fun _ => rfl, fun _ => rfl⟩, ⟨fun _ => rfl, fun _ => rfl⟩⟩
  · simpa [remCats, rootState] using hnodup
  · exact ⟨fun _ => rfl, fun _ => rfl, fun _ => rfl, fun _ => rfl,
      fun _ => rfl, fun _ => rfl, fun _ => rfl, fun _ => rfl,
      fun _ => rfl, fun _ => rfl⟩
  · intro g hg
    exact hmem g hg
  · intro hne
    exact absurd rfl hne

/-- C6: every candidate returned by `parse` (modelled from the split
segments on by `parseCore`) satisfies both completeness rules: it is
emitted from a final search state whose conversion positions are such that
if any of the date categories `C`, `y`, `m`, `d`, `a` is assigned then
`y`, `m` and `d` are all assigned, and if any of the time categories `H`,
`M`, `S`, `p`, `Z` is assigned then `H` and `M` are both assigned.  The
flags `datePresent`/`timePresent` cover every converted slot along the
search (the invariant preserved by `_State.children`), a skip of a required
category is only offered while its side's flag is still off, and
`_State.valid` then forces `y`, `m`, `d` (resp. `H`, `M`) to be present on
any present side. -/
theorem c6_completeness (tables : Tables) (literals raw : List PyStr)
    (cands : List Candidate)
    (h : parseCore tables literals raw = Except.ok cands) :
    ∀ cand ∈ cands, ∃ (st : SState) (v : DTValue) (ls : Option (List PyStr)),
      cand = emit literals raw st v ls ∧
      st.remaining = [] ∧
      stateValid st.datePresent st.timePresent st.value
        = Except.ok (some v) ∧
      ((st.pos.C ≠ none ∨ st.pos.y ≠ none ∨ st.pos.m ≠ none ∨
        st.pos.d ≠ none ∨ st.pos.a ≠ none) →
        st.pos.y ≠ none ∧ st.pos.m ≠ none ∧ st.pos.d ≠ none) ∧
      ((st.pos.H ≠ none ∨ st.pos.M ≠ none ∨ st.pos.S ≠ none ∨
        st.pos.p ≠ none ∨ st.pos.Z ≠ none) →
        st.pos.H ≠ none ∧ st.pos.M ≠ none) := by
  intro cand hcand
  unfold parseCore at h
  split at h
  · simp only [pure, Except.pure, Except.ok.injEq] at h
    subst h
    simp at hcand
  · simp only [bind, Except.bind] at h
    split at h
    · exact absurd h (by simp)
    · rename_i hyps hhyps
      split at h
      · simp only [pure, Except.pure, Except.ok.injEq] at h
        subst h
        simp at hcand
      · have hemit := runSearch_sound literals raw SInv
          (fun st cs hP hch => sinv_children st cs hP hch) _ cands
          (rootState_sinv hyps _ _) h cand hcand
        obtain ⟨lf, v, hinv, hrem0, hvalid, hcand_eq⟩ := hemit
        obtain ⟨hpR, hpD, hpT, hpPos, hpVal, hpF, hpU⟩ :=
          finalScore_preserves lf
        obtain ⟨hAdC, hAdy, hAdm, hAdd, hAda, hAtH, hAtM, hAtS, hAtp, hAtZ,
          hSb, hD, hUb, hW, hB⟩ := hinv
        obtain ⟨hSC, hSy, hSm, hSd, hSa, hSH, hSM, hSS, hSp, hSZ⟩ := hSb
        refine ⟨lf.finalScore.2.2, v, lf.finalScore.2.1, hcand_eq, ?_, ?_,
          ?_, ?_⟩
        · rw [hpR]; exact hrem0
        · rw [hpD, hpT, hpVal]; exact hvalid
        · intro hassigned
          rw [hpPos] at hassigned
          have hdp : lf.datePresent = true := by
            rcases hassigned with h1 | h1 | h1 | h1 | h1
            · exact hAdC h1
            · exact hAdy h1
            · exact hAdm h1
            · exact hAdd h1
            · exact hAda h1
          have hparts := stateValid_parts _ _ _ _ hvalid
          obtain ⟨dt, hvd⟩ := hparts.1 hdp
          obtain ⟨hy, hm, hd⟩ := validDate_fields _ _ hvd
          rw [hpPos]
          exact ⟨fun hn => hy (hSy.1 hn), fun hn => hm (hSm.1 hn),
            fun hn => hd (hSd.1 hn)⟩
        · intro hassigned
          rw [hpPos] at hassigned
          have htp : lf.timePresent = true := by
            rcases hassigned with h1 | h1 | h1 | h1 | h1
            · exact hAtH h1
            · exact hAtM h1
            · exact hAtS h1
            · exact hAtp h1
            · exact hAtZ h1
          have hparts := stateValid_parts _ _ _ _ hvalid
          obtain ⟨t, hvt⟩ := hparts.2 htp
          obtain ⟨hH, hM, _⟩ := validTime_fields _ _ hvt
          rw [hpPos]
          exact ⟨fun hn => hH (hSH.1 hn), fun hn => hM (hSM.1 hn)⟩

set_option maxHeartbeats 4000000 in
/-- Witness for `c6_completeness`: the empty-corpus parser on the single
non-token segment `"x"` succeeds (with no candidates), discharging the
hypothesis at a concrete input. -/
theorem c6_completeness_witness :
    parseCore emptyCorpusTables ["".data, "".data] ["x".data]
      = Except.ok ([] : List Candidate) ∧
    (∀ cand ∈ ([] : List Candidate),
      ∃ (st : SState) (v : DTValue) (ls : Option (List PyStr)),
        cand = emit ["".data, "".data] ["x".data] st v ls ∧
        st.remaining = [] ∧
        stateValid st.datePresent st.timePresent st.value
          = Except.ok (some v) ∧
        ((st.pos.C ≠ none ∨ st.pos.y ≠ none ∨ st.pos.m ≠ none ∨
          st.pos.d ≠ none ∨ st.pos.a ≠ none) →
          st.pos.y ≠ none ∧ st.pos.m ≠ none ∧ st.pos.d ≠ none) ∧
        ((st.pos.H ≠ none ∨ st.pos.M ≠ none ∨ st.pos.S ≠ none ∨
          st.pos.p ≠ none ∨ st.pos.Z ≠ none) →
          st.pos.H ≠ none ∧ st.pos.M ≠ none)) := by
  have hpc : parseCore emptyCorpusTables ["".data, "".data] ["x".data]
      = Except.ok ([] : List Candidate) := by decide
  exact ⟨hpc, c6_completeness emptyCorpusTables ["".data, "".data]
    ["x".data] [] hpc⟩

/-- C9: in every candidate returned by `parse`, whenever the `p` (AM/PM)
category carries an assigned value `pv`, the assigned hour is an integer
`H` with `1 ≤ H ≤ 12` (enforced by the `valid_12_hour_clock` constraint
when the second of `H`/`p` was assigned), and the decoded hour of the
resulting time value is `H % 12 + 12 * p`, so `H = 12` with `p = 0` (am)
decodes to hour `0` and `H = 12` with `p = 1` (pm) decodes to hour `12`. -/
theorem c9_twelve_hour_clock (tables : Tables) (literals raw : List PyStr)
    (cands : List Candidate)
    (h : parseCore tables literals raw = Except.ok cands) :
    ∀ cand ∈ cands, ∃ (st : SState) (v : DTValue) (ls : Option (List PyStr)),
      cand = emit literals raw st v ls ∧
      stateValid st.datePresent st.timePresent st.value
        = Except.ok (some v) ∧
      (∀ pv, st.value.p = some pv →
        (∃ hr : Int, st.value.H = some (Obj.int hr) ∧ 1 ≤ hr ∧ hr ≤ 12) ∧
        (∃ (t : PyTime) (h0 pi : Int),
          validTime st.value = Except.ok t ∧
          st.value.H = some (Obj.int h0) ∧ pv = Obj.int pi ∧
          t.hour = h0.emod 12 + 12 * pi ∧
          (h0 = 12 → pi = 0 → t.hour = 0) ∧
          (h0 = 12 → pi = 1 → t.hour = 12))) := by
  intro cand hcand
  unfold parseCore at h
  split at h
  · simp only [pure, Except.pure, Except.ok.injEq] at h
    subst h
    simp at hcand
  · simp only [bind, Except.bind] at h
    split at h
    · exact absurd h (by simp)
    · rename_i hyps hhyps
      split at h
      · simp only [pure, Except.pure, Except.ok.injEq] at h
        subst h
        simp at hcand
      · have hemit := runSearch_sound literals raw SInv
          (fun st cs hP hch => sinv_children st cs hP hch) _ cands
          (rootState_sinv hyps _ _) h cand hcand
        obtain ⟨lf, v, hinv, hrem0, hvalid, hcand_eq⟩ := hemit
        obtain ⟨hpR, hpD, hpT, hpPos, hpVal, hpF, hpU⟩ :=
          finalScore_preserves lf
        obtain ⟨hAdC, hAdy, hAdm, hAdd, hAda, hAtH, hAtM, hAtS, hAtp, hAtZ,
          hSb, hD, hUb, hW, hB⟩ := hinv
        obtain ⟨hSC, hSy, hSm, hSd, hSa, hSH, hSM, hSS, hSp, hSZ⟩ := hSb
        refine ⟨lf.finalScore.2.2, v, lf.finalScore.2.1, hcand_eq, ?_, ?_⟩
        · rw [hpD, hpT, hpVal]; exact hvalid
        · intro pv hpv
          rw [hpVal] at hpv
          have hpne : lf.value.p ≠ none := by rw [hpv]; simp
          have htp : lf.timePresent = true :=
            hAtp (fun hn => hpne (hSp.1 hn))
          have hparts := stateValid_parts _ _ _ _ hvalid
          obtain ⟨t, hvt⟩ := hparts.2 htp
          obtain ⟨hHne, hMne, hdecode⟩ := validTime_fields _ _ hvt
          obtain ⟨h0, pi, hH0, hpvint, hhour⟩ := hdecode pv hpv
          have hbound := hB (by rw [hH0]; simp) hpne
          rw [hpVal]
          refine ⟨hbound, t, h0, pi, hvt, hH0, hpvint, hhour, ?_, ?_⟩
          · intro h12 hpi0
            rw [hhour, h12, hpi0]
            decide
          · intro h12 hpi1
            rw [hhour, h12, hpi1]
            decide

set_option maxHeartbeats 8000000 in
/-- Witness for `c9_twelve_hour_clock`: the empty-corpus parser on the
single digit segment `"7"` runs the full branch-and-bound search and
succeeds (with no candidates, as a lone number is never a complete date or
time), discharging the hypothesis at a concrete input. -/
theorem c9_twelve_hour_clock_witness :
    parseCore emptyCorpusTables ["".data, "".data] ["7".data]
      = Except.ok ([] : List Candidate) ∧
    (∀ cand ∈ ([] : List Candidate),
      ∃ (st : SState) (v : DTValue) (ls : Option (List PyStr)),
        cand = emit ["".data, "".data] ["7".data] st v ls ∧
        stateValid st.datePresent st.timePresent st.value
          = Except.ok (some v) ∧
        (∀ pv, st.value.p = some pv →
          (∃ hr : Int, st.value.H = some (Obj.int hr) ∧ 1 ≤ hr ∧ hr ≤ 12) ∧
          (∃ (t : PyTime) (h0 pi : Int),
            validTime st.value = Except.ok t ∧
            st.value.H = some (Obj.int h0) ∧ pv = Obj.int pi ∧
            t.hour = h0.emod 12 + 12 * pi ∧
            (h0 = 12 → pi = 0 → t.hour = 0) ∧
            (h0 = 12 → pi = 1 → t.hour = 12)))) := by
  have hpc : parseCore emptyCorpusTables ["".data, "".data] ["7".data]
      = Except.ok ([] : List Candidate) := by decide
  exact ⟨hpc, c9_twelve_hour_clock emptyCorpusTables ["".data, "".data]
    ["7".data] [] hpc⟩

/-!
## Score arithmetic of the satisfaction counter
-/

theorem heuristic_eq (st : SState) :
    heuristic st = st.pendingHints.length
      + (st.remaining.map (bestOpt st)).sum := rfl

theorem score_fst (st : SState) :
    (SState.score st).1 = st.globallySatisfied
      + scoreAux st.requiredLocales st.satisfied := by
  unfold SState.score scoreAux
  dsimp only
  split <;> split <;> rfl

theorem mem_le_maxCount (s : List (PyStr × Nat)) :
    ∀ kv ∈ s, kv.2 ≤ maxCount s := by
  induction s with
  | nil => intro kv h; simp at h
  | cons x xs ih =>
    intro kv h
    rcases List.mem_cons.1 h with h1 | h1
    · subst h1
      exact le_max_left _ _
    · exact le_trans (ih kv h1) (le_max_right _ _)

theorem maxCount_le (s : List (PyStr × Nat)) (n : Nat)
    (h : ∀ kv ∈ s, kv.2 ≤ n) : maxCount s ≤ n := by
  induction s with
  | nil => exact Nat.zero_le n
  | cons x xs ih =>
    unfold maxCount
    exact max_le (h x (List.mem_cons_self _ _))
      (ih (fun kv hkv => h kv (List.mem_cons_of_mem _ hkv)))

/-- Keys of the counter after an update: an old key or an inserted one. -/
theorem counterUpdate_keys (c : List (PyStr × Nat)) (ls : List PyStr) :
    ∀ k, k ∈ (counterUpdate c ls).map Prod.fst →
      k ∈ c.map Prod.fst ∨ k ∈ ls := by
  unfold counterUpdate
  induction ls generalizing c with
  | nil => intro k h; exact Or.inl h
  | cons l rest ih =>
    intro k h
    simp only [List.foldl_cons] at h
    rcases ih _ k h with h1 | h1
    · -- key of one step
      rcases hstep : alistGet? c l with _ | v
      · rw [hstep] at h1
        simp only [List.map_append, List.mem_append] at h1
        rcases h1 with h2 | h2
        · exact Or.inl h2
        · simp only [List.map_cons, List.map_nil, List.mem_singleton] at h2
          subst h2
          exact Or.inr (List.mem_cons_self _ _)
      · rw [hstep] at h1
        have : k ∈ c.map Prod.fst ∨ k = l := by
          clear h hstep ih
          induction c with
          | nil => simp [alistSet] at h1; exact Or.inr h1
          | cons x xs ihc =>
            unfold alistSet at h1
            split at h1
            · rename_i hx
              simp only [List.map_cons, List.mem_cons] at h1 ⊢
              rcases h1 with h2 | h2
              · exact Or.inr h2
              · exact Or.inl (Or.inr h2)
            · simp only [List.map_cons, List.mem_cons] at h1 ⊢
              rcases h1 with h2 | h2
              · exact Or.inl (Or.inl h2)
              · rcases ihc h2 with h3 | h3
                · exact Or.inl (Or.inr h3)
                · exact Or.inr h3
        rcases this with h2 | h2
        · exact Or.inl h2
        · subst h2
          exact Or.inr (List.mem_cons_self _ _)
    · exact Or.inr (List.mem_cons_of_mem _ h1)

/-- A key the lookup misses is not a key of the association list. -/
theorem alistGet?_none_notin {V : Type} (l : PyStr)
    (c : List (PyStr × V)) (h : alistGet? c l = none) :
    l ∉ c.map Prod.fst := by
  intro hm
  induction c with
  | nil => simp at hm
  | cons x xs ih =>
    unfold alistGet? at h
    split at h
    · simp at h
    · rename_i hx
      rcases List.mem_cons.1 hm with h1 | h1
      · exact hx h1.symm
      · exact ih h h1

/-- An in-place update at a present key keeps the key list. -/
theorem alistSet_keys_of_present {V : Type} (l : PyStr) (w : V) :
    ∀ (c : List (PyStr × V)) (v : V), alistGet? c l = some v →
      (alistSet c l w).map Prod.fst = c.map Prod.fst := by
  intro c
  induction c with
  | nil => intro v h; simp [alistGet?] at h
  | cons x xs ih =>
    intro v h
    unfold alistGet? at h
    unfold alistSet
    split at h
    · rename_i hx
      rw [if_pos hx]
      simp [hx]
    · rename_i hx
      rw [if_neg hx]
      simp only [List.map_cons]
      rw [ih _ h]

/-- Distinct counter keys survive an update step. -/
theorem counterUpdate_nodup (c : List (PyStr × Nat)) (ls : List PyStr)
    (hN : (c.map Prod.fst).Nodup) :
    ((counterUpdate c ls).map Prod.fst).Nodup := by
  unfold counterUpdate
  induction ls generalizing c with
  | nil => exact hN
  | cons l rest ih =>
    simp only [List.foldl_cons]
    apply ih
    rcases hstep : alistGet? c l with _ | v
    · -- append a fresh key
      have hnotin : l ∉ c.map Prod.fst := alistGet?_none_notin l c hstep
      simp only [List.map_append, List.map_cons, List.map_nil]
      refine List.Nodup.append hN (List.nodup_singleton l) ?_
      intro x hx hxl
      simp only [List.mem_singleton] at hxl
      exact hnotin (hxl ▸ hx)
    · -- in-place update keeps the key list
      rw [alistSet_keys_of_present l (v + 1) c v hstep]
      exact hN

/-- Lookup across an append. -/
theorem alistGet?_append {V : Type} (k : PyStr)
    (c d : List (PyStr × V)) :
    alistGet? (c ++ d) k =
      match alistGet? c k with
      | some v => some v
      | none => alistGet? d k := by
  induction c with
  | nil => simp [alistGet?]
  | cons x xs ih =>
    simp only [List.cons_append]
    rw [show alistGet? (x :: (xs ++ d)) k
        = if x.1 = k then some x.2 else alistGet? (xs ++ d) k from rfl,
      show alistGet? (x :: xs) k
        = if x.1 = k then some x.2 else alistGet? xs k from rfl]
    split
    · rfl
    · exact ih

/-- A key not updated keeps its count. -/
theorem countOf_counterUpdate_notin (c : List (PyStr × Nat))
    (ls : List PyStr) (k : PyStr) (hk : k ∉ ls) :
    countOf (counterUpdate c ls) k = countOf c k := by
  unfold counterUpdate
  induction ls generalizing c with
  | nil => rfl
  | cons l rest ih =>
    simp only [List.foldl_cons]
    have hkl : k ≠ l := fun he => hk (he ▸ List.mem_cons_self _ _)
    have hlk : l ≠ k := fun he => hkl he.symm
    have hkr : k ∉ rest := fun hm => hk (List.mem_cons_of_mem _ hm)
    rw [ih _ hkr]
    rcases hstep : alistGet? c l with _ | v
    · unfold countOf
      rw [alistGet?_append]
      cases halist : alistGet? c k with
      | none => simp [alistGet?, hlk]
      | some w => rfl
    · unfold countOf
      rw [alistGet?_alistSet_ne c l k (v + 1) hkl]

/-- An updated key gains exactly one. -/
theorem countOf_counterUpdate_step (c : List (PyStr × Nat)) (l : PyStr) :
    countOf
      (match alistGet? c l with
       | some v => alistSet c l (v + 1)
       | none => c ++ [(l, 1)]) l = countOf c l + 1 := by
  rcases hstep : alistGet? c l with _ | v
  · unfold countOf
    rw [alistGet?_append, hstep]
    simp [alistGet?]
  · unfold countOf
    rw [alistGet?_alistSet_self, hstep]
    rfl

/-- `Counter.update` with a duplicate-free list adds at most one to every
count. -/
theorem countOf_counterUpdate_le (c : List (PyStr × Nat)) (ls : List PyStr)
    (hN : ls.Nodup) (k : PyStr) :
    countOf (counterUpdate c ls) k ≤ countOf c k + 1 := by
  unfold counterUpdate
  induction ls generalizing c with
  | nil => exact Nat.le_succ _
  | cons l rest ih =>
    simp only [List.foldl_cons]
    by_cases hkl : k = l
    · subst hkl
      have hkr : k ∉ rest := (List.nodup_cons.1 hN).1
      have hrw := countOf_counterUpdate_notin
        (match alistGet? c k with
         | some v => alistSet c k (v + 1)
         | none => c ++ [(k, 1)]) rest k hkr
      unfold counterUpdate at hrw
      exact le_of_eq (hrw.trans (countOf_counterUpdate_step c k))
    · have hlk : l ≠ k := fun he => hkl he.symm
      refine le_trans (ih _ (List.nodup_cons.1 hN).2) ?_
      have : countOf
          (match alistGet? c l with
           | some v => alistSet c l (v + 1)
           | none => c ++ [(l, 1)]) k = countOf c k := by
        rcases hstep : alistGet? c l with _ | v
        · unfold countOf
          rw [alistGet?_append]
          cases halist : alistGet? c k with
          | none => simp [alistGet?, hlk]
          | some w => rfl
        · unfold countOf
          rw [alistGet?_alistSet_ne c l k (v + 1) (fun he => hkl he)]
      exact Nat.add_le_add_right (le_of_eq this) 1

/-- With distinct keys, a stored pair is what the lookup returns. -/
theorem alistGet?_of_mem_nodup {V : Type} (c : List (PyStr × V))
    (hN : (c.map Prod.fst).Nodup) (kv : PyStr × V) (h : kv ∈ c) :
    alistGet? c kv.1 = some kv.2 := by
  induction c with
  | nil => simp at h
  | cons x xs ih =>
    rcases List.mem_cons.1 h with h1 | h1
    · subst h1
      unfold alistGet?
      rw [if_pos rfl]
    · unfold alistGet?
      split
      · rename_i hx
        exfalso
        have : kv.1 ∈ xs.map Prod.fst := List.mem_map_of_mem _ h1
        rw [← hx] at this
        exact (List.nodup_cons.1 hN).1 this
      · exact ih (List.nodup_cons.1 hN).2 h1

/-- A pointwise bound on the (filtered) counts bounds the score part. -/
theorem scoreAux_le (required : Option (List PyStr))
    (t : List (PyStr × Nat)) (n : Nat)
    (h : ∀ kv ∈ t, (truthyLocs required = true → kv.1 ∈ required.getD []) →
      kv.2 ≤ n) : scoreAux required t ≤ n := by
  unfold scoreAux
  dsimp only
  cases htr : truthyLocs required with
  | false =>
    rw [if_neg (by simp : ¬((false : Bool) = true))]
    split
    · exact Nat.zero_le _
    · refine maxCount_le _ _ ?_
      intro kv hkv
      exact h kv hkv (fun hc => by rw [htr] at hc; simp at hc)
  | true =>
    rw [if_pos rfl]
    split
    · exact Nat.zero_le _
    · refine maxCount_le _ _ ?_
      intro kv hkv
      have hkv2 := List.mem_filter.1 hkv
      exact h kv hkv2.1 (fun _ => by simpa using hkv2.2)

/-- One `Counter.update` with a duplicate-free list raises the score part
of `_State.score` by at most one. -/
theorem scoreAux_counterUpdate_le (required : Option (List PyStr))
    (s : List (PyStr × Nat)) (ls : List PyStr) (hls : ls.Nodup)
    (hK : (s.map Prod.fst).Nodup) :
    scoreAux required (counterUpdate s ls) ≤ scoreAux required s + 1 := by
  have hKcu := counterUpdate_nodup s ls hK
  refine scoreAux_le required _ _ ?_
  intro kv hmem hreq
  have hv : kv.2 = countOf (counterUpdate s ls) kv.1 := by
    unfold countOf
    rw [alistGet?_of_mem_nodup _ hKcu kv hmem]
    rfl
  rw [hv]
  refine le_trans (countOf_counterUpdate_le s ls hls kv.1) ?_
  rcases hsk : alistGet? s kv.1 with _ | w
  · unfold countOf
    rw [hsk]
    exact Nat.succ_le_succ (Nat.zero_le _)
  · have hmem2 : (kv.1, w) ∈ s := alistGet?_mem s kv.1 w hsk
    have hcnt : countOf s kv.1 = w := by unfold countOf; rw [hsk]; rfl
    rw [hcnt]
    refine Nat.succ_le_succ ?_
    unfold scoreAux
    dsimp only
    cases htr : truthyLocs required with
    | false =>
      rw [if_neg (by simp : ¬((false : Bool) = true))]
      rw [if_neg (by
        intro hemp
        rw [List.isEmpty_iff] at hemp
        rw [hemp] at hmem2
        simp at hmem2)]
      exact mem_le_maxCount s (kv.1, w) hmem2
    | true =>
      rw [if_pos rfl]
      have hmem3 : (kv.1, w) ∈ s.filter
          (fun kv => kv.1 ∈ required.getD []) := by
        refine List.mem_filter.2 ⟨hmem2, ?_⟩
        simpa using hreq htr
      rw [if_neg (by
        intro hemp
        rw [List.isEmpty_iff] at hemp
        rw [hemp] at hmem3
        simp at hmem3)]
      exact mem_le_maxCount _ (kv.1, w) hmem3

/-- The final-score fold raises the score by at most one per pending hint
(the heuristic counts each pending hint as one). -/
theorem finalScore_le (st : SState)
    (hLp : ∀ hh ∈ st.pendingHints, hh.2.Nodup)
    (hK : (st.satisfied.map Prod.fst).Nodup) :
    st.finalScore.1 ≤ (SState.score st).1 + st.pendingHints.length := by
  have key : ∀ (l : List (Option Int × List PyStr)) (s : SState),
      (∀ hh ∈ l, hh.2.Nodup) → ((s.satisfied.map Prod.fst).Nodup) →
      ((l.foldl
        (fun s h =>
          if h.2.isEmpty then
            { s with globallySatisfied := s.globallySatisfied + 1 }
          else { s with satisfied := counterUpdate s.satisfied h.2 })
        s).score).1 ≤ (SState.score s).1 + l.length := by
    intro l
    induction l with
    | nil => intro s _ _; simp
    | cons x xs ih =>
      intro s hl hK
      simp only [List.foldl_cons]
      by_cases hx : x.2.isEmpty
      · rw [if_pos hx]
        refine le_trans (ih _ (fun hh h => hl hh (List.mem_cons_of_mem _ h))
          hK) ?_
        rw [score_fst, score_fst]
        simp only []
        simp only [List.length_cons]
        omega
      · rw [if_neg hx]
        refine le_trans (ih _ (fun hh h => hl hh (List.mem_cons_of_mem _ h))
          (counterUpdate_nodup _ _ hK)) ?_
        rw [score_fst, score_fst]
        simp only []
        have hb := scoreAux_counterUpdate_le s.requiredLocales s.satisfied
          x.2 (hl x (List.mem_cons_self _ _)) hK
        simp only [List.length_cons]
        omega
  unfold SState.finalScore
  split
  · simp
  · refine le_trans (key st.pendingHints st hLp hK) ?_
    exact le_refl _

/-- The final-score fold never decreases the global counter, and the score
is at least the global counter. -/
theorem finalScore_ge_gs (st : SState) :
    st.globallySatisfied ≤ st.finalScore.1 := by
  have key : ∀ (l : List (Option Int × List PyStr)) (s : SState),
      s.globallySatisfied ≤
      (l.foldl
        (fun s h =>
          if h.2.isEmpty then
            { s with globallySatisfied := s.globallySatisfied + 1 }
          else { s with satisfied := counterUpdate s.satisfied h.2 })
        s).globallySatisfied := by
    intro l
    induction l with
    | nil => intro s; exact le_refl _
    | cons x xs ih =>
      intro s
      simp only [List.foldl_cons]
      refine le_trans ?_ (ih _)
      split
      · exact Nat.le_succ _
      · exact le_refl _
  unfold SState.finalScore
  split
  · rw [score_fst]
    exact Nat.le_add_right _ _
  · refine le_trans (key st.pendingHints st) ?_
    rw [score_fst]
    exact Nat.le_add_right _ _

/-- Accounting for the hint fold of an assignment child: global bumps and
counter updates each consume one hint, deferred hints stay pending, and
the rest are dropped; so score-plus-pending grows by at most the number of
hints processed.  The counter keys stay distinct, the deferred hint lists
are among the processed ones, and the global counter never decreases. -/
theorem hintFold_bound (L : Option (List PyStr)) (E : List Int)
    (P : DT Int) :
    ∀ (l : List (Option Int × List PyStr))
      (acc : List (PyStr × Nat) × Nat × List (Option Int × List PyStr)),
      (∀ hh ∈ l, hh.2.Nodup) → ((acc.1.map Prod.fst).Nodup) →
      (∀ hh ∈ acc.2.2, hh.2.Nodup) →
      ((l.foldl
        (fun (acc : List (PyStr × Nat) × Nat × List (Option Int × List PyStr)) h =>
          match h.1 with
          | none =>
            if h.2.isEmpty then (acc.1, acc.2.1 + 1, acc.2.2)
            else (counterUpdate acc.1 h.2, acc.2.1, acc.2.2)
          | some idx =>
            if idx ∈ E then
              if h.2.isEmpty then (acc.1, acc.2.1 + 1, acc.2.2)
              else (counterUpdate acc.1 h.2, acc.2.1, acc.2.2)
            else if memDT idx P then acc
            else (acc.1, acc.2.1, acc.2.2 ++ [(some idx, h.2)]))
        acc).2.1
        + scoreAux L (l.foldl
          (fun (acc : List (PyStr × Nat) × Nat × List (Option Int × List PyStr)) h =>
            match h.1 with
            | none =>
              if h.2.isEmpty then (acc.1, acc.2.1 + 1, acc.2.2)
              else (counterUpdate acc.1 h.2, acc.2.1, acc.2.2)
            | some idx =>
              if idx ∈ E then
                if h.2.isEmpty then (acc.1, acc.2.1 + 1, acc.2.2)
                else (counterUpdate acc.1 h.2, acc.2.1, acc.2.2)
              else if memDT idx P then acc
              else (acc.1, acc.2.1, acc.2.2 ++ [(some idx, h.2)]))
          acc).1
        + (l.foldl
          (fun (acc : List (PyStr × Nat) × Nat × List (Option Int × List PyStr)) h =>
            match h.1 with
            | none =>
              if h.2.isEmpty then (acc.1, acc.2.1 + 1, acc.2.2)
              else (counterUpdate acc.1 h.2, acc.2.1, acc.2.2)
            | some idx =>
              if idx ∈ E then
                if h.2.isEmpty then (acc.1, acc.2.1 + 1, acc.2.2)
                else (counterUpdate acc.1 h.2, acc.2.1, acc.2.2)
              else if memDT idx P then acc
              else (acc.1, acc.2.1, acc.2.2 ++ [(some idx, h.2)]))
          acc).2.2.length
        ≤ acc.2.1 + scoreAux L acc.1 + acc.2.2.length + l.length) ∧
      (((l.foldl
        (fun (acc : List (PyStr × Nat) × Nat × List (Option Int × List PyStr)) h =>
          match h.1 with
          | none =>
            if h.2.isEmpty then (acc.1, acc.2.1 + 1, acc.2.2)
            else (counterUpdate acc.1 h.2, acc.2.1, acc.2.2)
          | some idx =>
            if idx ∈ E then
              if h.2.isEmpty then (acc.1, acc.2.1 + 1, acc.2.2)
              else (counterUpdate acc.1 h.2, acc.2.1, acc.2.2)
            else if memDT idx P then acc
            else (acc.1, acc.2.1, acc.2.2 ++ [(some idx, h.2)]))
        acc).1.map Prod.fst).Nodup) ∧
      (∀ hh ∈ (l.foldl
        (fun (acc : List (PyStr × Nat) × Nat × List (Option Int × List PyStr)) h =>
          match h.1 with
          | none =>
            if h.2.isEmpty then (acc.1, acc.2.1 + 1, acc.2.2)
            else (counterUpdate acc.1 h.2, acc.2.1, acc.2.2)
          | some idx =>
            if idx ∈ E then
              if h.2.isEmpty then (acc.1, acc.2.1 + 1, acc.2.2)
              else (counterUpdate acc.1 h.2, acc.2.1, acc.2.2)
            else if memDT idx P then acc
            else (acc.1, acc.2.1, acc.2.2 ++ [(some idx, h.2)]))
        acc).2.2, hh.2.Nodup) ∧
      acc.2.1 ≤ (l.foldl
        (fun (acc : List (PyStr × Nat) × Nat × List (Option Int × List PyStr)) h =>
          match h.1 with
          | none =>
            if h.2.isEmpty then (acc.1, acc.2.1 + 1, acc.2.2)
            else (counterUpdate acc.1 h.2, acc.2.1, acc.2.2)
          | some idx =>
            if idx ∈ E then
              if h.2.isEmpty then (acc.1, acc.2.1 + 1, acc.2.2)
              else (counterUpdate acc.1 h.2, acc.2.1, acc.2.2)
            else if memDT idx P then acc
            else (acc.1, acc.2.1, acc.2.2 ++ [(some idx, h.2)]))
        acc).2.1 := by
  intro l
  induction l with
  | nil =>
    intro acc _ hK hpend
    exact ⟨by simp, hK, hpend, le_refl _⟩
  | cons x xs ih =>
    intro acc hl hK hpend
    simp only [List.foldl_cons]
    have hxN : x.2.Nodup := hl x (List.mem_cons_self _ _)
    have hlrest : ∀ hh ∈ xs, hh.2.Nodup :=
      fun hh h => hl hh (List.mem_cons_of_mem _ h)
    -- case on the step
    rcases hx1 : x.1 with _ | idx
    · by_cases hx2 : x.2.isEmpty
      · simp only [hx1, hx2, if_true]
        rcases ih (acc.1, acc.2.1 + 1, acc.2.2) hlrest hK hpend with
          ⟨hb, hN, hp, hg⟩
        refine ⟨?_, hN, hp, le_trans (Nat.le_succ _) hg⟩
        refine le_trans hb ?_
        simp only [List.length_cons]
        omega
      · simp only [hx1, hx2, if_false]
        rcases ih (counterUpdate acc.1 x.2, acc.2.1, acc.2.2) hlrest
          (counterUpdate_nodup _ _ hK) hpend with ⟨hb, hN, hp, hg⟩
        refine ⟨?_, hN, hp, hg⟩
        refine le_trans hb ?_
        have := scoreAux_counterUpdate_le L acc.1 x.2 hxN hK
        simp only [List.length_cons]
        omega
    · by_cases hxe : idx ∈ E
      · by_cases hx2 : x.2.isEmpty
        · simp only [hx1, hxe, hx2, if_true]
          rcases ih (acc.1, acc.2.1 + 1, acc.2.2) hlrest hK hpend with
            ⟨hb, hN, hp, hg⟩
          refine ⟨?_, hN, hp, le_trans (Nat.le_succ _) hg⟩
          refine le_trans hb ?_
          simp only [List.length_cons]
          omega
        · simp only [hx1, hxe, hx2, if_true, if_false]
          rcases ih (counterUpdate acc.1 x.2, acc.2.1, acc.2.2) hlrest
            (counterUpdate_nodup _ _ hK) hpend with ⟨hb, hN, hp, hg⟩
          refine ⟨?_, hN, hp, hg⟩
          refine le_trans hb ?_
          have := scoreAux_counterUpdate_le L acc.1 x.2 hxN hK
          simp only [List.length_cons]
          omega
      · by_cases hxm : memDT idx P
        · simp only [hx1, hxe, hxm, if_true, if_false]
          rcases ih acc hlrest hK hpend with ⟨hb, hN, hp, hg⟩
          refine ⟨?_, hN, hp, hg⟩
          refine le_trans hb ?_
          simp only [List.length_cons]
          omega
        · simp only [hx1, hxe, hxm, if_false]
          rcases ih (acc.1, acc.2.1, acc.2.2 ++ [(some idx, x.2)]) hlrest hK
            (by
              intro hh h
              rcases List.mem_append.1 h with h1 | h1
              · exact hpend hh h1
              · simp only [List.mem_singleton] at h1
                subst h1
                exact hxN) with ⟨hb, hN, hp, hg⟩
          refine ⟨?_, hN, hp, hg⟩
          refine le_trans hb ?_
          dsimp only
          simp only [List.length_append, List.length_cons, List.length_nil]
          omega

end Percentagent
